import Mathlib

/-!
# Optimisation routines of `inc/opt.h` and the n-slack classifier of `inc/nssvm.h`

A shallow embedding of `backSubst`, `solveCholesky`, `weakQuadraticOpt`,
`strongQuadraticOpt`, `pickVars` and `quadOptBox`, with the arithmetic of the
template parameter `_T` carried out exactly in the ordered field `ℚ`, followed
by the members of `CnsSSVM` and of its oracles that the statements are about,
the worker `FFComputer` of `inc/clsf.h`, the loss functions of `inc/loss.h`
and the members `setValue`, `getValue` and `operator+=` of `CSparseSample`
(`src/sample.cpp`).

Conventions of the embedding

* A `vector<_T>` is a `List ℚ`; a matrix is stored row-major in such a list.
  `rd v i` reads `v[i]`.  With consistent sizes (`Q.size() = n*n` for
  `n = b.size() ≥ 1`) the source reads inside its vectors only; a read past
  the end, which has no defined value in the source, yields `0` here.
* An element assignment `v[i] = a` is `v.set i a`.
* `for (i = 0; i < k; ++i) body` is `forUp body k`; `forUpM` is the same loop
  with a body that may leave through an exception or an early `return`.
* A division whose divisor is exactly zero has no value in an ordered field
  (the source obtains an IEEE infinity or NaN and carries on with it).  The
  embedding stops such a run with `Err.divZero`; a thrown `std::logic_error`
  is `Err.logic`.
* Sizes and indices are `unsigned int` in the source.  For `n ≥ 65536` the
  product `n*n` wraps, the vectors allocated with that size are too short and
  the loops index past their end; those runs have no defined behaviour, and
  the embedding computes sizes and indices in `Nat`.  The one place where the
  wrapped product decides a defined outcome is the size test of `quadOptBox`
  (`dimMismatch`), which takes the product modulo `2^32` as the source does.
-/

namespace Strut

/-! ## Basic vocabulary -/

/-- Abnormal outcomes of a routine. -/
inductive Err where
  | logic
  | divZero
deriving DecidableEq, Repr

instance instDecEqExcept {ε α : Type} [DecidableEq ε] [DecidableEq α] :
    DecidableEq (Except ε α)
  | Except.ok a, Except.ok b =>
    if h : a = b then isTrue (by rw [h]) else isFalse (fun h2 => h (Except.ok.inj h2))
  | Except.error a, Except.error b =>
    if h : a = b then isTrue (by rw [h]) else isFalse (fun h2 => h (Except.error.inj h2))
  | Except.ok _, Except.error _ => isFalse (fun h => by cases h)
  | Except.error _, Except.ok _ => isFalse (fun h => by cases h)

/-- Read of `v[i]`. -/
def rd (v : List ℚ) (i : Nat) : ℚ := v.getD i 0

/-- Division `a / d` of the source; a zero divisor ends the run. -/
def fdiv (a d : ℚ) : Except Err ℚ :=
  if d = 0 then Except.error Err.divZero else Except.ok (a / d)

/-- The loop `for (i = 0; i < k; ++i) s = body i s`. -/
def forUp {σ : Type} (body : Nat → σ → σ) : Nat → σ → σ
  | 0, s => s
  | k + 1, s => body k (forUp body k s)

/-- The loop `for (i = 0; i < k; ++i)` whose body may leave the loop. -/
def forUpM {ε σ : Type} (body : Nat → σ → Except ε σ) : Nat → σ → Except ε σ
  | 0, s => Except.ok s
  | k + 1, s =>
    match forUpM body k s with
    | Except.ok t => body k t
    | Except.error e => Except.error e

/-- The call `v.insert(v.begin() + i, a)`. -/
def insertAt (v : List ℚ) (i : Nat) (a : ℚ) : List ℚ := v.take i ++ a :: v.drop i

/-! ## `backSubst` (opt.h lines 14-46) -/

/-- Forward substitution, lines 23-32: solves `LD y = b`. -/
def forwardSubst (LD b : List ℚ) : Except Err (List ℚ) :=
  let n := b.length
  let y : List ℚ := List.replicate n 0
  match fdiv (rd b 0) (rd LD 0) with
  | Except.error e => Except.error e
  | Except.ok y0 =>
    forUpM (fun k (y : List ℚ) =>
      let i := k + 1
      let r := i * n
      let prev_sum := forUp (fun j s => s + rd LD (r + j) * rd y j) i 0
      match fdiv (rd b i - prev_sum) (rd LD (r + i)) with
      | Except.error e => Except.error e
      | Except.ok v => Except.ok (y.set i v)) (n - 1) (y.set 0 y0)

/-- Backward substitution, lines 35-43: solves `Lᵀ x = y`; the loop index
`i` runs from `n-2` down to `0`. -/
def backwardSubst (L y : List ℚ) (n : Nat) : List ℚ :=
  let x : List ℚ := List.replicate n 0
  let x := x.set (n - 1) (rd y (n - 1))
  forUp (fun k (x : List ℚ) =>
    let i := n - 2 - k
    let prev_sum :=
      forUp (fun t s => s + rd L ((i + 1 + t) * n + i) * rd x (i + 1 + t)) (n - 1 - i) 0
    x.set i (rd y i - prev_sum)) (n - 1) x

/-- Solves `L D Lᵀ x = b`. -/
def backSubst (L LD b : List ℚ) : Except Err (List ℚ) :=
  match forwardSubst LD b with
  | Except.error e => Except.error e
  | Except.ok y => Except.ok (backwardSubst L y b.length)

/-! ## `solveCholesky` (opt.h lines 48-142) -/

/-- Ways in which the factorisation loop stops before its last row. -/
inductive CholExit where
  | divZero
  | singular (i : Nat)
deriving DecidableEq, Repr

/-- Lines 69-74: the entry `L[i*n+j]`, accumulated in place. -/
def cholEntry (Q D : List ℚ) (n i j : Nat) (L : List ℚ) : Except Err (List ℚ) :=
  let r := i * n
  let ij := r + j
  let c := j * n
  let L := L.set ij (rd Q ij)
  let L := forUp (fun k (L : List ℚ) =>
    L.set ij (rd L ij - rd L (r + k) * rd L (c + k) * rd D k)) j L
  match fdiv (rd L ij) (rd D j) with
  | Except.error e => Except.error e
  | Except.ok v => Except.ok (L.set ij v)

/-- Lines 64-86: row `i` of `L` and the pivot `D[i]`. -/
def cholRow (Q : List ℚ) (n i : Nat) (st : List ℚ × List ℚ) :
    Except Err (List ℚ × List ℚ) :=
  match forUpM (cholEntry Q st.2 n i) i st.1 with
  | Except.error e => Except.error e
  | Except.ok L =>
    let r := i * n
    let ii := r + i
    let L := L.set ii 1
    let D := st.2.set i (rd Q ii)
    let D := forUp (fun k (D : List ℚ) =>
      let d := rd L (r + k)
      D.set i (rd D i - d * d * rd D k)) i D
    Except.ok (L, D)

/-- Lines 61-123 without the recursive call: the loop over the rows
`i = 1 .. n-1`, left at the first row whose pivot is zero. -/
def cholFactor (Q : List ℚ) (n : Nat) : Except CholExit (List ℚ × List ℚ) :=
  let L : List ℚ := (List.replicate (n * n) 0).set 0 1
  let D : List ℚ := (List.replicate n 0).set 0 (rd Q 0)
  forUpM (fun k (st : List ℚ × List ℚ) =>
    let i := k + 1
    match cholRow Q n i st with
    | Except.error _ => Except.error CholExit.divZero
    | Except.ok st =>
      if rd st.2 i = 0 then Except.error (CholExit.singular i) else Except.ok st)
    (n - 1) (L, D)

/-- State of the copy loops that drop one row and column: the reduced
matrix, its write position, the reduced vector, its write position. -/
structure DropState where
  Qr : List ℚ
  Qr_i : Nat
  br : List ℚ
  br_i : Nat

/-- Lines 92-110 (and 229-247, which copy the entry of `b` before the row
instead of after it): `Q` without row and column `i`, `b` without entry `i`. -/
def dropRowCol (Q b : List ℚ) (n i : Nat) : List ℚ × List ℚ :=
  let st := forUp (fun ri (st : DropState) =>
    if ri = i then st
    else
      let rr := ri * n
      let st := forUp (fun rj (st : DropState) =>
        if rj = i then st
        else { st with Qr := st.Qr.set st.Qr_i (rd Q (rr + rj)), Qr_i := st.Qr_i + 1 }) n st
      { st with br := st.br.set st.br_i (rd b ri), br_i := st.br_i + 1 }) n
    { Qr := List.replicate ((n - 1) * (n - 1)) 0, Qr_i := 0,
      br := List.replicate (n - 1) 0, br_i := 0 }
  (st.Qr, st.br)

/-- Lines 126-132: the product `LD`. -/
def mkLD (L D : List ℚ) (n : Nat) : List ℚ :=
  forUp (fun i (LD : List ℚ) =>
    let r := i * n
    forUp (fun j (LD : List ℚ) => LD.set (r + j) (rd L (r + j) * rd D j)) (i + 1) LD)
    n (List.replicate (n * n) 0)

/-- The routine `solveCholesky` for dimension `n = b.size()`; the recursive
call of line 113 is made on dimension `n - 1`.  For `n = 0` the source
writes `L[0]` of an empty vector; the embedding returns empty vectors. -/
def solveCholeskyN : Nat → List ℚ → List ℚ → Except Err (List ℚ × List ℚ)
  | 0, _, _ => Except.ok ([], [])
  | m + 1, Q, b =>
    let n := m + 1
    match cholFactor Q n with
    | Except.error CholExit.divZero => Except.error Err.divZero
    | Except.error (CholExit.singular i) =>
      match solveCholeskyN m (dropRowCol Q b n i).1 (dropRowCol Q b n i).2 with
      | Except.error e => Except.error e
      | Except.ok xy => Except.ok (insertAt xy.1 i 0, insertAt xy.2 i 0)
    | Except.ok LDpair =>
      let LD := mkLD LDpair.1 LDpair.2 n
      match backSubst LDpair.1 LD b with
      | Except.error e => Except.error e
      | Except.ok x =>
        match backSubst LDpair.1 LD (List.replicate n 1) with
        | Except.error e => Except.error e
        | Except.ok y => Except.ok (x, y)

/-- Solves `Q x = b` and `Q y = 1`; returns the pair `(x, y)`. -/
def solveCholesky (Q b : List ℚ) : Except Err (List ℚ × List ℚ) :=
  solveCholeskyN b.length Q b

/-! ## `weakQuadraticOpt` (opt.h lines 144-203) -/

/-- Lines 178-180: does `x` have a negative entry among its first `n`? -/
def hasNeg (x : List ℚ) (n : Nat) : Bool :=
  forUp (fun i (h : Bool) => if rd x i < 0 then true else h) n false

/-- Lines 183-184 and 191-192: the sum of the first `n` entries. -/
def vsum (x : List ℚ) (n : Nat) : ℚ :=
  forUp (fun i (s : ℚ) => s + rd x i) n 0

/-- Maximizes `-1/2 xᵀQx + bᵀx` subject to `Σ x ≤ Cn`. -/
def weakQuadraticOpt (Q b : List ℚ) (Cn : ℚ) : Except Err (List ℚ) :=
  if Q.length = 1 then
    if rd Q 0 = 0 then
      if rd b 0 = 0 then Except.ok [0] else Except.error Err.logic
    else
      match fdiv (rd b 0) (rd Q 0) with
      | Except.error e => Except.error e
      | Except.ok val =>
        let val := if val > Cn then Cn else val
        let val := if val < 0 then 0 else val
        Except.ok [val]
  else
    let n := b.length
    match solveCholesky Q b with
    | Except.error e => Except.error e
    | Except.ok xy =>
      let x := xy.1
      let y := xy.2
      let bHasNeg := hasNeg x n
      let xsum := vsum x n
      if bHasNeg = false ∧ xsum ≤ Cn then Except.ok x
      else
        let ysum := vsum y n
        let lambda := xsum - Cn
        let lambda := if lambda < 0 then 0 else lambda
        match fdiv lambda ysum with
        | Except.error e => Except.error e
        | Except.ok lambda =>
          Except.ok (forUp (fun i (x : List ℚ) => x.set i (rd x i - lambda * rd y i)) n x)

/-! ## `strongQuadraticOpt` (opt.h lines 205-257) -/

/-- Lines 217-223: position and value of the smallest entry, the first one
among equals. -/
def argMin (x : List ℚ) (n : Nat) : Nat × ℚ :=
  forUp (fun k (st : Nat × ℚ) =>
    let i := k + 1
    if rd x i < st.2 then (i, rd x i) else st) (n - 1) (0, rd x 0)

/-- The routine `strongQuadraticOpt` for dimension `n = b.size()`; the
recursive call of line 250 is made on dimension `n - 1`.  For `n = 0` the
source reads `x[0]` of an empty vector; the embedding returns the result of
the weak routine. -/
def strongQuadraticOptN : Nat → List ℚ → List ℚ → ℚ → Except Err (List ℚ)
  | 0, Q, b, Cn => weakQuadraticOpt Q b Cn
  | m + 1, Q, b, Cn =>
    let n := m + 1
    match weakQuadraticOpt Q b Cn with
    | Except.error e => Except.error e
    | Except.ok x =>
      let am := argMin x n
      if am.2 ≥ 0 then Except.ok x
      else
        match strongQuadraticOptN m (dropRowCol Q b n am.1).1 (dropRowCol Q b n am.1).2 Cn with
        | Except.error e => Except.error e
        | Except.ok x2 => Except.ok (insertAt x2 am.1 0)

/-- Maximizes `-1/2 xᵀQx + bᵀx` subject to `Σ x ≤ Cn` and `x_i ≥ 0`. -/
def strongQuadraticOpt (Q b : List ℚ) (Cn : ℚ) : Except Err (List ℚ) :=
  strongQuadraticOptN b.length Q b Cn

/-! ## `pickVars` (opt.h lines 259-316) -/

/-- Lines 270-282: the gradient `-Qx + b`. -/
def gradient (Q b x : List ℚ) (n : Nat) : List ℚ :=
  forUp (fun i (g : List ℚ) =>
    let g := g.set i 0
    let r := i * n
    let g := forUp (fun k (g : List ℚ) => g.set i (rd g i - rd Q (r + k) * rd x k)) n g
    g.set i (rd g i + rd b i)) n (List.replicate n 0)

/-- The four locals of the selection loop; `none` is the initial value of
`gmax` (minus infinity) and of `gmin` (plus infinity). -/
structure PickState where
  xmax : Int
  gmax : Option ℚ
  xmin : Int
  gmin : Option ℚ

/-- The test `g > gmax`. -/
def aboveMax (g : ℚ) : Option ℚ → Bool
  | none => true
  | some m => decide (g > m)

/-- The test `g <= gmin`. -/
def notAboveMin (g : ℚ) : Option ℚ → Bool
  | none => true
  | some m => decide (g ≤ m)

/-- The condition of lines 298-299 and 306-307. -/
def eligible (g x C : ℚ) : Bool :=
  (decide (g > 0) && decide (x < C)) || (decide (g < 0) && decide (x > 0))

/-- Lines 293-310: one round of the selection loop. -/
def pickStep (g x : List ℚ) (C : ℚ) (i : Nat) (st : PickState) : PickState :=
  let st :=
    if aboveMax (rd g i) st.gmax then
      if eligible (rd g i) (rd x i) C then { st with xmax := (i : Int), gmax := some (rd g i) }
      else st
    else st
  if notAboveMin (rd g i) st.gmin then
    if eligible (rd g i) (rd x i) C then { st with xmin := (i : Int), gmin := some (rd g i) }
    else st
  else st

/-- Selects a pair of variables; the result is `(xmin, xmax)`. -/
def pickVars (Q b x : List ℚ) (C : ℚ) : Int × Int :=
  let n := b.length
  let g := gradient Q b x n
  let st := forUp (pickStep g x C) n { xmax := -1, gmax := none, xmin := -1, gmin := none }
  let xmax := if st.xmin = st.xmax then -1 else st.xmax
  (st.xmin, xmax)

/-! ## `quadOptBox` (opt.h lines 318-481) -/

/-- How the main loop of `quadOptBox` is left. -/
inductive BoxExit where
  | noViolation
  | smallStep
  | stepCap
deriving DecidableEq, Repr

/-- Lines 395-396, 442-443: the two boundary checks, in source order. -/
def clampBox (v C : ℚ) : ℚ :=
  let v := if v < 0 then 0 else v
  if v > C then C else v

/-- Line 327: the test `Q.size() != n*n`.  The product `n*n` is taken in
`unsigned int`, that is, modulo `2^32`, before it is compared with the size. -/
def dimMismatch (Q b : List ℚ) : Bool :=
  decide (Q.length ≠ (b.length * b.length) % 4294967296)

/-- Lines 326-345: the three precondition checks. -/
def boxChecks (Q b : List ℚ) : Except Err Unit :=
  let n := b.length
  if dimMismatch Q b = true then Except.error Err.logic
  else
    match forUpM (fun i (_ : Unit) =>
        if rd Q (i * n + i) = 0 then Except.error Err.logic else Except.ok ()) n () with
    | Except.error e => Except.error e
    | Except.ok _ =>
      forUpM (fun i (_ : Unit) =>
        forUpM (fun j (_ : Unit) =>
          if rd Q (i * n + j) ≠ rd Q (j * n + i) then Except.error Err.logic
          else Except.ok ()) n ()) n ()

/-- Lines 377-400: the single-direction update of coordinate `i`.  The
second component tells whether the loop is left by the `break`. -/
def boxSingle (Q b x : List ℚ) (C eps : ℚ) (n i : Nat) : Except Err (List ℚ × Bool) :=
  let oldVal := rd x i
  let num := rd b i
  let num := forUp (fun k (num : ℚ) => num - rd Q (i * n + k) * rd x k) n num
  let num := num + rd Q (i * n + i) * rd x i
  match fdiv num (rd Q (i * n + i)) with
  | Except.error e => Except.error e
  | Except.ok v =>
    let x := x.set i v
    let x := x.set i (clampBox (rd x i) C)
    let diff := rd x i - oldVal
    Except.ok (x, decide (diff < eps) && decide (diff > -eps))

/-- Lines 406-449: the update of the pair `(i, j)`. -/
def boxPair (Q b x : List ℚ) (C eps : ℚ) (n i j : Nat) : Except Err (List ℚ × Bool) :=
  let qii := rd Q (i * n + i)
  let qij := rd Q (i * n + j)
  let qjj := rd Q (j * n + j)
  let oldVali := rd x i
  let oldValj := rd x j
  let rhs := forUp (fun k (rhs : ℚ × ℚ) =>
    (rhs.1 - rd Q (i * n + k) * rd x k, rhs.2 - rd Q (j * n + k) * rd x k)) n (rd b i, rd b j)
  let rhsi := rhs.1 + (qii * rd x i + qij * rd x j)
  let rhsj := rhs.2 + (qij * rd x i + qjj * rd x j)
  let solved : Except Err (List ℚ) :=
    if qij = 0 then
      match fdiv rhsi qii with
      | Except.error e => Except.error e
      | Except.ok vi =>
        let x := x.set i vi
        match fdiv rhsj qjj with
        | Except.error e => Except.error e
        | Except.ok vj => Except.ok (x.set j vj)
    else
      match fdiv (qij * rhsi - qii * rhsj) (qij * qij - qii * qjj) with
      | Except.error e => Except.error e
      | Except.ok vj =>
        let x := x.set j vj
        match fdiv (rhsi - qij * rd x j) qii with
        | Except.error e => Except.error e
        | Except.ok vi => Except.ok (x.set i vi)
  match solved with
  | Except.error e => Except.error e
  | Except.ok x =>
    let x := x.set i (clampBox (rd x i) C)
    let x := x.set j (clampBox (rd x j) C)
    let diffi := rd x i - oldVali
    let diffj := rd x j - oldValj
    Except.ok (x, decide (diffi < eps) && decide (diffi > -eps)
      && decide (diffj < eps) && decide (diffj > -eps))

/-- Lines 368-450: one round of the main loop.  The result is the new `x`
and, when the round ends in a `break`, the reason. -/
def boxStep (Q b x : List ℚ) (C eps : ℚ) (n : Nat) : Except Err (List ℚ × Option BoxExit) :=
  let violPair := pickVars Q b x C
  if violPair.1 < 0 ∧ violPair.2 < 0 then Except.ok (x, some BoxExit.noViolation)
  else if violPair.1 < 0 ∨ violPair.2 < 0 then
    let i := if violPair.2 < 0 then violPair.1 else violPair.2
    match boxSingle Q b x C eps n i.toNat with
    | Except.error e => Except.error e
    | Except.ok r => Except.ok (r.1, if r.2 then some BoxExit.smallStep else none)
  else
    match boxPair Q b x C eps n violPair.1.toNat violPair.2.toNat with
    | Except.error e => Except.error e
    | Except.ok r => Except.ok (r.1, if r.2 then some BoxExit.smallStep else none)

/-- Lines 358-451: the main loop with `nSteps` rounds left. -/
def boxLoop (Q b : List ℚ) (C eps : ℚ) (n : Nat) :
    Nat → List ℚ → Except Err (List ℚ × BoxExit)
  | 0, x => Except.ok (x, BoxExit.stepCap)
  | k + 1, x =>
    match boxStep Q b x C eps n with
    | Except.error e => Except.error e
    | Except.ok (x1, some reason) => Except.ok (x1, reason)
    | Except.ok (x1, none) => boxLoop Q b C eps n k x1

/-- The routine `quadOptBox`, together with the way its loop was left. -/
def quadOptBoxTrace (Q b : List ℚ) (C eps : ℚ) (nSteps : Nat) :
    Except Err (List ℚ × BoxExit) :=
  match boxChecks Q b with
  | Except.error e => Except.error e
  | Except.ok _ => boxLoop Q b C eps b.length nSteps (List.replicate b.length 0)

/-- Maximizes `-1/2 xᵀQx + bᵀx` subject to `0 ≤ x_i ≤ C`. -/
def quadOptBox (Q b : List ℚ) (C eps : ℚ) (nSteps : Nat) : Except Err (List ℚ) :=
  match quadOptBoxTrace Q b C eps nSteps with
  | Except.error e => Except.error e
  | Except.ok r => Except.ok r.1

/-! ## Vocabulary of the statements -/

/-- The matrix stored in `Q` is symmetric. -/
def IsSymm (Q : List ℚ) (n : Nat) : Prop :=
  ∀ i j, i < n → j < n → rd Q (i * n + j) = rd Q (j * n + i)

/-- The quadratic form `vᵀ Q v`. -/
def quadForm (Q : List ℚ) (n : Nat) (v : Nat → ℚ) : ℚ :=
  ∑ i in Finset.range n, ∑ j in Finset.range n, v i * rd Q (i * n + j) * v j

/-- The matrix stored in `Q` is positive definite. -/
def IsPosDef (Q : List ℚ) (n : Nat) : Prop :=
  ∀ v : Nat → ℚ, (∃ i, i < n ∧ v i ≠ 0) → 0 < quadForm Q n v

/-- The product `Q x` of the `n`-by-`n` matrix `Q` with the vector `x`. -/
def matVec (Q : List ℚ) (n : Nat) (x : List ℚ) : List ℚ :=
  (List.range n).map (fun i => ((List.range n).map (fun j => rd Q (i * n + j) * rd x j)).sum)

/-- The lower triangle of `l`, zero above the diagonal. -/
def lowerPart (l : Nat → Nat → ℚ) (i k : Nat) : ℚ := if k ≤ i then l i k else 0

/-- The recurrences of the factorisation `Q = L D Lᵀ`, rows `0 .. m`. -/
def FactInv (Q : List ℚ) (n m : Nat) (L D : List ℚ) : Prop :=
  L.length = n * n ∧ D.length = n ∧
  (∀ i, i ≤ m → rd L (i * n + i) = 1) ∧
  (∀ i j, i ≤ m → j < i →
    rd L (i * n + j) * rd D j
      = rd Q (i * n + j) - ∑ k in Finset.range j, rd L (i * n + k) * rd L (j * n + k) * rd D k) ∧
  (∀ i, i ≤ m →
    rd D i = rd Q (i * n + i) - ∑ k in Finset.range i, rd L (i * n + k) * rd L (i * n + k) * rd D k)

/-- Position in the full system of entry `a` of the reduced system. -/
def skipIdx (i a : Nat) : Nat := if a < i then a else a + 1

/-- Number of indices below `a` that differ from `i`. -/
def dropCount (i a : Nat) : Nat := if a ≤ i then a else a - 1

/-- The inner product of the first `n` entries of `u` and `v`. -/
def dotN (n : Nat) (u v : List ℚ) : ℚ :=
  ((List.range n).map (fun i => rd u i * rd v i)).sum

/-- The objective `-1/2 xᵀQx + bᵀx` of the three maximizers. -/
def objective (Q b : List ℚ) (n : Nat) (x : List ℚ) : ℚ :=
  -(1 / 2) * dotN n x (matVec Q n x) + dotN n b x

/-- The three faults looked for by the precondition checks of `quadOptBox`:
mismatching sizes as the test of line 327 sees them, a zero on the diagonal,
an asymmetric pair of entries. -/
def BoxFault (Q b : List ℚ) : Prop :=
  dimMismatch Q b = true ∨
  (∃ i, i < b.length ∧ rd Q (i * b.length + i) = 0) ∨
  (∃ i, i < b.length ∧ ∃ j, j < b.length ∧
    rd Q (i * b.length + j) ≠ rd Q (j * b.length + i))

/-- Every entry of `x` lies in the box `[0, C]`. -/
def InBox (x : List ℚ) (C : ℚ) : Prop := ∀ k, k < x.length → 0 ≤ rd x k ∧ rd x k ≤ C

/-- Entry `i` of the gradient `b - Q x`. -/
def gradAt (Q b x : List ℚ) (n i : Nat) : ℚ :=
  rd b i - ∑ k in Finset.range n, rd Q (i * n + k) * rd x k

/-! ## Vocabulary of the later statements -/

/-- The product `L diag(D) Lᵀ` of the `n`-by-`n` matrix `L` and the diagonal
`D`, stored row-major. -/
def ldlt (L D : List ℚ) (n : Nat) : List ℚ :=
  (List.range (n * n)).map (fun p =>
    ((List.range n).map (fun k => rd L (p / n * n + k) * rd D k * rd L (p % n * n + k))).sum)

/-- The matrix stored in `L` is lower triangular with ones on the diagonal. -/
def IsUnitLower (L : List ℚ) (n : Nat) : Prop :=
  (∀ i, i < n → rd L (i * n + i) = 1) ∧
  (∀ i j, i < n → j < n → i < j → rd L (i * n + j) = 0)

/-- Number of nested recursive calls (line 113) made by `solveCholesky` in
dimension `n`. -/
def cholDepth : Nat → List ℚ → List ℚ → Nat
  | 0, _, _ => 0
  | m + 1, Q, b =>
    match cholFactor Q (m + 1) with
    | Except.error (CholExit.singular i) =>
      1 + cholDepth m (dropRowCol Q b (m + 1) i).1 (dropRowCol Q b (m + 1) i).2
    | _ => 0

/-- Number of nested recursive calls (line 250) made by `strongQuadraticOpt`
in dimension `n`. -/
def strongDepth : Nat → List ℚ → List ℚ → ℚ → Nat
  | 0, _, _, _ => 0
  | m + 1, Q, b, Cn =>
    match weakQuadraticOpt Q b Cn with
    | Except.error _ => 0
    | Except.ok x =>
      let am := argMin x (m + 1)
      if am.2 ≥ 0 then 0
      else 1 + strongDepth m (dropRowCol Q b (m + 1) am.1).1 (dropRowCol Q b (m + 1) am.1).2 Cn

/-- The vector `x` after `k` rounds of the main loop of `quadOptBox`, none
of them leaving the loop before its end. -/
def boxIterate (Q b : List ℚ) (C eps : ℚ) (n : Nat) : Nat → List ℚ → Except Err (List ℚ)
  | 0, x => Except.ok x
  | k + 1, x =>
    match boxStep Q b x C eps n with
    | Except.error e => Except.error e
    | Except.ok r => boxIterate Q b C eps n k r.1

/-! ## The n-slack classifier of `inc/nssvm.h`

The bodies of the members of `CnsSSVM` and of `FLoopyOracle_m::operator()`
are in the included file `nssvm_impl`, which is not part of the sources at
hand; `nssvm.h` holds the declarations and the inline bodies of the
slack-rescaling members. -/

/-- The parameters `SSSVMParams` (nssvm.h lines 17-30). -/
structure SSSVMParams where
  Cn : ℚ
  eps : ℚ
  nMaxQPSteps : Nat
  fnPrefix : String

/-- The data members of `CnsSSVM` (nssvm.h lines 95-111).  A coefficient map
`svec_t`, an `unordered_map< unsigned int, double >` (types.h line 57), is
given by its lookup: `some w` for a key stored with the value `w`, `none` for
a key that is not stored.  Two maps are equal when they store the same keys
with the same values. -/
structure CnsSSVM where
  params : SSSVMParams
  alpha : List (Nat → Option ℚ)
  asum : List ℚ
  yLast : List (List Nat)
  Jcache : List (List ℚ)

/-- The call `FLoopyOracle_s::operator()` (nssvm.h line 65). -/
def FLoopyOracle_s_call (_svm : CnsSSVM) (_epsilon : ℚ) (_xi : Nat) : Except Err Int :=
  Except.error Err.logic

/-- The member `makeDefaultOracle( _SResc<'s'> )` (nssvm.h lines 91-92): the
oracle built for slack rescaling. -/
def makeDefaultOracle_s (svm : CnsSSVM) : Nat → Except Err Int :=
  FLoopyOracle_s_call svm svm.params.eps

/-- The member `SVMopt( _SResc<'s'>, k, Cn )` (nssvm.h lines 161-162). -/
def SVMopt_s (_svm : CnsSSVM) (_k : Nat) (_Cn : ℚ) : Except Err CnsSSVM :=
  Except.error Err.logic

/-- The member `obj( _SResc<'s'>, dual )` (nssvm.h lines 165-166); a normal
return would carry the primal and the dual value. -/
def obj_s (_svm : CnsSSVM) : Except Err (ℚ × ℚ) :=
  Except.error Err.logic

/-- The member `mostViolConstraint( _SResc<'s'>, xi )` (nssvm.h lines 171-172). -/
def mostViolConstraint_s (_svm : CnsSSVM) (_xi : Nat) : Except Err Int :=
  Except.error Err.logic

/-- The member `compSlackAll( _SResc<'s'>, xi )` (nssvm.h lines 177-178). -/
def compSlackAll_s (_svm : CnsSSVM) (_xi : Nat) : Except Err ℚ :=
  Except.error Err.logic

/-- Modelled from the spec: the scan of `FLoopyOracle_m::operator()`, whose
body is in `nssvm_impl`.  The candidate labels `0 .. m-1` are visited in
ascending order; the best label so far and its margin-violation score are
kept, and a later label replaces it only with a strictly larger score. -/
def oracleScan (viol : Nat → ℚ) : Nat → Option (Nat × ℚ)
  | 0 => none
  | m + 1 =>
    match oracleScan viol m with
    | none => some (m, viol m)
    | some best => if viol m > best.2 then some (m, viol m) else some best

/-- Modelled from the spec: `FLoopyOracle_m::operator()`, whose body is in
`nssvm_impl`.  `viol svm xi ybar` is the margin-violation score of the label
`ybar` for the sample `xi` in the model state `svm`, `nO` the size of the
output space.  The label with the largest score is returned if that score
exceeds `epsilon`, and `-1` otherwise. -/
def FLoopyOracle_m_call (viol : CnsSSVM → Nat → Nat → ℚ) (nO : Nat) (svm : CnsSSVM)
    (epsilon : ℚ) (xi : Nat) : Int :=
  match oracleScan (viol svm xi) nO with
  | none => -1
  | some best => if best.2 > epsilon then (best.1 : Int) else -1

/-- Modelled from the spec: the content of a checkpoint file (the layout is
written by `CnsSSVM::save`, whose body is in `nssvm_impl`): the iteration
counter, the label history of every sample, the coefficients of every sample
aligned with its history, and the cache. -/
structure Checkpoint where
  iter : Nat
  hist : List (List Nat)
  coef : List (List ℚ)
  cache : List (List ℚ)

/-- Modelled from the spec: the path of the checkpoint file, the prefix
followed by a fixed suffix. -/
def checkpointPath (pre : String) : String := pre ++ ".ckpt"

/-- Modelled from the spec: `CnsSSVM::save`, whose body is in `nssvm_impl`.
The files are a map from paths to contents; the snapshot of the state at
iteration `iter` is written to the path derived from the prefix.  The
coefficient list of a sample holds, for every label of its history in order,
the weight of that label. -/
def save (svm : CnsSSVM) (iter : Nat) (files : String → Option Checkpoint) :
    String → Option Checkpoint :=
  fun path =>
    if path = checkpointPath svm.params.fnPrefix then
      some { iter := iter, hist := svm.yLast,
             coef := List.zipWith (fun a h => h.map (fun y => (a y).getD 0))
               svm.alpha svm.yLast,
             cache := svm.Jcache }
    else files path

/-- Modelled from the spec: the coefficient map read back from a history and
the coefficient list aligned with it: every label of the history is stored
with its coefficient, and no other key is. -/
def mapOf : List Nat → List ℚ → Nat → Option ℚ
  | h :: hs, c :: cs, y => if y = h then some c else mapOf hs cs y
  | _, _, _ => none

/-- Modelled from the spec: `CnsSSVM::preload`, whose body is in `nssvm_impl`.
The checkpoint of the prefix is read back; the result is the iteration index
and the restored state, or `-1` and the state as it was when there is no
checkpoint. -/
def preload (svm : CnsSSVM) (files : String → Option Checkpoint) : Int × CnsSSVM :=
  match files (checkpointPath svm.params.fnPrefix) with
  | none => (-1, svm)
  | some ck =>
    ((ck.iter : Int),
     { svm with
       alpha := List.zipWith mapOf ck.hist ck.coef,
       asum := ck.coef.map List.sum,
       yLast := ck.hist,
       Jcache := ck.cache })

/-- The member `clear` (nssvm.h line 121). -/
def clear (svm : CnsSSVM) : CnsSSVM :=
  { svm with alpha := [], asum := [], yLast := [], Jcache := [] }

/-- Modelled from the spec: the start of training on `n` samples (the body of
`train` is in `nssvm_impl`): every sample has an empty coefficient map, an
empty history and an empty cache. -/
def startTraining (svm : CnsSSVM) (n : Nat) : CnsSSVM :=
  { svm with
    alpha := List.replicate n (fun _ => none),
    asum := List.replicate n 0,
    yLast := List.replicate n [],
    Jcache := List.replicate n [] }

/-- Modelled from the spec: insertion of the key `ybar` with the initial
weight `0`; a key that is stored keeps its value. -/
def insertKey (a : Nat → Option ℚ) (ybar : Nat) : Nat → Option ℚ :=
  fun k => if k = ybar then (match a k with
    | some w => some w
    | none => some 0) else a k

/-- Modelled from the spec: the step of the training loop for a label `ybar`
returned by the oracle for the sample `i`: the label is added at the end of
`yLast[i]` and inserted into `alpha[i]` with the initial weight `0`, and the
cache of the sample is replaced by the enlarged block `J`. -/
def addConstraint (svm : CnsSSVM) (i ybar : Nat) (J : List ℚ) : CnsSSVM :=
  { svm with
    alpha := svm.alpha.set i (insertKey (svm.alpha.getD i (fun _ => none)) ybar),
    yLast := svm.yLast.set i (svm.yLast.getD i [] ++ [ybar]),
    Jcache := svm.Jcache.set i J }

/-- Modelled from the spec: the assignments `a[h[p]] = x[p]` for the positions
`p` of the history `h`, in order. -/
def assignAll : (Nat → Option ℚ) → List Nat → List ℚ → Nat → Option ℚ
  | a, [], _ => a
  | a, h :: hs, x => assignAll (fun k => if k = h then some (x.headD 0) else a k) hs x.tail

/-- Modelled from the spec: the result `x` of the local problem over the
history of the sample `i` is written back into `alpha[i]`, entry `p` of `x`
under the label `p` of the history, and `asum[i]` is refreshed as the sum over
the coefficient map. -/
def writeBack (svm : CnsSSVM) (i : Nat) (x : List ℚ) : CnsSSVM :=
  { svm with
    alpha := svm.alpha.set i
      (assignAll (svm.alpha.getD i (fun _ => none)) (svm.yLast.getD i []) x),
    asum := svm.asum.set i
      (((svm.yLast.getD i []).dedup.map (fun y =>
        ((assignAll (svm.alpha.getD i (fun _ => none)) (svm.yLast.getD i []) x) y).getD 0)).sum) }

/-- Modelled from the spec: the steps that change the state of a classifier:
`clear`, the start of training on `n` samples, a label added for a sample, the
result of a local problem written back, and training resumed from the
checkpoint that was saved at iteration `iter`. -/
inductive TrainStep where
  | clear
  | start (n : Nat)
  | add (i ybar : Nat) (J : List ℚ)
  | write (i : Nat) (x : List ℚ)
  | resume (iter : Nat) (files : String → Option Checkpoint)

/-- Modelled from the spec: the state after one step. -/
def applyStep (svm : CnsSSVM) : TrainStep → CnsSSVM
  | TrainStep.clear => clear svm
  | TrainStep.start n => startTraining svm n
  | TrainStep.add i ybar J => addConstraint svm i ybar J
  | TrainStep.write i x => writeBack svm i x
  | TrainStep.resume iter files => (preload svm (save svm iter files)).2

/-- Modelled from the spec: the state of a classifier that was constructed
with the parameters `pp` (the constructor is declared at nssvm.h line 81; the
four vectors start empty, as after `clear`) and has gone through the steps
`steps`. -/
def stateAfter (pp : SSSVMParams) (steps : List TrainStep) : CnsSSVM :=
  steps.foldl applyStep { params := pp, alpha := [], asum := [], yLast := [], Jcache := [] }

/-- The invariant of the working set: one coefficient map per history, and
the keys stored in the map of a sample are the labels of its history. -/
def Aligned (svm : CnsSSVM) : Prop :=
  svm.alpha.length = svm.yLast.length ∧
  ∀ (i : Nat) (a : Nat → Option ℚ) (h : List Nat),
    svm.alpha[i]? = some a → svm.yLast[i]? = some h →
    ∀ y, (a y).isSome = true ↔ y ∈ h

/-! ## Vocabulary of the statements about `quadOptBox` and `pickVars` -/

/-- The matrix stored in `Q` is positive semi-definite. -/
def IsPosSemidef (Q : List ℚ) (n : Nat) : Prop :=
  ∀ v : Nat → ℚ, 0 ≤ quadForm Q n v

/-- Index `i` passes the test of lines 298-299 and 306-307 at the point `x`,
with the gradient `g = b - Q x`. -/
def Elig (Q b x : List ℚ) (C : ℚ) (i : Nat) : Prop :=
  eligible (gradAt Q b x b.length i) (rd x i) C = true

/-- The locals `xmax`, `gmax`, `xmin`, `gmin` of `pickVars` when the selection
loop (lines 293-310) is over, before line 313 compares the two indices. -/
def pickLocals (Q b x : List ℚ) (C : ℚ) : PickState :=
  forUp (pickStep (gradient Q b x b.length) x C) b.length
    { xmax := -1, gmax := none, xmin := -1, gmin := none }

/-! ## `FFComputer` (clsf.h lines 21-44) -/

/-- The call `FFComputer::operator()` (lines 39-43): the loop over
`yi = range.first .. range.second - 1` that assigns `res[yi] = clsf.f( xk, yi )`.
The compatibility function `f` of the classifier is a `const` member; it is a
parameter here. -/
def FFComputer_call (f : Nat → Nat → ℚ) (xk : Nat) (range : Nat × Nat) (res : List ℚ) :
    List ℚ :=
  forUp (fun t (res : List ℚ) => res.set (range.1 + t) (f xk (range.1 + t)))
    (range.2 - range.1) res

/-- One worker per range, run one after the other on the same buffer. -/
def runWorkers (f : Nat → Nat → ℚ) (xk : Nat) (ranges : List (Nat × Nat)) (res : List ℚ) :
    List ℚ :=
  ranges.foldl (fun r range => FFComputer_call f xk range r) res

/-- The index `yi` lies in the range `[first, second)`. -/
def inRange (yi : Nat) (range : Nat × Nat) : Bool :=
  decide (range.1 ≤ yi) && decide (yi < range.2)

/-- No two of the ranges have an index in common. -/
def DisjointRanges (ranges : List (Nat × Nat)) : Prop :=
  ranges.Pairwise (fun p q => ∀ yi, ¬ (inRange yi p = true ∧ inRange yi q = true))

/-- The ranges lie in `[0, m)` and every index below `m` is in one of them. -/
def CoverRanges (ranges : List (Nat × Nat)) (m : Nat) : Prop :=
  (∀ p, p ∈ ranges → p.2 ≤ m) ∧ ∀ yi, yi < m → ∃ p, p ∈ ranges ∧ inRange yi p = true

/-! ## Loss functions (loss.h) -/

/-- The call `CKernelLoss::operator()` (loss.h lines 46-55) over the kernel
function `fker`.  The division is made only when its divisor is not zero. -/
def CKernelLoss_call {T : Type} (fker : T → T → ℚ) (pobj1 pobj2 : T) : ℚ :=
  let kn := fker pobj1 pobj2
  let k1 := fker pobj1 pobj1
  let k2 := fker pobj2 pobj2
  if k1 + k2 = 0 then 1
  else 1 - 2 * kn / (k1 + k2)

/-- The call `CIdentityLoss::operator()` (loss.h lines 69-74). -/
def CIdentityLoss_call {T : Type} [DecidableEq T] (obj1 obj2 : T) : ℚ :=
  if obj1 = obj2 then 0 else 1

/-! ## `CSparseSample` (sample.h, sample.cpp)

The member `content` is a `vector` of `(key, value)` pairs, here a list. -/

/-- Lines 29-30 of sample.cpp: the number of steps of the iterator, which
moves on while it is not at the end and the key under it is below `key`. -/
def seekKey : List (Nat × ℚ) → Nat → Nat
  | [], _ => 0
  | p :: rest, key => if p.1 < key then seekKey rest key + 1 else 0

/-- The member `setValue( unsigned int key, double val )` (sample.cpp lines
25-47). -/
def setValue (content : List (Nat × ℚ)) (key : Nat) (val : ℚ) : List (Nat × ℚ) :=
  let iter := seekKey content key
  match content.get? iter with
  | none =>
    if val = 0 then content
    else content.take iter ++ (key, val) :: content.drop iter
  | some p =>
    if p.1 > key then
      if val = 0 then content
      else content.take iter ++ (key, val) :: content.drop iter
    else
      if val = 0 then content.eraseIdx iter
      else content.set iter (p.1, val)

/-- The member `getValue( unsigned int key )` (sample.cpp lines 65-74). -/
def getValue : List (Nat × ℚ) → Nat → ℚ
  | [], _ => 0
  | p :: rest, key =>
    if p.1 > key then 0
    else if p.1 = key then p.2
    else getValue rest key

/-- The three class invariants of sample.h lines 16-18: sorted by the keys
with a single value for each key, that is, strictly increasing keys, and no
zero value represented. -/
def SparseInv (content : List (Nat × ℚ)) : Prop :=
  content.Pairwise (fun p q => p.1 < q.1) ∧ ∀ p, p ∈ content → p.2 ≠ 0

/-- The value `std::numeric_limits< unsigned int >::max()`. -/
def UINT_MAX : Nat := 4294967295

/-- The locals `ia`, `ib` and `res` of `operator+=`. -/
structure AddState where
  ia : Nat
  ib : Nat
  res : List (Nat × ℚ)
deriving DecidableEq

/-- Lines 152-188 of sample.cpp: one round of the merge loop of `operator+=`
on the contents `a` of the left and `b` of the right operand. -/
def addStep (a b : List (Nat × ℚ)) (st : AddState) : AddState :=
  let keya := if st.ia < a.length then (a.getD st.ia (0, 0)).1 else UINT_MAX
  let keyb := if st.ib < b.length then (b.getD st.ib (0, 0)).1 else UINT_MAX
  if keya < keyb then
    { ia := st.ia + 1, ib := st.ib, res := st.res ++ [(keya, (a.getD st.ia (0, 0)).2)] }
  else if keyb < keya then
    { ia := st.ia, ib := st.ib + 1, res := st.res ++ [(keyb, (b.getD st.ib (0, 0)).2)] }
  else
    { ia := st.ia + 1, ib := st.ib + 1,
      res := st.res ++ [(keya, (a.getD st.ia (0, 0)).2 + (b.getD st.ib (0, 0)).2)] }

/-- Lines 150-189: the loop `while( ia < na || ib < nb )`, with a bound on
the number of its rounds. -/
def addLoop (a b : List (Nat × ℚ)) : Nat → AddState → AddState
  | 0, st => st
  | fuel + 1, st =>
    if st.ia < a.length ∨ st.ib < b.length then addLoop a b fuel (addStep a b st) else st

/-- The member `operator+=` (sample.cpp lines 139-196): the new content of
the left operand.  Every round moves `ia` or `ib` forward, so that
`na + nb` rounds are enough. -/
def operatorAddAssign (a b : List (Nat × ℚ)) : List (Nat × ℚ) :=
  (addLoop a b (a.length + b.length) { ia := 0, ib := 0, res := [] }).res

/-! ## Reading and writing vectors -/

theorem rd_set (v : List ℚ) (i j : Nat) (a : ℚ) :
    rd (v.set i a) j = if i = j ∧ i < v.length then a else rd v j := by
  unfold rd
  rw [List.getD_eq_getElem?_getD, List.getD_eq_getElem?_getD, List.getElem?_set]
  by_cases h : i = j
  · subst h
    by_cases hl : i < v.length
    · simp [hl]
    · simp [hl]
      rw [List.getElem?_eq_none (by omega)]
      simp
  · simp [h]

theorem rd_set_eq (v : List ℚ) (i : Nat) (a : ℚ) (h : i < v.length) :
    rd (v.set i a) i = a := by
  rw [rd_set]; simp [h]

theorem rd_set_ne (v : List ℚ) (i j : Nat) (a : ℚ) (h : i ≠ j) :
    rd (v.set i a) j = rd v j := by
  rw [rd_set]; simp [h]

theorem rd_replicate (n i : Nat) (a : ℚ) :
    rd (List.replicate n a) i = if i < n then a else 0 := by
  unfold rd
  rw [List.getD_eq_getElem?_getD, List.getElem?_replicate]
  by_cases h : i < n <;> simp [h]

theorem forUp_succ {σ : Type} (body : Nat → σ → σ) (k : Nat) (s : σ) :
    forUp body (k + 1) s = body k (forUp body k s) := rfl

/-- An accumulating loop computes the finite sum of its terms. -/
theorem forUp_add (f : Nat → ℚ) (k : Nat) (s : ℚ) :
    forUp (fun j (s : ℚ) => s + f j) k s = s + ∑ j in Finset.range k, f j := by
  induction k with
  | zero => simp [forUp]
  | succ k ih => rw [forUp_succ, ih, Finset.sum_range_succ]; ring

/-- A loop preserves every invariant its body preserves. -/
theorem forUp_inv {σ : Type} (P : Nat → σ → Prop) (body : Nat → σ → σ) (k : Nat) (s : σ)
    (h0 : P 0 s) (hstep : ∀ i t, i < k → P i t → P (i + 1) (body i t)) :
    P k (forUp body k s) := by
  induction k with
  | zero => exact h0
  | succ k ih =>
    rw [forUp_succ]
    exact hstep k _ (Nat.lt_succ_self k) (ih (fun i t hi => hstep i t (Nat.lt_succ_of_lt hi)))

theorem forUpM_succ {ε σ : Type} (body : Nat → σ → Except ε σ) (k : Nat) (s : σ) :
    forUpM body (k + 1) s =
      (match forUpM body k s with
       | Except.ok t => body k t
       | Except.error e => Except.error e) := rfl

/-- A loop whose body never fails under the invariant ends normally. -/
theorem forUpM_ok {ε σ : Type} (P : Nat → σ → Prop) (body : Nat → σ → Except ε σ)
    (k : Nat) (s : σ) (h0 : P 0 s)
    (hstep : ∀ i t, i < k → P i t → ∃ u, body i t = Except.ok u ∧ P (i + 1) u) :
    ∃ r, forUpM body k s = Except.ok r ∧ P k r := by
  induction k with
  | zero => exact ⟨s, rfl, h0⟩
  | succ k ih =>
    obtain ⟨t, ht, hP⟩ := ih (fun i t hi => hstep i t (Nat.lt_succ_of_lt hi))
    obtain ⟨u, hu, hPu⟩ := hstep k t (Nat.lt_succ_self k) hP
    exact ⟨u, by rw [forUpM_succ, ht]; exact hu, hPu⟩

/-! ## Algebra of the `L D Lᵀ` factorisation -/

section Algebra

open Finset

theorem sum_lowerPart (l : Nat → Nat → ℚ) (g : Nat → ℚ) (M j : Nat) (hj : j < M) :
    ∑ k in range M, lowerPart l j k * g k = ∑ k in range (j + 1), l j k * g k := by
  have hsub : range (j + 1) ⊆ range M := by
    intro a ha; simp only [mem_range] at ha ⊢; omega
  rw [← sum_subset hsub]
  · apply sum_congr rfl
    intro k hk
    simp only [mem_range] at hk
    simp [lowerPart, Nat.lt_succ_iff.mp hk]
  · intro k _ hk
    simp only [mem_range] at hk
    have : ¬ k ≤ j := by omega
    simp [lowerPart, this]

/-- The recurrences of the factorisation give `Q = L D Lᵀ` on the leading
block of size `M`. -/
theorem factor_entry (q l : Nat → Nat → ℚ) (d : Nat → ℚ) (M : Nat)
    (hsym : ∀ i j, i < M → j < M → q i j = q j i)
    (hF : ∀ i j, i < M → j ≤ i → q i j = ∑ k in range (j + 1), l i k * d k * l j k)
    (i j : Nat) (hi : i < M) (hj : j < M) :
    q i j = ∑ k in range M, lowerPart l i k * d k * lowerPart l j k := by
  have key : ∀ i j, i < M → j ≤ i →
      q i j = ∑ k in range M, lowerPart l i k * d k * lowerPart l j k := by
    intro i j hi hji
    have h1 : ∑ k in range M, lowerPart l i k * d k * lowerPart l j k
        = ∑ k in range M, lowerPart l j k * (lowerPart l i k * d k) := by
      apply sum_congr rfl; intro k _; ring
    rw [h1, sum_lowerPart l (fun k => lowerPart l i k * d k) M j (by omega), hF i j hi hji]
    apply sum_congr rfl
    intro k hk
    simp only [mem_range] at hk
    have : k ≤ i := by omega
    simp [lowerPart, this]; ring
  by_cases hji : j ≤ i
  · exact key i j hi hji
  · rw [hsym i j hi hj, key j i hj (by omega)]
    apply sum_congr rfl; intro k _; ring

/-- Column sums of the lower triangle against `x`: the equations solved by
the backward substitution. -/
theorem sum_lowerPart_col (l : Nat → Nat → ℚ) (x : Nat → ℚ) (M k : Nat) (hk : k < M)
    (hdiag : l k k = 1) :
    ∑ j in range M, lowerPart l j k * x j
      = x k + ∑ t in range (M - 1 - k), l (k + 1 + t) k * x (k + 1 + t) := by
  have hM : M = (k + 1) + (M - 1 - k) := by omega
  conv_lhs => rw [hM]
  rw [sum_range_add, sum_range_succ]
  have h0 : ∑ j in range k, lowerPart l j k * x j = 0 := by
    apply sum_eq_zero
    intro j hj
    simp only [mem_range] at hj
    have : ¬ k ≤ j := by omega
    simp [lowerPart, this]
  rw [h0]
  have h1 : lowerPart l k k = 1 := by simp [lowerPart, hdiag]
  rw [h1]
  have h2 : ∑ t in range (M - 1 - k), lowerPart l (k + 1 + t) k * x (k + 1 + t)
      = ∑ t in range (M - 1 - k), l (k + 1 + t) k * x (k + 1 + t) := by
    apply sum_congr rfl
    intro t _
    have : k ≤ k + 1 + t := by omega
    simp [lowerPart, this]
  rw [h2]; ring

/-- If `y` solves the forward system and `x` the backward system, then `x`
solves `Q x = b`. -/
theorem ldl_solves (q l : Nat → Nat → ℚ) (d x y b : Nat → ℚ) (M : Nat)
    (hsym : ∀ i j, i < M → j < M → q i j = q j i)
    (hF : ∀ i j, i < M → j ≤ i → q i j = ∑ k in range (j + 1), l i k * d k * l j k)
    (hdiag : ∀ i, i < M → l i i = 1)
    (hY : ∀ i, i < M → ∑ j in range (i + 1), l i j * d j * y j = b i)
    (hX : ∀ i, i < M →
      x i + ∑ t in range (M - 1 - i), l (i + 1 + t) i * x (i + 1 + t) = y i)
    (i : Nat) (hi : i < M) :
    ∑ j in range M, q i j * x j = b i := by
  have h1 : ∑ j in range M, q i j * x j
      = ∑ j in range M, ∑ k in range M, lowerPart l i k * d k * (lowerPart l j k * x j) := by
    apply sum_congr rfl
    intro j hj
    simp only [mem_range] at hj
    rw [factor_entry q l d M hsym hF i j hi hj, sum_mul]
    apply sum_congr rfl; intro k _; ring
  rw [h1, sum_comm]
  have h2 : ∀ k, k ∈ range M →
      ∑ j in range M, lowerPart l i k * d k * (lowerPart l j k * x j)
        = lowerPart l i k * (d k * y k) := by
    intro k hk
    simp only [mem_range] at hk
    rw [← mul_sum, sum_lowerPart_col l x M k hk (hdiag k hk), hX k hk]; ring
  rw [sum_congr rfl h2, sum_lowerPart l (fun k => d k * y k) M i hi, ← hY i hi]
  apply sum_congr rfl; intro k _; ring

end Algebra

section Pivots

open Finset

/-- The quadratic form of a factored matrix is a weighted sum of squares. -/
theorem quad_factor (q l : Nat → Nat → ℚ) (d v : Nat → ℚ) (M : Nat)
    (hsym : ∀ i j, i < M → j < M → q i j = q j i)
    (hF : ∀ i j, i < M → j ≤ i → q i j = ∑ k in range (j + 1), l i k * d k * l j k) :
    ∑ i in range M, ∑ j in range M, v i * q i j * v j
      = ∑ k in range M, d k * (∑ a in range M, lowerPart l a k * v a) ^ 2 := by
  have h1 : ∑ i in range M, ∑ j in range M, v i * q i j * v j
      = ∑ i in range M, ∑ k in range M, ∑ j in range M,
          d k * ((lowerPart l i k * v i) * (lowerPart l j k * v j)) := by
    apply sum_congr rfl
    intro i hi
    simp only [mem_range] at hi
    rw [sum_comm]
    apply sum_congr rfl
    intro j hj
    simp only [mem_range] at hj
    rw [factor_entry q l d M hsym hF i j hi hj, mul_sum, sum_mul]
    apply sum_congr rfl; intro k _; ring
  rw [h1, sum_comm]
  apply sum_congr rfl
  intro k _
  rw [pow_two, sum_mul_sum, mul_sum]
  apply sum_congr rfl
  intro i _
  rw [mul_sum]

/-- A unit upper-triangular system with right-hand side `e_m` has a
solution supported on `0 .. m`. -/
theorem exists_unit_solution (l : Nat → Nat → ℚ) (m : Nat) :
    ∀ t, t ≤ m → ∃ v : Nat → ℚ, v m = 1 ∧ (∀ a, m < a → v a = 0) ∧
      ∀ k, m - t ≤ k → k ≤ m →
        v k + ∑ s in range (m - k), l (k + 1 + s) k * v (k + 1 + s)
          = if k = m then 1 else 0 := by
  intro t
  induction t with
  | zero =>
    intro _
    refine ⟨fun a => if a = m then 1 else 0, by simp, ?_, ?_⟩
    · intro a ha; simp; omega
    · intro k hk1 hk2
      have : k = m := by omega
      subst this
      simp
  | succ t ih =>
    intro ht
    obtain ⟨v, hv1, hv2, hv3⟩ := ih (by omega)
    let k0 := m - (t + 1)
    refine ⟨Function.update v k0 (-(∑ s in range (m - k0), l (k0 + 1 + s) k0 * v (k0 + 1 + s))),
      ?_, ?_, ?_⟩
    · rw [Function.update_noteq (by omega)]; exact hv1
    · intro a ha
      rw [Function.update_noteq (by omega)]; exact hv2 a ha
    · intro k hk1 hk2
      have hsum : ∀ k1, k0 ≤ k1 →
          ∑ s in range (m - k1), l (k1 + 1 + s) k1 *
            Function.update v k0 (-(∑ s in range (m - k0), l (k0 + 1 + s) k0 * v (k0 + 1 + s)))
              (k1 + 1 + s)
          = ∑ s in range (m - k1), l (k1 + 1 + s) k1 * v (k1 + 1 + s) := by
        intro k1 hk1
        apply sum_congr rfl
        intro s _
        rw [Function.update_noteq (by omega)]
      rw [hsum k hk1]
      by_cases hk : k = k0
      · subst hk
        rw [Function.update_same]
        have : k0 ≠ m := by omega
        simp [this]
      · rw [Function.update_noteq hk]
        exact hv3 k (by omega) hk2

/-- Under positive definiteness the pivot of row `m` is positive as soon as
the recurrences hold up to row `m`. -/
theorem pivot_pos (q l : Nat → Nat → ℚ) (d : Nat → ℚ) (n m : Nat) (hm : m < n)
    (hsym : ∀ i j, i < m + 1 → j < m + 1 → q i j = q j i)
    (hF : ∀ i j, i < m + 1 → j ≤ i → q i j = ∑ k in range (j + 1), l i k * d k * l j k)
    (hdiag : ∀ i, i < m + 1 → l i i = 1)
    (hpd : ∀ v : Nat → ℚ, (∃ i, i < n ∧ v i ≠ 0) →
      0 < ∑ i in range n, ∑ j in range n, v i * q i j * v j) :
    0 < d m := by
  obtain ⟨v, hv1, hv2, hv3⟩ := exists_unit_solution l m m le_rfl
  have hpos := hpd v ⟨m, hm, by rw [hv1]; exact one_ne_zero⟩
  have hsub : range (m + 1) ⊆ range n := by
    intro a ha; simp only [mem_range] at ha ⊢; omega
  have hcut : ∑ i in range n, ∑ j in range n, v i * q i j * v j
      = ∑ i in range (m + 1), ∑ j in range (m + 1), v i * q i j * v j := by
    rw [← sum_subset hsub]
    · apply sum_congr rfl
      intro i _
      rw [← sum_subset hsub]
      intro j _ hj
      simp only [mem_range] at hj
      rw [hv2 j (by omega)]; ring
    · intro i _ hi
      simp only [mem_range] at hi
      apply sum_eq_zero
      intro j _
      rw [hv2 i (by omega)]; ring
  rw [hcut, quad_factor q l d v (m + 1) hsym hF] at hpos
  have hcol : ∀ k, k ∈ range (m + 1) →
      d k * (∑ a in range (m + 1), lowerPart l a k * v a) ^ 2 = if k = m then d m else 0 := by
    intro k hk
    simp only [mem_range] at hk
    rw [sum_lowerPart_col l v (m + 1) k hk (hdiag k hk)]
    have := hv3 k (by omega) (by omega)
    have e : m + 1 - 1 - k = m - k := by omega
    rw [e, this]
    by_cases h : k = m
    · subst h; simp
    · simp [h]
  rw [sum_congr rfl hcol] at hpos
  simpa using hpos

end Pivots

/-! ## Index arithmetic of row-major matrices -/

theorem idx_lt_row (n a b i : Nat) (ha : a < i) (hb : b < n) : a * n + b < i * n := by
  have h1 : (a + 1) * n ≤ i * n := Nat.mul_le_mul_right n ha
  have h2 : (a + 1) * n = a * n + n := by ring
  omega

theorem idx_lt_len (n a b : Nat) (ha : a < n) (hb : b < n) : a * n + b < n * n :=
  idx_lt_row n a b n ha hb

theorem idx_ne (n a b c e : Nat) (hb : b < n) (he : e < n) (h : a ≠ c ∨ b ≠ e) :
    a * n + b ≠ c * n + e := by
  intro heq
  rcases Nat.lt_trichotomy a c with hac | hac | hac
  · have := idx_lt_row n a b c hac hb; omega
  · subst hac
    rcases h with h | h
    · exact h rfl
    · omega
  · have := idx_lt_row n c e a hac he; omega

/-! ## Loops that accumulate into one entry -/

/-- A loop that keeps subtracting terms from the entry `p`, the terms not
reading that entry, leaves the initial value minus the sum of the terms. -/
theorem forUp_set_acc (L : List ℚ) (p : Nat) (term : List ℚ → Nat → ℚ) (t : Nat) (q0 : ℚ)
    (hp : p < L.length)
    (hterm : ∀ a k, k < t → term (L.set p a) k = term L k) :
    forUp (fun k (M : List ℚ) => M.set p (rd M p - term M k)) t (L.set p q0)
      = L.set p (q0 - ∑ k in Finset.range t, term L k) := by
  induction t with
  | zero => simp [forUp]
  | succ t ih =>
    rw [forUp_succ, ih (fun a k hk => hterm a k (Nat.lt_succ_of_lt hk))]
    rw [List.set_set, rd_set_eq _ _ _ hp, hterm _ t (Nat.lt_succ_self t),
      Finset.sum_range_succ]
    congr 1; ring

/-! ## The factorisation loop -/

/-- Value of `cholEntry`: the new entry is the quotient of the recurrence. -/
theorem cholEntry_eq (Q D L : List ℚ) (n i j : Nat) (hL : L.length = n * n)
    (hj : j < i) (hi : i < n) (hD : rd D j ≠ 0) :
    cholEntry Q D n i j L = Except.ok (L.set (i * n + j)
      ((rd Q (i * n + j)
        - ∑ k in Finset.range j, rd L (i * n + k) * rd L (j * n + k) * rd D k) / rd D j)) := by
  have hp : i * n + j < L.length := by rw [hL]; exact idx_lt_len n i j hi (by omega)
  unfold cholEntry
  dsimp only
  rw [forUp_set_acc L (i * n + j)
    (fun M k => rd M (i * n + k) * rd M (j * n + k) * rd D k) j (rd Q (i * n + j)) hp]
  · rw [rd_set_eq _ _ _ hp]
    simp only [fdiv, hD, if_false, List.set_set]
  · intro a k hk
    rw [rd_set_ne _ _ _ _ (by omega),
      rd_set_ne _ _ _ _ (idx_ne n i j j k (by omega) (by omega) (Or.inl (by omega)))]

/-- The loop over `j` of one row: the entries left of the diagonal. -/
theorem cholRow_entries (Q D L : List ℚ) (n i : Nat) (hin : i < n) (hL : L.length = n * n)
    (hD : ∀ j, j < i → rd D j ≠ 0) :
    ∃ M, forUpM (cholEntry Q D n i) i L = Except.ok M ∧ M.length = n * n ∧
      (∀ p, p < i * n → rd M p = rd L p) ∧
      (∀ j, j < i → rd M (i * n + j) * rd D j
        = rd Q (i * n + j)
          - ∑ k in Finset.range j, rd M (i * n + k) * rd L (j * n + k) * rd D k) := by
  have key := forUpM_ok
    (fun j (M : List ℚ) => j ≤ i ∧ M.length = n * n ∧
      (∀ p, p < i * n → rd M p = rd L p) ∧
      (∀ j1, j1 < j → rd M (i * n + j1) * rd D j1
        = rd Q (i * n + j1)
          - ∑ k in Finset.range j1, rd M (i * n + k) * rd L (j1 * n + k) * rd D k))
    (cholEntry Q D n i) i L
    ⟨Nat.zero_le i, hL, fun _ _ => rfl, fun j1 hj1 => absurd hj1 (Nat.not_lt_zero _)⟩
    (by
      intro j M hj ⟨_, hM, hrow, hent⟩
      refine ⟨_, cholEntry_eq Q D M n i j hM hj hin (hD j hj), by omega, ?_, ?_, ?_⟩
      · rw [List.length_set]; exact hM
      · intro p hp
        rw [rd_set_ne _ _ _ _ (by omega)]; exact hrow p hp
      · intro j1 hj1
        have hp : i * n + j < M.length := by rw [hM]; exact idx_lt_len n i j hin (by omega)
        have hsum : ∀ j2, j2 ≤ j →
            ∑ k in Finset.range j2,
              rd (M.set (i * n + j) ((rd Q (i * n + j)
                - ∑ k in Finset.range j, rd M (i * n + k) * rd M (j * n + k) * rd D k)
                  / rd D j)) (i * n + k) * rd L (j2 * n + k) * rd D k
            = ∑ k in Finset.range j2, rd M (i * n + k) * rd L (j2 * n + k) * rd D k := by
          intro j2 hj2
          apply Finset.sum_congr rfl
          intro k hk
          simp only [Finset.mem_range] at hk
          rw [rd_set_ne _ _ _ _ (by omega)]
        rw [hsum j1 (by omega)]
        by_cases h : j1 = j
        · subst h
          rw [rd_set_eq _ _ _ hp, div_mul_cancel₀ _ (hD j1 hj)]
          congr 1
          apply Finset.sum_congr rfl
          intro k hk
          simp only [Finset.mem_range] at hk
          rw [hrow (j1 * n + k) (idx_lt_row n j1 k i hj (by omega))]
        · rw [rd_set_ne _ _ _ _ (by omega)]
          exact hent j1 (by omega))
  obtain ⟨M, hM, _, h1, h2, h3⟩ := key
  exact ⟨M, hM, h1, h2, h3⟩

/-- One round of the factorisation loop extends the recurrences by a row. -/
theorem cholRow_ok (Q L D : List ℚ) (n i : Nat) (hi : 0 < i) (hin : i < n)
    (hinv : FactInv Q n (i - 1) L D) (hD : ∀ j, j < i → rd D j ≠ 0) :
    ∃ L1 D1, cholRow Q n i (L, D) = Except.ok (L1, D1) ∧ FactInv Q n i L1 D1 ∧
      (∀ j, j < i → rd D1 j = rd D j) := by
  obtain ⟨hL, hDl, hdiag, hent, hpiv⟩ := hinv
  obtain ⟨M, hM, hMl, hrow, hMent⟩ := cholRow_entries Q D L n i hin hL hD
  have hii : i * n + i < M.length := by rw [hMl]; exact idx_lt_len n i i hin hin
  have hiD : i < D.length := by rw [hDl]; exact hin
  have hDloop : forUp (fun k (E : List ℚ) =>
        let d := rd (M.set (i * n + i) 1) (i * n + k)
        E.set i (rd E i - d * d * rd E k)) i (D.set i (rd Q (i * n + i)))
      = D.set i (rd Q (i * n + i) - ∑ k in Finset.range i,
          rd (M.set (i * n + i) 1) (i * n + k) * rd (M.set (i * n + i) 1) (i * n + k)
            * rd D k) := by
    apply forUp_set_acc D i
      (fun E k => rd (M.set (i * n + i) 1) (i * n + k) * rd (M.set (i * n + i) 1) (i * n + k)
        * rd E k) i (rd Q (i * n + i)) hiD
    intro a k hk
    rw [rd_set_ne D i k _ (by omega)]
  -- the entries of the new `L`
  have hL1row : ∀ p, p < i * n → rd (M.set (i * n + i) 1) p = rd L p := by
    intro p hp
    rw [rd_set_ne _ _ _ _ (by omega)]; exact hrow p hp
  have hL1i : ∀ j, j < i → rd (M.set (i * n + i) 1) (i * n + j) = rd M (i * n + j) := by
    intro j hj
    rw [rd_set_ne _ _ _ _ (by omega)]
  refine ⟨M.set (i * n + i) 1, D.set i (rd Q (i * n + i) - ∑ k in Finset.range i,
      rd (M.set (i * n + i) 1) (i * n + k) * rd (M.set (i * n + i) 1) (i * n + k) * rd D k),
    ?_, ?_, ?_⟩
  · unfold cholRow
    simp only [hM]
    rw [hDloop]
  · refine ⟨by rw [List.length_set]; exact hMl, by rw [List.length_set]; exact hDl, ?_, ?_, ?_⟩
    · intro a ha
      by_cases h : a = i
      · subst h; exact rd_set_eq _ _ _ hii
      · rw [hL1row _ (idx_lt_row n a a i (by omega) (by omega))]
        exact hdiag a (by omega)
    · intro a j ha hj
      rw [rd_set_ne D i j _ (by omega)]
      have hsumD : ∀ (f : Nat → ℚ),
          ∑ k in Finset.range j, f k * rd (D.set i (rd Q (i * n + i) - ∑ k in Finset.range i,
            rd (M.set (i * n + i) 1) (i * n + k) * rd (M.set (i * n + i) 1) (i * n + k)
              * rd D k)) k
          = ∑ k in Finset.range j, f k * rd D k := by
        intro f
        apply Finset.sum_congr rfl
        intro k hk
        simp only [Finset.mem_range] at hk
        rw [rd_set_ne D i k _ (by omega)]
      rw [hsumD]
      by_cases h : a = i
      · subst h
        rw [hL1i j hj, hMent j hj]
        congr 1
        apply Finset.sum_congr rfl
        intro k hk
        simp only [Finset.mem_range] at hk
        rw [hL1i k (by omega), hL1row _ (idx_lt_row n j k a hj (by omega))]
      · have hai : a < i := by omega
        rw [hL1row _ (idx_lt_row n a j i hai (by omega)), hent a j (by omega) hj]
        congr 1
        apply Finset.sum_congr rfl
        intro k hk
        simp only [Finset.mem_range] at hk
        rw [hL1row _ (idx_lt_row n a k i hai (by omega)),
          hL1row _ (idx_lt_row n j k i (by omega) (by omega))]
    · intro a ha
      by_cases h : a = i
      · subst h
        rw [rd_set_eq _ _ _ hiD]
        congr 1
        apply Finset.sum_congr rfl
        intro k hk
        simp only [Finset.mem_range] at hk
        rw [rd_set_ne D a k _ (by omega)]
      · have hai : a < i := by omega
        rw [rd_set_ne D i a _ (by omega), hpiv a (by omega)]
        congr 1
        apply Finset.sum_congr rfl
        intro k hk
        simp only [Finset.mem_range] at hk
        rw [rd_set_ne D i k _ (by omega), hL1row _ (idx_lt_row n a k i hai (by omega))]
  · intro j hj
    rw [rd_set_ne D i j _ (by omega)]

/-- The recurrences in the shape `Q = L D Lᵀ`, entry by entry. -/
theorem factInv_entry (Q L D : List ℚ) (n m : Nat) (hinv : FactInv Q n m L D)
    (i j : Nat) (hi : i < m + 1) (hj : j ≤ i) :
    rd Q (i * n + j)
      = ∑ k in Finset.range (j + 1), rd L (i * n + k) * rd D k * rd L (j * n + k) := by
  obtain ⟨_, _, hdiag, hent, hpiv⟩ := hinv
  rw [Finset.sum_range_succ, hdiag j (by omega)]
  have hre : ∑ k in Finset.range j, rd L (i * n + k) * rd D k * rd L (j * n + k)
      = ∑ k in Finset.range j, rd L (i * n + k) * rd L (j * n + k) * rd D k := by
    apply Finset.sum_congr rfl; intro k _; ring
  rw [hre]
  by_cases h : j = i
  · subst h
    rw [hdiag j (by omega)]
    have := hpiv j (by omega)
    linarith
  · have := hent i j (by omega) (by omega)
    linarith

/-- Positive definiteness makes the pivot of the last factored row positive. -/
theorem factInv_pivot_pos (Q L D : List ℚ) (n m : Nat) (hm : m < n)
    (hs : IsSymm Q n) (hp : IsPosDef Q n) (hinv : FactInv Q n m L D) :
    0 < rd D m := by
  apply pivot_pos (fun i j => rd Q (i * n + j)) (fun i k => rd L (i * n + k)) (rd D) n m hm
  · intro i j hi hj; exact hs i j (by omega) (by omega)
  · intro i j hi hj; exact factInv_entry Q L D n m hinv i j hi hj
  · intro i hi; exact hinv.2.2.1 i (by omega)
  · intro v hv; exact hp v hv

/-- On a symmetric positive definite matrix the factorisation loop runs to
its end, with positive pivots. -/
theorem cholFactor_ok (Q : List ℚ) (n : Nat) (hn : 0 < n)
    (hs : IsSymm Q n) (hp : IsPosDef Q n) :
    ∃ L D, cholFactor Q n = Except.ok (L, D) ∧ FactInv Q n (n - 1) L D ∧
      ∀ i, i < n → 0 < rd D i := by
  have hnn : 0 < n * n := Nat.mul_pos hn hn
  have key := forUpM_ok
    (fun k (st : List ℚ × List ℚ) => k < n ∧ FactInv Q n k st.1 st.2 ∧
      ∀ i, i ≤ k → 0 < rd st.2 i)
    (fun k (st : List ℚ × List ℚ) =>
      match cholRow Q n (k + 1) st with
      | Except.error _ => Except.error CholExit.divZero
      | Except.ok st =>
        if rd st.2 (k + 1) = 0 then Except.error (CholExit.singular (k + 1)) else Except.ok st)
    (n - 1) ((List.replicate (n * n) 0).set 0 1, (List.replicate n 0).set 0 (rd Q 0))
    (by
      have h0 : FactInv Q n 0 ((List.replicate (n * n) 0).set 0 1)
          ((List.replicate n 0).set 0 (rd Q 0)) := by
        refine ⟨by simp, by simp, ?_, ?_, ?_⟩
        · intro i hi
          have : i = 0 := by omega
          subst this
          simpa using rd_set_eq (List.replicate (n * n) 0) 0 1 (by simpa using hnn)
        · intro i j hi hj; omega
        · intro i hi
          have : i = 0 := by omega
          subst this
          simpa using rd_set_eq (List.replicate n 0) 0 (rd Q 0) (by simpa using hn)
      refine ⟨hn, h0, ?_⟩
      intro i hi
      have : i = 0 := by omega
      subst this
      exact factInv_pivot_pos Q _ _ n 0 hn hs hp h0)
    (by
      intro k st hk ⟨_, hinv, hpos⟩
      obtain ⟨L1, D1, hrow, hinv1, hkeep⟩ := cholRow_ok Q st.1 st.2 n (k + 1) (by omega)
        (by omega) (by simpa using hinv) (fun j hj => ne_of_gt (hpos j (by omega)))
      have hpiv := factInv_pivot_pos Q L1 D1 n (k + 1) (by omega) hs hp hinv1
      refine ⟨(L1, D1), ?_, by omega, hinv1, ?_⟩
      · have hrow2 : cholRow Q n (k + 1) st = Except.ok (L1, D1) := hrow
        simp only [hrow2]
        rw [if_neg (ne_of_gt hpiv)]
      · intro i hi
        by_cases h : i = k + 1
        · subst h; exact hpiv
        · show 0 < rd D1 i
          rw [hkeep i (by omega)]
          exact hpos i (by omega))
  obtain ⟨st, hst, _, hinv, hpos⟩ := key
  refine ⟨st.1, st.2, hst, hinv, ?_⟩
  intro i hi
  exact hpos i (by omega)

/-! ## The product `LD` and the two substitutions -/

theorem mkLD_spec (L D : List ℚ) (n : Nat) :
    (mkLD L D n).length = n * n ∧
      ∀ i j, i < n → j ≤ i → rd (mkLD L D n) (i * n + j) = rd L (i * n + j) * rd D j := by
  have key := forUp_inv
    (fun i (LD : List ℚ) => i ≤ n ∧ LD.length = n * n ∧
      ∀ a c, a < i → c ≤ a → rd LD (a * n + c) = rd L (a * n + c) * rd D c)
    (fun i (LD : List ℚ) =>
      forUp (fun j (LD : List ℚ) => LD.set (i * n + j) (rd L (i * n + j) * rd D j)) (i + 1) LD)
    n (List.replicate (n * n) 0)
    ⟨Nat.zero_le n, by simp, fun a c ha _ => absurd ha (Nat.not_lt_zero _)⟩
    (by
      intro i LD hi ⟨_, hlen, hrows⟩
      have inner := forUp_inv
        (fun j (M : List ℚ) => M.length = n * n ∧
          (∀ a c, a < i → c ≤ a → rd M (a * n + c) = rd L (a * n + c) * rd D c) ∧
          ∀ c, c < j → rd M (i * n + c) = rd L (i * n + c) * rd D c)
        (fun j (M : List ℚ) => M.set (i * n + j) (rd L (i * n + j) * rd D j)) (i + 1) LD
        ⟨hlen, hrows, fun c hc => absurd hc (Nat.not_lt_zero _)⟩
        (by
          intro j M hj ⟨hMl, hMrows, hMrow⟩
          have hp : i * n + j < M.length := by rw [hMl]; exact idx_lt_len n i j hi (by omega)
          refine ⟨by rw [List.length_set]; exact hMl, ?_, ?_⟩
          · intro a c ha hc
            rw [rd_set_ne _ _ _ _
              (idx_ne n i j a c (by omega) (by omega) (Or.inl (by omega)))]
            exact hMrows a c ha hc
          · intro c hc
            by_cases h : c = j
            · subst h; exact rd_set_eq _ _ _ hp
            · rw [rd_set_ne _ _ _ _ (by omega)]
              exact hMrow c (by omega))
      obtain ⟨h1, h2, h3⟩ := inner
      refine ⟨by omega, h1, ?_⟩
      intro a c ha hc
      by_cases h : a = i
      · subst h; exact h3 c (by omega)
      · exact h2 a c (by omega) hc)
  exact ⟨key.2.1, fun i j hi hj => key.2.2 i j hi hj⟩

/-- The forward substitution solves the lower-triangular system when the
diagonal of `LD` has no zero. -/
theorem forwardSubst_ok (LD b : List ℚ) (n : Nat) (hn : 0 < n) (hb : b.length = n)
    (hd : ∀ i, i < n → rd LD (i * n + i) ≠ 0) :
    ∃ y, forwardSubst LD b = Except.ok y ∧ y.length = n ∧
      ∀ i, i < n → ∑ j in Finset.range (i + 1), rd LD (i * n + j) * rd y j = rd b i := by
  have hd0 : rd LD 0 ≠ 0 := by simpa using hd 0 hn
  have key := forUpM_ok
    (fun k (y : List ℚ) => k < n ∧ y.length = n ∧
      ∀ i, i ≤ k → ∑ j in Finset.range (i + 1), rd LD (i * n + j) * rd y j = rd b i)
    (fun k (y : List ℚ) =>
      match fdiv (rd b (k + 1)
          - forUp (fun j s => s + rd LD ((k + 1) * n + j) * rd y j) (k + 1) 0)
          (rd LD ((k + 1) * n + (k + 1))) with
      | Except.error e => Except.error e
      | Except.ok v => Except.ok (y.set (k + 1) v))
    (n - 1) ((List.replicate n 0).set 0 (rd b 0 / rd LD 0))
    (by
      refine ⟨hn, by simp, ?_⟩
      intro i hi
      have : i = 0 := by omega
      subst this
      have h0 : rd ((List.replicate n (0 : ℚ)).set 0 (rd b 0 / rd LD 0)) 0 = rd b 0 / rd LD 0 :=
        rd_set_eq _ _ _ (by simpa using hn)
      simp only [Finset.sum_range_one, Nat.zero_mul, Nat.zero_add, h0]
      field_simp)
    (by
      intro k y hk ⟨_, hyl, heq⟩
      have hdk := hd (k + 1) (by omega)
      have hp : k + 1 < y.length := by omega
      refine ⟨y.set (k + 1) ((rd b (k + 1)
          - ∑ j in Finset.range (k + 1), rd LD ((k + 1) * n + j) * rd y j)
            / rd LD ((k + 1) * n + (k + 1))),
        by simp only [fdiv, hdk, if_false, forUp_add, zero_add], by omega,
        by rw [List.length_set]; exact hyl, ?_⟩
      intro i hi
      by_cases h : i = k + 1
      · subst h
        rw [Finset.sum_range_succ, rd_set_eq _ _ _ hp]
        have hs : ∀ (w : ℚ), ∑ j in Finset.range (k + 1),
            rd LD ((k + 1) * n + j) * rd (y.set (k + 1) w) j
            = ∑ j in Finset.range (k + 1), rd LD ((k + 1) * n + j) * rd y j := by
          intro w
          apply Finset.sum_congr rfl
          intro j hj
          simp only [Finset.mem_range] at hj
          rw [rd_set_ne _ _ _ _ (by omega)]
        rw [hs]
        field_simp
      · rw [← heq i (by omega)]
        apply Finset.sum_congr rfl
        intro j hj
        simp only [Finset.mem_range] at hj
        rw [rd_set_ne _ _ _ _ (by omega)])
  obtain ⟨y, hy, _, hyl, heq⟩ := key
  refine ⟨y, ?_, hyl, fun i hi => heq i (by omega)⟩
  unfold forwardSubst
  simp only [fdiv, hd0, if_false, hb]
  exact hy

/-- The backward substitution solves the unit upper-triangular system. -/
theorem backwardSubst_spec (L y : List ℚ) (n : Nat) (hn : 0 < n) :
    (backwardSubst L y n).length = n ∧
      ∀ i, i < n →
        rd (backwardSubst L y n) i
          + ∑ t in Finset.range (n - 1 - i),
              rd L ((i + 1 + t) * n + i) * rd (backwardSubst L y n) (i + 1 + t)
          = rd y i := by
  have key := forUp_inv
    (fun k (x : List ℚ) => k < n ∧ x.length = n ∧
      ∀ i, n - 1 - k ≤ i → i < n →
        rd x i + ∑ t in Finset.range (n - 1 - i), rd L ((i + 1 + t) * n + i) * rd x (i + 1 + t)
          = rd y i)
    (fun k (x : List ℚ) =>
      x.set (n - 2 - k) (rd y (n - 2 - k)
        - forUp (fun t s => s + rd L ((n - 2 - k + 1 + t) * n + (n - 2 - k))
            * rd x (n - 2 - k + 1 + t)) (n - 1 - (n - 2 - k)) 0))
    (n - 1) ((List.replicate n 0).set (n - 1) (rd y (n - 1)))
    (by
      refine ⟨hn, by simp, ?_⟩
      intro i hi1 hi2
      have : i = n - 1 := by omega
      subst this
      rw [rd_set_eq _ _ _ (by simp; omega)]
      simp)
    (by
      intro k x hk ⟨_, hxl, heq⟩
      refine ⟨by omega, by rw [List.length_set]; exact hxl, ?_⟩
      intro i hi1 hi2
      dsimp only
      rw [forUp_add, zero_add]
      have hs : ∀ (w : ℚ) (i : Nat), n - 2 - k ≤ i →
          ∑ t in Finset.range (n - 1 - i),
            rd L ((i + 1 + t) * n + i) * rd (x.set (n - 2 - k) w) (i + 1 + t)
          = ∑ t in Finset.range (n - 1 - i), rd L ((i + 1 + t) * n + i) * rd x (i + 1 + t) := by
        intro w i hi
        apply Finset.sum_congr rfl
        intro t _
        rw [rd_set_ne _ _ _ _ (by omega)]
      rw [hs _ i (by omega)]
      by_cases h : i = n - 2 - k
      · subst h
        rw [rd_set_eq _ _ _ (by omega)]
        ring
      · rw [rd_set_ne _ _ _ _ (by omega)]
        exact heq i (by omega) hi2)
  exact ⟨key.2.1, fun i hi => key.2.2 i (by omega) hi⟩

/-- With a complete factorisation whose pivots are non-zero, `backSubst`
returns the solution of `Q x = b`. -/
theorem backSubst_solves (Q L D b : List ℚ) (n : Nat) (hn : 0 < n) (hb : b.length = n)
    (hs : IsSymm Q n) (hinv : FactInv Q n (n - 1) L D) (hD : ∀ i, i < n → rd D i ≠ 0) :
    ∃ x, backSubst L (mkLD L D n) b = Except.ok x ∧ x.length = n ∧
      ∀ i, i < n → ∑ j in Finset.range n, rd Q (i * n + j) * rd x j = rd b i := by
  obtain ⟨_, hLD⟩ := mkLD_spec L D n
  have hdiag : ∀ i, i < n → rd L (i * n + i) = 1 := fun i hi => hinv.2.2.1 i (by omega)
  have hd : ∀ i, i < n → rd (mkLD L D n) (i * n + i) ≠ 0 := by
    intro i hi
    rw [hLD i i hi le_rfl, hdiag i hi, one_mul]
    exact hD i hi
  obtain ⟨y, hy, _, hyeq⟩ := forwardSubst_ok (mkLD L D n) b n hn hb hd
  obtain ⟨hxl, hxeq⟩ := backwardSubst_spec L y n hn
  refine ⟨backwardSubst L y n, ?_, hxl, ?_⟩
  · unfold backSubst
    rw [hy, hb]
  · intro i hi
    apply ldl_solves (fun i j => rd Q (i * n + j)) (fun i k => rd L (i * n + k)) (rd D)
      (rd (backwardSubst L y n)) (rd y) (rd b) n
    · intro a c ha hc; exact hs a c ha hc
    · intro a c ha hc
      exact factInv_entry Q L D n (n - 1) hinv a c (by omega) hc
    · exact hdiag
    · intro a ha
      rw [← hyeq a ha]
      apply Finset.sum_congr rfl
      intro j hj
      simp only [Finset.mem_range] at hj
      rw [hLD a j ha (by omega)]
    · exact hxeq
    · exact hi

theorem list_range_map_sum (f : Nat → ℚ) (n : Nat) :
    ((List.range n).map f).sum = ∑ i in Finset.range n, f i := by
  induction n with
  | zero => simp
  | succ n ih => rw [List.range_succ, List.map_append, List.sum_append, ih,
      Finset.sum_range_succ]; simp

/-- The list `Q x` equals `b` exactly when every row equation holds. -/
theorem matVec_eq_iff (Q x b : List ℚ) (n : Nat) (hb : b.length = n) :
    matVec Q n x = b ↔
      ∀ i, i < n → ∑ j in Finset.range n, rd Q (i * n + j) * rd x j = rd b i := by
  unfold matVec
  constructor
  · intro h i hi
    rw [← h, ← list_range_map_sum]
    unfold rd
    rw [List.getD_eq_getElem?_getD, List.getElem?_map, List.getElem?_range hi]
    rfl
  · intro h
    apply List.ext_getElem
    · simp [hb]
    · intro i h1 h2
      simp only [List.length_map, List.length_range] at h1
      simp only [List.getElem_map, List.getElem_range]
      rw [list_range_map_sum, h i h1]
      unfold rd
      rw [List.getD_eq_getElem?_getD, List.getElem?_eq_getElem h2]
      rfl

/-- On a symmetric positive definite matrix `solveCholeskyN` takes no
singular branch and returns the two solutions. -/
theorem solveCholeskyN_posdef (n : Nat) (Q b : List ℚ) (hn : 0 < n) (hb : b.length = n)
    (hs : IsSymm Q n) (hp : IsPosDef Q n) :
    ∃ x y, solveCholeskyN n Q b = Except.ok (x, y) ∧ x.length = n ∧ y.length = n ∧
      (∀ i, i < n → ∑ j in Finset.range n, rd Q (i * n + j) * rd x j = rd b i) ∧
      (∀ i, i < n → ∑ j in Finset.range n, rd Q (i * n + j) * rd y j = 1) := by
  obtain ⟨L, D, hf, hinv, hpos⟩ := cholFactor_ok Q n hn hs hp
  have hD : ∀ i, i < n → rd D i ≠ 0 := fun i hi => ne_of_gt (hpos i hi)
  obtain ⟨x, hx, hxl, hxeq⟩ := backSubst_solves Q L D b n hn hb hs hinv hD
  obtain ⟨y, hy, hyl, hyeq⟩ := backSubst_solves Q L D (List.replicate n 1) n hn (by simp)
    hs hinv hD
  refine ⟨x, y, ?_, hxl, hyl, hxeq, ?_⟩
  · cases n with
    | zero => omega
    | succ m =>
      unfold solveCholeskyN
      simp only [hf, hx, hy]
  · intro i hi
    rw [hyeq i hi, rd_replicate, if_pos hi]

/-! ## Dropping a row and a column -/

/-- The inner copy loop of `dropRowCol`, for a row `ri` that is kept. -/
theorem dropRow_inner (Q : List ℚ) (n i ri : Nat) (st0 : DropState)
    (hi : i < n) (hri : ri < n) (hne : ri ≠ i)
    (hlen : st0.Qr.length = (n - 1) * (n - 1))
    (hpos : st0.Qr_i = dropCount i ri * (n - 1)) :
    ∀ c, c ≤ n →
      let st := forUp (fun rj (st : DropState) =>
        if rj = i then st
        else { st with Qr := st.Qr.set st.Qr_i (rd Q (ri * n + rj)), Qr_i := st.Qr_i + 1 }) c st0
      st.Qr.length = (n - 1) * (n - 1) ∧
      st.Qr_i = dropCount i ri * (n - 1) + dropCount i c ∧
      st.br = st0.br ∧ st.br_i = st0.br_i ∧
      (∀ p, p < dropCount i ri * (n - 1) → rd st.Qr p = rd st0.Qr p) ∧
      (∀ e, e < dropCount i c → rd st.Qr (dropCount i ri * (n - 1) + e)
        = rd Q (ri * n + skipIdx i e)) := by
  intro c
  induction c with
  | zero =>
    intro _
    refine ⟨hlen, by simp [forUp, dropCount, hpos], rfl, rfl, fun _ _ => rfl, ?_⟩
    intro e he
    simp [dropCount] at he
  | succ c ih =>
    intro hc
    obtain ⟨h1, h2, h3, h4, h5, h6⟩ := ih (by omega)
    simp only [forUp_succ]
    by_cases hci : c = i
    · rw [if_pos hci]
      have hcnt : dropCount i (c + 1) = dropCount i c := by
        simp only [dropCount]; split_ifs <;> omega
      rw [hcnt]
      exact ⟨h1, h2, h3, h4, h5, h6⟩
    · rw [if_neg hci]
      have hcnt : dropCount i (c + 1) = dropCount i c + 1 := by
        simp only [dropCount]; split_ifs <;> omega
      have hcl : dropCount i c < n - 1 := by
        simp only [dropCount]; split_ifs <;> omega
      have hrl : dropCount i ri < n - 1 := by
        simp only [dropCount]; split_ifs <;> omega
      have hskip : skipIdx i (dropCount i c) = c := by
        simp only [dropCount, skipIdx]; split_ifs <;> omega
      have hw : dropCount i ri * (n - 1) + dropCount i c < (n - 1) * (n - 1) :=
        idx_lt_len (n - 1) _ _ hrl hcl
      rw [hcnt]
      dsimp only
      rw [h2]
      refine ⟨by rw [List.length_set]; exact h1, by omega, h3, h4, ?_, ?_⟩
      · intro p hp
        rw [rd_set_ne _ _ _ _ (by omega)]
        exact h5 p hp
      · intro e he
        by_cases hec : e = dropCount i c
        · subst hec
          rw [rd_set_eq _ _ _ (by rw [h1]; exact hw), hskip]
        · rw [rd_set_ne _ _ _ _ (by omega)]
          exact h6 e (by omega)

/-- What `dropRowCol` returns: sizes and entries of the reduced system. -/
theorem dropRowCol_spec (Q b : List ℚ) (n i : Nat) (hi : i < n) :
    (dropRowCol Q b n i).1.length = (n - 1) * (n - 1) ∧
    (dropRowCol Q b n i).2.length = n - 1 ∧
    (∀ a c, a < n - 1 → c < n - 1 →
      rd (dropRowCol Q b n i).1 (a * (n - 1) + c) = rd Q (skipIdx i a * n + skipIdx i c)) ∧
    (∀ a, a < n - 1 → rd (dropRowCol Q b n i).2 a = rd b (skipIdx i a)) := by
  have key := forUp_inv
    (fun ri (st : DropState) => ri ≤ n ∧
      st.Qr.length = (n - 1) * (n - 1) ∧ st.br.length = n - 1 ∧
      st.Qr_i = dropCount i ri * (n - 1) ∧ st.br_i = dropCount i ri ∧
      (∀ a c, a < dropCount i ri → c < n - 1 →
        rd st.Qr (a * (n - 1) + c) = rd Q (skipIdx i a * n + skipIdx i c)) ∧
      (∀ a, a < dropCount i ri → rd st.br a = rd b (skipIdx i a)))
    (fun ri (st : DropState) =>
      if ri = i then st
      else
        let st := forUp (fun rj (st : DropState) =>
          if rj = i then st
          else { st with Qr := st.Qr.set st.Qr_i (rd Q (ri * n + rj)), Qr_i := st.Qr_i + 1 }) n st
        { st with br := st.br.set st.br_i (rd b ri), br_i := st.br_i + 1 })
    n { Qr := List.replicate ((n - 1) * (n - 1)) 0, Qr_i := 0,
        br := List.replicate (n - 1) 0, br_i := 0 }
    (by
      refine ⟨Nat.zero_le n, by simp, by simp, by simp [dropCount], by simp [dropCount], ?_, ?_⟩
      · intro a c ha; simp [dropCount] at ha
      · intro a ha; simp [dropCount] at ha)
    (by
      intro ri st hri ⟨_, hQl, hbl, hQi, hbi, hQe, hbe⟩
      beta_reduce
      by_cases hrii : ri = i
      · rw [if_pos hrii]
        have hcnt : dropCount i (ri + 1) = dropCount i ri := by
          simp only [dropCount]; split_ifs <;> omega
        rw [hcnt]
        exact ⟨by omega, hQl, hbl, hQi, hbi, hQe, hbe⟩
      · rw [if_neg hrii]
        have hcnt : dropCount i (ri + 1) = dropCount i ri + 1 := by
          simp only [dropCount]; split_ifs <;> omega
        have hrl : dropCount i ri < n - 1 := by
          simp only [dropCount]; split_ifs <;> omega
        have hskip : skipIdx i (dropCount i ri) = ri := by
          simp only [dropCount, skipIdx]; split_ifs <;> omega
        have hn : dropCount i n = n - 1 := by
          simp only [dropCount]; split_ifs <;> omega
        obtain ⟨h1, h2, h3, h4, h5, h6⟩ := dropRow_inner Q n i ri st hi hri hrii hQl hQi n le_rfl
        rw [hn] at h2 h6
        rw [hcnt]
        dsimp only
        refine ⟨by omega, h1, by rw [List.length_set, h3]; exact hbl, ?_, by rw [h4, hbi], ?_, ?_⟩
        · rw [h2]; ring
        · intro a c ha hc
          by_cases hac : a = dropCount i ri
          · subst hac
            rw [h6 c hc, hskip]
          · have ha2 : a < dropCount i ri := by omega
            rw [h5 _ (idx_lt_row (n - 1) a c _ ha2 hc)]
            exact hQe a c ha2 hc
        · intro a ha
          rw [h3, h4, hbi]
          by_cases hac : a = dropCount i ri
          · subst hac
            rw [rd_set_eq _ _ _ (by omega), hskip]
          · rw [rd_set_ne _ _ _ _ (by omega)]
            exact hbe a (by omega))
  obtain ⟨_, h1, h2, _, _, h5, h6⟩ := key
  have hn : dropCount i n = n - 1 := by
    simp only [dropCount]; split_ifs <;> omega
  rw [hn] at h5 h6
  exact ⟨h1, h2, h5, h6⟩

theorem sum_skip (f : Nat → ℚ) (m i : Nat) (hi : i ≤ m) :
    ∑ k in Finset.range (m + 1), f k = f i + ∑ a in Finset.range m, f (skipIdx i a) := by
  have h1 : m + 1 = (i + 1) + (m - i) := by omega
  have h2 : m = i + (m - i) := by omega
  have hL : ∑ k in Finset.range (m + 1), f k
      = ∑ k in Finset.range i, f k + f i + ∑ t in Finset.range (m - i), f (i + 1 + t) := by
    rw [h1, Finset.sum_range_add, Finset.sum_range_succ]
  have hR : ∑ a in Finset.range m, f (skipIdx i a)
      = ∑ a in Finset.range i, f (skipIdx i a)
        + ∑ t in Finset.range (m - i), f (skipIdx i (i + t)) := by
    conv_lhs => rw [h2]
    rw [Finset.sum_range_add]
  have e1 : ∑ a in Finset.range i, f (skipIdx i a) = ∑ a in Finset.range i, f a := by
    apply Finset.sum_congr rfl
    intro a ha
    simp only [Finset.mem_range] at ha
    simp [skipIdx, ha]
  have e2 : ∑ t in Finset.range (m - i), f (skipIdx i (i + t))
      = ∑ t in Finset.range (m - i), f (i + 1 + t) := by
    apply Finset.sum_congr rfl
    intro t _
    have : ¬ (i + t < i) := by omega
    simp only [skipIdx, this, if_false]
    congr 1; omega
  rw [hL, hR, e1, e2]; ring

theorem skipIdx_lt (i a n : Nat) (ha : a < n - 1) : skipIdx i a < n := by
  simp only [skipIdx]; split_ifs <;> omega

/-- Dropping a row and the same column keeps the matrix symmetric. -/
theorem isSymm_drop (Q b : List ℚ) (n i : Nat) (hi : i < n) (hs : IsSymm Q n) :
    IsSymm (dropRowCol Q b n i).1 (n - 1) := by
  obtain ⟨_, _, hent, _⟩ := dropRowCol_spec Q b n i hi
  intro a c ha hc
  rw [hent a c ha hc, hent c a hc ha]
  exact hs _ _ (skipIdx_lt i a n ha) (skipIdx_lt i c n hc)

/-- Dropping a row and the same column keeps the matrix positive definite. -/
theorem isPosDef_drop (Q b : List ℚ) (n i : Nat) (hi : i < n) (hp : IsPosDef Q n) :
    IsPosDef (dropRowCol Q b n i).1 (n - 1) := by
  obtain ⟨_, _, hent, _⟩ := dropRowCol_spec Q b n i hi
  obtain ⟨m, rfl⟩ : ∃ m, n = m + 1 := ⟨n - 1, by omega⟩
  simp only [Nat.add_sub_cancel] at hent ⊢
  intro v ⟨a0, ha0, hva0⟩
  let w : Nat → ℚ := fun k => if k = i then 0 else v (if k < i then k else k - 1)
  have hw : ∀ a, w (skipIdx i a) = v a := by
    intro a
    simp only [w, skipIdx]
    split_ifs <;> first | omega | rfl
  have hwi : w i = 0 := by simp [w]
  have hpos := hp w ⟨skipIdx i a0, skipIdx_lt i a0 (m + 1) (by simpa using ha0), by
    rw [hw]; exact hva0⟩
  have heq : quadForm Q (m + 1) w = quadForm (dropRowCol Q b (m + 1) i).1 m v := by
    unfold quadForm
    rw [sum_skip _ m i (by omega), hwi]
    simp only [zero_mul, Finset.sum_const_zero, zero_add]
    apply Finset.sum_congr rfl
    intro a ha
    simp only [Finset.mem_range] at ha
    rw [sum_skip _ m i (by omega), hwi]
    simp only [mul_zero, zero_add]
    apply Finset.sum_congr rfl
    intro c hc
    simp only [Finset.mem_range] at hc
    rw [hw, hw, hent a c ha hc]
  rw [← heq]
  exact hpos

/-! ## Sums, signs and the descent step of `weakQuadraticOpt` -/

theorem vsum_eq (x : List ℚ) (n : Nat) : vsum x n = ∑ i in Finset.range n, rd x i := by
  unfold vsum
  rw [forUp_add, zero_add]

theorem sum_rd_eq_sum (x : List ℚ) : ∑ i in Finset.range x.length, rd x i = x.sum := by
  induction x with
  | nil => simp
  | cons a t ih =>
    rw [List.length_cons, Finset.sum_range_succ', List.sum_cons, ← ih]
    have h0 : rd (a :: t) 0 = a := rfl
    have h1 : ∀ i, rd (a :: t) (i + 1) = rd t i := fun i => rfl
    simp only [h0, h1]
    ring

theorem vsum_eq_sum (x : List ℚ) (n : Nat) (h : x.length = n) : vsum x n = x.sum := by
  rw [vsum_eq, ← h, sum_rd_eq_sum]

theorem rd_mem (x : List ℚ) (i : Nat) (h : i < x.length) : rd x i ∈ x := by
  unfold rd
  rw [List.getD_eq_getElem?_getD, List.getElem?_eq_getElem h]
  exact List.getElem_mem h

theorem exists_rd_of_mem (x : List ℚ) (a : ℚ) (h : a ∈ x) : ∃ i, i < x.length ∧ rd x i = a := by
  obtain ⟨i, hi, rfl⟩ := List.getElem_of_mem h
  refine ⟨i, hi, ?_⟩
  unfold rd
  rw [List.getD_eq_getElem?_getD, List.getElem?_eq_getElem hi]
  rfl

theorem hasNeg_eq_false_iff (x : List ℚ) (n : Nat) :
    hasNeg x n = false ↔ ∀ i, i < n → 0 ≤ rd x i := by
  unfold hasNeg
  induction n with
  | zero => simp [forUp]
  | succ n ih =>
    rw [forUp_succ]
    by_cases h : rd x n < 0
    · rw [if_pos h]
      constructor
      · intro hc; cases hc
      · intro hall
        exact absurd (hall n (Nat.lt_succ_self n)) (not_le.mpr h)
    · rw [if_neg h, ih]
      constructor
      · intro hall i hi
        by_cases hin : i = n
        · subst hin; exact not_lt.mp h
        · exact hall i (by omega)
      · intro hall i hi
        exact hall i (by omega)

/-- The descent loop of lines 199-200 changes every entry by `lambda * y[i]`. -/
theorem descent_spec (x y : List ℚ) (lam : ℚ) (n : Nat) (hn : n ≤ x.length) :
    (forUp (fun i (x : List ℚ) => x.set i (rd x i - lam * rd y i)) n x).length = x.length ∧
    (∀ i, i < n →
      rd (forUp (fun i (x : List ℚ) => x.set i (rd x i - lam * rd y i)) n x) i
        = rd x i - lam * rd y i) ∧
    (∀ i, n ≤ i →
      rd (forUp (fun i (x : List ℚ) => x.set i (rd x i - lam * rd y i)) n x) i = rd x i) := by
  induction n with
  | zero => exact ⟨rfl, fun i hi => absurd hi (Nat.not_lt_zero _), fun i _ => rfl⟩
  | succ n ih =>
    obtain ⟨h1, h2, h3⟩ := ih (by omega)
    rw [forUp_succ]
    refine ⟨by rw [List.length_set]; exact h1, ?_, ?_⟩
    · intro i hi
      by_cases h : i = n
      · subst h
        rw [rd_set_eq _ _ _ (by omega), h3 i le_rfl]
      · rw [rd_set_ne _ _ _ _ (by omega)]
        exact h2 i (by omega)
    · intro i hi
      rw [rd_set_ne _ _ _ _ (by omega)]
      exact h3 i (by omega)

theorem list_eq_of_rd (x r : List ℚ) (hl : r.length = x.length)
    (h : ∀ i, i < x.length → rd r i = rd x i) : r = x := by
  apply List.ext_getElem hl
  intro i h1 h2
  have := h i h2
  unfold rd at this
  rw [List.getD_eq_getElem?_getD, List.getD_eq_getElem?_getD, List.getElem?_eq_getElem h1,
    List.getElem?_eq_getElem h2] at this
  simpa using this

/-- The sum of the solution of `Q y = 1` is the quadratic form at `y`, hence
positive for a positive definite matrix. -/
theorem ysum_pos (Q y : List ℚ) (n : Nat) (hn : 0 < n) (hp : IsPosDef Q n)
    (hy : ∀ i, i < n → ∑ j in Finset.range n, rd Q (i * n + j) * rd y j = 1) :
    0 < ∑ i in Finset.range n, rd y i := by
  have hq : quadForm Q n (rd y) = ∑ i in Finset.range n, rd y i := by
    unfold quadForm
    apply Finset.sum_congr rfl
    intro i hi
    simp only [Finset.mem_range] at hi
    have : ∑ j in Finset.range n, rd y i * rd Q (i * n + j) * rd y j
        = rd y i * ∑ j in Finset.range n, rd Q (i * n + j) * rd y j := by
      rw [Finset.mul_sum]
      apply Finset.sum_congr rfl; intro j _; ring
    rw [this, hy i hi, mul_one]
  rw [← hq]
  apply hp
  by_contra hzero
  push_neg at hzero
  have h0 := hy 0 hn
  have : ∑ j in Finset.range n, rd Q (0 * n + j) * rd y j = 0 := by
    apply Finset.sum_eq_zero
    intro j hj
    simp only [Finset.mem_range] at hj
    rw [hzero j hj, mul_zero]
  rw [this] at h0
  exact zero_ne_one h0

/-- The general path of `weakQuadraticOpt` on a symmetric positive definite
matrix: the result is `x - lambda * y` for a multiplier `lambda ≥ 0` that is
zero unless the constraint `Σ x ≤ Cn` is active. -/
theorem weak_posdef (n : Nat) (Q b : List ℚ) (Cn : ℚ) (hn : 2 ≤ n)
    (hQ : Q.length = n * n) (hb : b.length = n) (hs : IsSymm Q n) (hp : IsPosDef Q n) :
    ∃ x y r lam, solveCholesky Q b = Except.ok (x, y) ∧ x.length = n ∧ y.length = n ∧
      (∀ i, i < n → ∑ j in Finset.range n, rd Q (i * n + j) * rd x j = rd b i) ∧
      (∀ i, i < n → ∑ j in Finset.range n, rd Q (i * n + j) * rd y j = 1) ∧
      weakQuadraticOpt Q b Cn = Except.ok r ∧ r.length = n ∧ 0 ≤ lam ∧
      (∀ i, i < n → rd r i = rd x i - lam * rd y i) ∧
      (lam = 0 ∨ ∑ i in Finset.range n, rd r i = Cn) ∧
      (Cn < ∑ i in Finset.range n, rd x i → ∑ i in Finset.range n, rd r i = Cn) ∧
      (∑ i in Finset.range n, rd x i ≤ Cn → r = x) := by
  obtain ⟨x, y, hsol, hxl, hyl, hx, hy⟩ := solveCholeskyN_posdef n Q b (by omega) hb hs hp
  have hsol2 : solveCholesky Q b = Except.ok (x, y) := by
    unfold solveCholesky; rw [hb]; exact hsol
  have hQ1 : Q.length ≠ 1 := by
    rw [hQ]
    intro h
    have : 2 * 2 ≤ n * n := Nat.mul_le_mul hn hn
    omega
  have hys := ysum_pos Q y n (by omega) hp hy
  have hweak : weakQuadraticOpt Q b Cn =
      if hasNeg x n = false ∧ vsum x n ≤ Cn then Except.ok x
      else
        match fdiv (if vsum x n - Cn < 0 then 0 else vsum x n - Cn) (vsum y n) with
        | Except.error e => Except.error e
        | Except.ok lambda =>
          Except.ok (forUp (fun i (x : List ℚ) => x.set i (rd x i - lambda * rd y i)) n x) := by
    unfold weakQuadraticOpt
    rw [if_neg hQ1, hsol2, hb]
  refine ⟨x, y, ?_⟩
  by_cases hc : hasNeg x n = false ∧ vsum x n ≤ Cn
  · refine ⟨x, 0, hsol2, hxl, hyl, hx, hy, by rw [hweak, if_pos hc], hxl, le_rfl, ?_,
      Or.inl rfl, ?_, fun _ => rfl⟩
    · intro i _; ring
    · intro h
      rw [← vsum_eq] at h
      exact absurd hc.2 (not_le.mpr h)
  · have hyne : vsum y n ≠ 0 := by rw [vsum_eq]; exact ne_of_gt hys
    obtain ⟨num, hnum⟩ : ∃ num : ℚ, num = if vsum x n - Cn < 0 then 0 else vsum x n - Cn :=
      ⟨_, rfl⟩
    obtain ⟨r, hr⟩ : ∃ r : List ℚ,
        r = forUp (fun i (x : List ℚ) => x.set i (rd x i - num / vsum y n * rd y i)) n x :=
      ⟨_, rfl⟩
    have hweak2 : weakQuadraticOpt Q b Cn = Except.ok r := by
      rw [hweak, if_neg hc, ← hnum, hr]
      simp only [fdiv, hyne, if_false]
    obtain ⟨hdl, hde, _⟩ := descent_spec x y (num / vsum y n) n (by omega)
    rw [← hr] at hdl hde
    have hsum : ∑ i in Finset.range n, rd r i = vsum x n - num := by
      have h1 : ∑ i in Finset.range n, rd r i
          = ∑ i in Finset.range n, (rd x i - num / vsum y n * rd y i) :=
        Finset.sum_congr rfl (fun i hi => hde i (Finset.mem_range.mp hi))
      rw [h1, Finset.sum_sub_distrib, ← Finset.mul_sum, ← vsum_eq, ← vsum_eq]
      field_simp
    have hzero : num = 0 → r = x := by
      intro h0
      apply list_eq_of_rd x r hdl
      intro i hi
      rw [hde i (by omega), h0]
      ring
    refine ⟨r, num / vsum y n, hsol2, hxl, hyl, hx, hy, hweak2, by rw [hdl]; exact hxl, ?_,
      hde, ?_, ?_, ?_⟩
    · apply div_nonneg
      · rw [hnum]
        split_ifs with h
        · exact le_rfl
        · exact not_lt.mp h
      · rw [vsum_eq]; exact le_of_lt hys
    · by_cases h : vsum x n - Cn < 0
      · left
        rw [hnum, if_pos h, zero_div]
      · right
        rw [hsum, hnum, if_neg h]; ring
    · intro h
      rw [← vsum_eq] at h
      rw [hsum, hnum, if_neg (by linarith)]; ring
    · intro h
      rw [← vsum_eq] at h
      apply hzero
      rw [hnum]
      split_ifs with h2
      · rfl
      · linarith

/-! ## The objective and its maximizers -/

theorem rd_matVec (Q x : List ℚ) (n i : Nat) (hi : i < n) :
    rd (matVec Q n x) i = ∑ j in Finset.range n, rd Q (i * n + j) * rd x j := by
  unfold matVec
  rw [← list_range_map_sum]
  unfold rd
  rw [List.getD_eq_getElem?_getD, List.getElem?_map, List.getElem?_range hi]
  rfl

theorem objective_eq (Q b x : List ℚ) (n : Nat) :
    objective Q b n x
      = -(1 / 2) * (∑ i in Finset.range n, ∑ j in Finset.range n,
          rd x i * rd Q (i * n + j) * rd x j)
        + ∑ i in Finset.range n, rd b i * rd x i := by
  unfold objective dotN
  rw [list_range_map_sum, list_range_map_sum]
  congr 2
  apply Finset.sum_congr rfl
  intro i hi
  simp only [Finset.mem_range] at hi
  rw [rd_matVec Q x n i hi, Finset.mul_sum]
  apply Finset.sum_congr rfl; intro j _; ring

/-- Comparison of a quadratic objective at two points: the difference is a
negative semi-definite term plus the gradient at `r` against the step. -/
theorem quad_compare (q : Nat → Nat → ℚ) (b r z : Nat → ℚ) (n : Nat)
    (hsym : ∀ i j, i < n → j < n → q i j = q j i) :
    -(1 / 2) * (∑ i in Finset.range n, ∑ j in Finset.range n, z i * q i j * z j)
        + ∑ i in Finset.range n, b i * z i
      = (-(1 / 2) * (∑ i in Finset.range n, ∑ j in Finset.range n, r i * q i j * r j)
          + ∑ i in Finset.range n, b i * r i)
        - (1 / 2) * (∑ i in Finset.range n, ∑ j in Finset.range n,
            (z i - r i) * q i j * (z j - r j))
        + ∑ i in Finset.range n,
            (b i - ∑ j in Finset.range n, q i j * r j) * (z i - r i) := by
  have hzz : ∑ i in Finset.range n, ∑ j in Finset.range n, z i * q i j * z j
      = ∑ i in Finset.range n, ∑ j in Finset.range n, r i * q i j * r j
        + ∑ i in Finset.range n, ∑ j in Finset.range n, (z i - r i) * q i j * r j
        + ∑ i in Finset.range n, ∑ j in Finset.range n, r i * q i j * (z j - r j)
        + ∑ i in Finset.range n, ∑ j in Finset.range n, (z i - r i) * q i j * (z j - r j) := by
    simp only [← Finset.sum_add_distrib]
    apply Finset.sum_congr rfl; intro i _
    apply Finset.sum_congr rfl; intro j _
    ring
  have hswap : ∑ i in Finset.range n, ∑ j in Finset.range n, r i * q i j * (z j - r j)
      = ∑ i in Finset.range n, ∑ j in Finset.range n, (z i - r i) * q i j * r j := by
    rw [Finset.sum_comm]
    apply Finset.sum_congr rfl; intro i hi
    apply Finset.sum_congr rfl; intro j hj
    simp only [Finset.mem_range] at hi hj
    rw [hsym j i hj hi]; ring
  have hgrad : ∑ i in Finset.range n, (b i - ∑ j in Finset.range n, q i j * r j) * (z i - r i)
      = ∑ i in Finset.range n, b i * z i - ∑ i in Finset.range n, b i * r i
        - ∑ i in Finset.range n, ∑ j in Finset.range n, (z i - r i) * q i j * r j := by
    simp only [← Finset.sum_sub_distrib]
    apply Finset.sum_congr rfl; intro i _
    rw [sub_mul, Finset.sum_mul]
    have : ∑ j in Finset.range n, (z i - r i) * q i j * r j
        = ∑ j in Finset.range n, q i j * r j * (z i - r i) := by
      apply Finset.sum_congr rfl; intro j _; ring
    rw [this]; ring
  rw [hzz, hswap, hgrad]
  ring

theorem posdef_nonneg (Q : List ℚ) (n : Nat) (v : Nat → ℚ) (hp : IsPosDef Q n) :
    0 ≤ quadForm Q n v := by
  by_cases h : ∃ i, i < n ∧ v i ≠ 0
  · exact le_of_lt (hp v h)
  · push_neg at h
    apply le_of_eq
    symm
    unfold quadForm
    apply Finset.sum_eq_zero
    intro i hi
    simp only [Finset.mem_range] at hi
    apply Finset.sum_eq_zero
    intro j _
    rw [h i hi]; ring

/-- A point whose gradient is `lam` in every coordinate, with `lam ≥ 0` and
`lam = 0` unless the sum constraint is active, maximizes the objective over
`Σ z ≤ Cn`. -/
theorem kkt_sum_optimal (Q b r z : List ℚ) (n : Nat) (lam Cn : ℚ)
    (hs : IsSymm Q n) (hp : IsPosDef Q n) (hlam : 0 ≤ lam)
    (hgrad : ∀ i, i < n → ∑ j in Finset.range n, rd Q (i * n + j) * rd r j = rd b i - lam)
    (hact : lam = 0 ∨ ∑ i in Finset.range n, rd r i = Cn)
    (hz : ∑ i in Finset.range n, rd z i ≤ Cn) :
    objective Q b n z ≤ objective Q b n r := by
  rw [objective_eq, objective_eq,
    quad_compare (fun i j => rd Q (i * n + j)) (rd b) (rd r) (rd z) n hs]
  have hpsd := posdef_nonneg Q n (fun i => rd z i - rd r i) hp
  unfold quadForm at hpsd
  have hlin : ∑ i in Finset.range n,
        (rd b i - ∑ j in Finset.range n, rd Q (i * n + j) * rd r j) * (rd z i - rd r i)
      = lam * (∑ i in Finset.range n, rd z i - ∑ i in Finset.range n, rd r i) := by
    rw [← Finset.sum_sub_distrib, Finset.mul_sum]
    apply Finset.sum_congr rfl
    intro i hi
    simp only [Finset.mem_range] at hi
    rw [hgrad i hi]; ring
  rw [hlin]
  have hle : lam * (∑ i in Finset.range n, rd z i - ∑ i in Finset.range n, rd r i) ≤ 0 := by
    rcases hact with h0 | hsum
    · rw [h0, zero_mul]
    · rw [hsum]
      exact mul_nonpos_of_nonneg_of_nonpos hlam (by linarith)
  linarith

/-! ## Sizes of the vectors returned by `solveCholesky` -/

/-- A loop left through its body was left in one of its rounds. -/
theorem forUpM_error {ε σ : Type} (body : Nat → σ → Except ε σ) (k : Nat) (s : σ) (e : ε)
    (h : forUpM body k s = Except.error e) :
    ∃ j t, j < k ∧ body j t = Except.error e := by
  induction k with
  | zero => simp [forUpM] at h
  | succ k ih =>
    rw [forUpM_succ] at h
    cases hk : forUpM body k s with
    | error e2 =>
      rw [hk] at h
      simp only [Except.error.injEq] at h
      subst h
      obtain ⟨j, t, hj, hb⟩ := ih hk
      exact ⟨j, t, by omega, hb⟩
    | ok t =>
      rw [hk] at h
      exact ⟨k, t, Nat.lt_succ_self k, h⟩

/-- The singular branch is taken at a row `1 ≤ i < n` only. -/
theorem cholFactor_singular_range (Q : List ℚ) (n i : Nat)
    (h : cholFactor Q n = Except.error (CholExit.singular i)) : 1 ≤ i ∧ i < n := by
  unfold cholFactor at h
  obtain ⟨j, t, hj, hb⟩ := forUpM_error _ _ _ _ h
  dsimp only at hb
  cases hrow : cholRow Q n (j + 1) t with
  | error e => rw [hrow] at hb; simp at hb
  | ok st =>
    rw [hrow] at hb
    dsimp only at hb
    split_ifs at hb with h0
    simp only [Except.error.injEq, CholExit.singular.injEq] at hb
    omega

theorem length_insertAt (v : List ℚ) (i : Nat) (a : ℚ) :
    (insertAt v i a).length = v.length + 1 := by
  unfold insertAt
  simp only [List.length_append, List.length_take, List.length_cons, List.length_drop]
  omega

theorem backSubst_length (L LD b x : List ℚ) (hb : 0 < b.length)
    (h : backSubst L LD b = Except.ok x) : x.length = b.length := by
  unfold backSubst at h
  cases hf : forwardSubst LD b with
  | error e => rw [hf] at h; simp at h
  | ok y =>
    rw [hf] at h
    simp only [Except.ok.injEq] at h
    rw [← h]
    exact (backwardSubst_spec L y b.length hb).1

/-- Both vectors returned by `solveCholeskyN` have length `n`. -/
theorem solveCholeskyN_length (n : Nat) :
    ∀ (Q b x y : List ℚ), b.length = n → solveCholeskyN n Q b = Except.ok (x, y) →
      x.length = n ∧ y.length = n := by
  induction n with
  | zero =>
    intro Q b x y _ h
    simp only [solveCholeskyN, Except.ok.injEq, Prod.mk.injEq] at h
    rw [← h.1, ← h.2]
    exact ⟨rfl, rfl⟩
  | succ m ih =>
    intro Q b x y hb h
    unfold solveCholeskyN at h
    dsimp only at h
    cases hf : cholFactor Q (m + 1) with
    | error e =>
      rw [hf] at h
      cases e with
      | divZero => simp at h
      | singular i =>
        dsimp only at h
        obtain ⟨_, hi⟩ := cholFactor_singular_range Q (m + 1) i hf
        obtain ⟨_, hbl, _, _⟩ := dropRowCol_spec Q b (m + 1) i hi
        cases hrec : solveCholeskyN m (dropRowCol Q b (m + 1) i).1
            (dropRowCol Q b (m + 1) i).2 with
        | error e => rw [hrec] at h; simp at h
        | ok xy =>
          rw [hrec] at h
          simp only [Except.ok.injEq, Prod.mk.injEq] at h
          obtain ⟨h1, h2⟩ := ih _ _ xy.1 xy.2 (by simpa using hbl) hrec
          rw [← h.1, ← h.2, length_insertAt, length_insertAt, h1, h2]
          exact ⟨rfl, rfl⟩
    | ok LDpair =>
      rw [hf] at h
      dsimp only at h
      cases hx : backSubst LDpair.1 (mkLD LDpair.1 LDpair.2 (m + 1)) b with
      | error e => rw [hx] at h; simp at h
      | ok x1 =>
        rw [hx] at h
        dsimp only at h
        cases hy : backSubst LDpair.1 (mkLD LDpair.1 LDpair.2 (m + 1))
            (List.replicate (m + 1) 1) with
        | error e => rw [hy] at h; simp at h
        | ok y1 =>
          rw [hy] at h
          simp only [Except.ok.injEq, Prod.mk.injEq] at h
          rw [← h.1, ← h.2]
          constructor
          · rw [backSubst_length _ _ _ _ (by omega) hx, hb]
          · rw [backSubst_length _ _ _ _ (by simp) hy]; simp

/-! ## The pieces of `strongQuadraticOpt` -/

/-- The smallest entry found by the scan of lines 217-223. -/
theorem argMin_spec (x : List ℚ) (n : Nat) (hn : 0 < n) :
    (argMin x n).1 < n ∧ (argMin x n).2 = rd x (argMin x n).1 ∧
      ∀ i, i < n → (argMin x n).2 ≤ rd x i := by
  have key := forUp_inv
    (fun k (st : Nat × ℚ) => st.1 ≤ k ∧ st.2 = rd x st.1 ∧ ∀ i, i ≤ k → st.2 ≤ rd x i)
    (fun k (st : Nat × ℚ) => if rd x (k + 1) < st.2 then (k + 1, rd x (k + 1)) else st)
    (n - 1) (0, rd x 0)
    ⟨le_rfl, rfl, fun i hi => by
      have : i = 0 := by omega
      subst this; exact le_rfl⟩
    (by
      intro k st _ ⟨h1, h2, h3⟩
      beta_reduce
      by_cases h : rd x (k + 1) < st.2
      · rw [if_pos h]
        refine ⟨le_rfl, rfl, ?_⟩
        intro i hi
        by_cases hik : i = k + 1
        · subst hik; exact le_rfl
        · exact le_trans (le_of_lt h) (h3 i (by omega))
      · rw [if_neg h]
        refine ⟨by omega, h2, ?_⟩
        intro i hi
        by_cases hik : i = k + 1
        · subst hik; exact not_lt.mp h
        · exact h3 i (by omega))
  obtain ⟨h1, h2, h3⟩ := key
  have h1b : (argMin x n).1 ≤ n - 1 := h1
  exact ⟨by omega, h2, fun i hi => h3 i (by omega)⟩

theorem mem_insertAt (v : List ℚ) (i : Nat) (c a : ℚ) (h : a ∈ insertAt v i c) :
    a = c ∨ a ∈ v := by
  unfold insertAt at h
  rw [List.mem_append, List.mem_cons] at h
  rcases h with h | h | h
  · exact Or.inr (List.mem_of_mem_take h)
  · exact Or.inl h
  · exact Or.inr (List.mem_of_mem_drop h)

theorem sum_insertAt (v : List ℚ) (i : Nat) (c : ℚ) : (insertAt v i c).sum = v.sum + c := by
  unfold insertAt
  rw [List.sum_append, List.sum_cons]
  have := List.sum_take_add_sum_drop v i
  linarith

/-- The one-variable path of `weakQuadraticOpt` with a non-zero coefficient. -/
theorem weak_single (q b0 Cn : ℚ) (hq : q ≠ 0) :
    weakQuadraticOpt [q] [b0] Cn
      = Except.ok [if (if b0 / q > Cn then Cn else b0 / q) < 0 then 0
          else (if b0 / q > Cn then Cn else b0 / q)] := by
  have h1 : rd [q] 0 = q := rfl
  have h2 : rd [b0] 0 = b0 := rfl
  unfold weakQuadraticOpt
  simp only [List.length_singleton, if_true, h1, h2, hq, if_false, fdiv]

theorem list_length_one (v : List ℚ) (h : v.length = 1) : v = [rd v 0] := by
  match v, h with
  | [a], _ => rfl

/-- A positive definite matrix of size one has a positive entry. -/
theorem posdef_one_pos (Q : List ℚ) (hp : IsPosDef Q 1) : 0 < rd Q 0 := by
  have h := hp (fun _ => 1) ⟨0, by omega, one_ne_zero⟩
  simpa [quadForm] using h

/-- On a symmetric positive definite matrix, with `Cn ≥ 0`, the weak routine
returns a vector of sum at most `Cn`; in dimension one its entry is
non-negative as well. -/
theorem weak_feasible (n : Nat) (Q b : List ℚ) (Cn : ℚ) (hn : 1 ≤ n)
    (hQ : Q.length = n * n) (hb : b.length = n) (hs : IsSymm Q n) (hp : IsPosDef Q n)
    (hCn : 0 ≤ Cn) :
    ∃ r, weakQuadraticOpt Q b Cn = Except.ok r ∧ r.length = n ∧ r.sum ≤ Cn ∧
      (n = 1 → ∀ a, a ∈ r → 0 ≤ a) := by
  by_cases h1 : n = 1
  · subst h1
    have hq := posdef_one_pos Q hp
    have hQe := list_length_one Q (by simpa using hQ)
    have hbe := list_length_one b hb
    rw [hQe, hbe, weak_single _ _ _ (ne_of_gt hq)]
    refine ⟨_, rfl, rfl, ?_, ?_⟩
    · simp only [List.sum_singleton]
      split_ifs <;> linarith
    · intro _ a ha
      simp only [List.mem_singleton] at ha
      rw [ha]
      split_ifs <;> linarith
  · obtain ⟨x, y, r, lam, _, _, _, _, _, hw, hrl, _, _, _, hgt, hle⟩ :=
      weak_posdef n Q b Cn (by omega) hQ hb hs hp
    refine ⟨r, hw, hrl, ?_, fun h => absurd h h1⟩
    rw [← vsum_eq_sum r n hrl, vsum_eq]
    by_cases h : ∑ i in Finset.range n, rd x i ≤ Cn
    · rw [hle h]; exact h
    · exact le_of_eq (hgt (not_le.mp h))

/-- The strong routine returns a feasible point: induction on the dimension. -/
theorem strongN_feasible (Cn : ℚ) (hCn : 0 ≤ Cn) (n : Nat) :
    ∀ (Q b : List ℚ), 1 ≤ n → Q.length = n * n → b.length = n → IsSymm Q n → IsPosDef Q n →
      ∃ r, strongQuadraticOptN n Q b Cn = Except.ok r ∧ r.length = n ∧
        (∀ a, a ∈ r → 0 ≤ a) ∧ r.sum ≤ Cn := by
  induction n with
  | zero => intro Q b hn; omega
  | succ m ih =>
    intro Q b _ hQ hb hs hp
    obtain ⟨r0, hw, hrl, hsum, hone⟩ := weak_feasible (m + 1) Q b Cn (by omega) hQ hb hs hp hCn
    obtain ⟨ham1, ham2, ham3⟩ := argMin_spec r0 (m + 1) (by omega)
    unfold strongQuadraticOptN
    rw [hw]
    dsimp only
    by_cases hmin : (argMin r0 (m + 1)).2 ≥ 0
    · rw [if_pos hmin]
      refine ⟨r0, rfl, hrl, ?_, hsum⟩
      intro a ha
      obtain ⟨i, hi, rfl⟩ := exists_rd_of_mem r0 a ha
      exact le_trans hmin (ham3 i (by omega))
    · rw [if_neg hmin]
      have hm : 1 ≤ m := by
        by_contra hm0
        have hm1 : m + 1 = 1 := by omega
        apply hmin
        rw [ham2]
        exact hone hm1 _ (rd_mem r0 _ (by omega))
      obtain ⟨hQl, hbl, _, _⟩ := dropRowCol_spec Q b (m + 1) (argMin r0 (m + 1)).1 ham1
      obtain ⟨r2, hr2, hr2l, hr2nn, hr2sum⟩ := ih _ _ hm (by simpa using hQl)
        (by simpa using hbl)
        (by simpa using isSymm_drop Q b (m + 1) _ ham1 hs)
        (by simpa using isPosDef_drop Q b (m + 1) _ ham1 hp)
      rw [hr2]
      refine ⟨_, rfl, by rw [length_insertAt, hr2l], ?_, by rw [sum_insertAt]; linarith⟩
      intro a ha
      rcases mem_insertAt _ _ _ _ ha with h | h
      · rw [h]
      · exact hr2nn a h

/-! ## The precondition checks of `quadOptBox` -/

/-- A checking loop raises exactly when one of its rounds finds a fault. -/
theorem forUpM_check_error (c : Nat → Prop) [DecidablePred c] (e : Err) (k : Nat)
    (h : ∃ i, i < k ∧ c i) :
    forUpM (fun i (_ : Unit) => if c i then Except.error e else Except.ok ()) k ()
      = Except.error e := by
  induction k with
  | zero => obtain ⟨i, hi, _⟩ := h; omega
  | succ k ih =>
    rw [forUpM_succ]
    by_cases hk : ∃ i, i < k ∧ c i
    · rw [ih hk]
    · obtain ⟨i, hi, hc⟩ := h
      have hik : i = k := by
        by_contra hne
        exact hk ⟨i, by omega, hc⟩
      subst hik
      cases hr : forUpM (fun i (_ : Unit) => if c i then Except.error e else Except.ok ()) i ()
        with
      | error e2 =>
        obtain ⟨j, t, hj, hb⟩ := forUpM_error _ _ _ _ hr
        split_ifs at hb with hcj
        · exact absurd ⟨j, hj, hcj⟩ hk
      | ok t =>
        rw [if_pos hc]

theorem forUpM_check_ok (c : Nat → Prop) [DecidablePred c] (e : Err) (k : Nat)
    (h : ¬ ∃ i, i < k ∧ c i) :
    forUpM (fun i (_ : Unit) => if c i then Except.error e else Except.ok ()) k ()
      = Except.ok () := by
  induction k with
  | zero => rfl
  | succ k ih =>
    rw [forUpM_succ, ih (fun ⟨i, hi, hc⟩ => h ⟨i, by omega, hc⟩)]
    dsimp only
    rw [if_neg (fun hc => h ⟨k, Nat.lt_succ_self k, hc⟩)]

theorem boxChecks_eq (Q b : List ℚ) :
    (BoxFault Q b → boxChecks Q b = Except.error Err.logic) ∧
    (¬ BoxFault Q b → boxChecks Q b = Except.ok ()) := by
  have hinner : ∀ i, forUpM (fun j (_ : Unit) =>
        if rd Q (i * b.length + j) ≠ rd Q (j * b.length + i) then Except.error Err.logic
        else Except.ok ()) b.length ()
      = if (∃ j, j < b.length ∧ rd Q (i * b.length + j) ≠ rd Q (j * b.length + i))
          then Except.error Err.logic else Except.ok () := by
    intro i
    by_cases h : ∃ j, j < b.length ∧ rd Q (i * b.length + j) ≠ rd Q (j * b.length + i)
    · rw [if_pos h]
      exact forUpM_check_error
        (fun j => rd Q (i * b.length + j) ≠ rd Q (j * b.length + i)) Err.logic b.length h
    · rw [if_neg h]
      exact forUpM_check_ok
        (fun j => rd Q (i * b.length + j) ≠ rd Q (j * b.length + i)) Err.logic b.length h
  unfold boxChecks BoxFault
  dsimp only
  simp only [hinner]
  by_cases h1 : dimMismatch Q b = true
  · rw [if_pos h1]
    exact ⟨fun _ => rfl, fun h => absurd (Or.inl h1) h⟩
  · rw [if_neg h1]
    by_cases h2 : ∃ i, i < b.length ∧ rd Q (i * b.length + i) = 0
    · rw [forUpM_check_error (fun i => rd Q (i * b.length + i) = 0) Err.logic b.length h2]
      exact ⟨fun _ => rfl, fun h => absurd (Or.inr (Or.inl h2)) h⟩
    · rw [forUpM_check_ok (fun i => rd Q (i * b.length + i) = 0) Err.logic b.length h2]
      dsimp only
      by_cases h3 : ∃ i, i < b.length ∧ ∃ j, j < b.length ∧
          rd Q (i * b.length + j) ≠ rd Q (j * b.length + i)
      · rw [forUpM_check_error (fun i => ∃ j, j < b.length ∧
          rd Q (i * b.length + j) ≠ rd Q (j * b.length + i)) Err.logic b.length h3]
        exact ⟨fun _ => rfl, fun h => absurd (Or.inr (Or.inr h3)) h⟩
      · rw [forUpM_check_ok (fun i => ∃ j, j < b.length ∧
          rd Q (i * b.length + j) ≠ rd Q (j * b.length + i)) Err.logic b.length h3]
        refine ⟨fun h => ?_, fun _ => rfl⟩
        rcases h with h | h | h
        · exact absurd h h1
        · exact absurd h h2
        · exact absurd h h3

/-! ## The main loop of `quadOptBox` -/

theorem fdiv_error (a d : ℚ) (e : Err) (h : fdiv a d = Except.error e) : e = Err.divZero := by
  unfold fdiv at h
  split_ifs at h
  simp only [Except.error.injEq] at h
  exact h.symm

/-- The single-direction update raises nothing and keeps the size of `x`. -/
theorem boxSingle_cases (Q b x : List ℚ) (C eps : ℚ) (n i : Nat) :
    boxSingle Q b x C eps n i = Except.error Err.divZero ∨
    ∃ v brk, boxSingle Q b x C eps n i
      = Except.ok ((x.set i v).set i (clampBox (rd (x.set i v) i) C), brk) := by
  unfold boxSingle
  dsimp only
  cases hd : fdiv (forUp (fun k (num : ℚ) => num - rd Q (i * n + k) * rd x k) n (rd b i)
      + rd Q (i * n + i) * rd x i) (rd Q (i * n + i)) with
  | error e =>
    left
    rw [fdiv_error _ _ _ hd]
  | ok v =>
    right
    exact ⟨v, _, rfl⟩

/-- The pair update raises nothing; its result is `x` with the entries `i`
and `j` overwritten, the last two writes being the clamped values. -/
theorem boxPair_cases (Q b x : List ℚ) (C eps : ℚ) (n i j : Nat) :
    boxPair Q b x C eps n i j = Except.error Err.divZero ∨
    ∃ x1 brk, x1.length = x.length ∧ (∀ k, k ≠ i → k ≠ j → rd x1 k = rd x k) ∧
      boxPair Q b x C eps n i j
        = Except.ok ((x1.set i (clampBox (rd x1 i) C)).set j
            (clampBox (rd (x1.set i (clampBox (rd x1 i) C)) j) C), brk) := by
  unfold boxPair
  dsimp only
  by_cases hq : rd Q (i * n + j) = 0
  · simp only [hq, if_true]
    cases h1 : fdiv ((forUp (fun k (rhs : ℚ × ℚ) =>
        (rhs.1 - rd Q (i * n + k) * rd x k, rhs.2 - rd Q (j * n + k) * rd x k)) n
        (rd b i, rd b j)).1 + (rd Q (i * n + i) * rd x i + 0 * rd x j))
        (rd Q (i * n + i)) with
    | error e => left; rw [fdiv_error _ _ _ h1]
    | ok vi =>
      dsimp only
      cases h2 : fdiv ((forUp (fun k (rhs : ℚ × ℚ) =>
          (rhs.1 - rd Q (i * n + k) * rd x k, rhs.2 - rd Q (j * n + k) * rd x k)) n
          (rd b i, rd b j)).2 + (0 * rd x i + rd Q (j * n + j) * rd x j))
          (rd Q (j * n + j)) with
      | error e => left; rw [fdiv_error _ _ _ h2]
      | ok vj =>
        right
        refine ⟨(x.set i vi).set j vj, _, by simp, ?_, rfl⟩
        intro k hki hkj
        rw [rd_set_ne _ _ _ _ (Ne.symm hkj), rd_set_ne _ _ _ _ (Ne.symm hki)]
  · simp only [hq, if_false]
    cases h1 : fdiv (rd Q (i * n + j) * ((forUp (fun k (rhs : ℚ × ℚ) =>
        (rhs.1 - rd Q (i * n + k) * rd x k, rhs.2 - rd Q (j * n + k) * rd x k)) n
        (rd b i, rd b j)).1 + (rd Q (i * n + i) * rd x i + rd Q (i * n + j) * rd x j))
        - rd Q (i * n + i) * ((forUp (fun k (rhs : ℚ × ℚ) =>
        (rhs.1 - rd Q (i * n + k) * rd x k, rhs.2 - rd Q (j * n + k) * rd x k)) n
        (rd b i, rd b j)).2 + (rd Q (i * n + j) * rd x i + rd Q (j * n + j) * rd x j)))
        (rd Q (i * n + j) * rd Q (i * n + j) - rd Q (i * n + i) * rd Q (j * n + j)) with
    | error e => left; rw [fdiv_error _ _ _ h1]
    | ok vj =>
      dsimp only
      cases h2 : fdiv ((forUp (fun k (rhs : ℚ × ℚ) =>
          (rhs.1 - rd Q (i * n + k) * rd x k, rhs.2 - rd Q (j * n + k) * rd x k)) n
          (rd b i, rd b j)).1 + (rd Q (i * n + i) * rd x i + rd Q (i * n + j) * rd x j)
          - rd Q (i * n + j) * rd (x.set j vj) j) (rd Q (i * n + i)) with
      | error e => left; rw [fdiv_error _ _ _ h2]
      | ok vi =>
        right
        refine ⟨(x.set j vj).set i vi, _, by simp, ?_, rfl⟩
        intro k hki hkj
        rw [rd_set_ne _ _ _ _ (Ne.symm hki), rd_set_ne _ _ _ _ (Ne.symm hkj)]

theorem clampBox_bounds (v C : ℚ) (hC : 0 ≤ C) : 0 ≤ clampBox v C ∧ clampBox v C ≤ C := by
  unfold clampBox
  dsimp only
  split_ifs <;> constructor <;> linarith

theorem inBox_single (x : List ℚ) (i : Nat) (v C : ℚ) (hC : 0 ≤ C) (h : InBox x C) :
    InBox ((x.set i v).set i (clampBox (rd (x.set i v) i) C)) C := by
  intro k hk
  simp only [List.length_set] at hk
  by_cases hki : i = k
  · subst hki
    rw [rd_set_eq _ _ _ (by simpa using hk)]
    exact clampBox_bounds _ C hC
  · rw [rd_set_ne _ _ _ _ hki, rd_set_ne _ _ _ _ hki]
    exact h k hk

theorem inBox_pair (x x1 : List ℚ) (i j : Nat) (C : ℚ) (hC : 0 ≤ C) (h : InBox x C)
    (hl : x1.length = x.length) (hkeep : ∀ k, k ≠ i → k ≠ j → rd x1 k = rd x k) :
    InBox ((x1.set i (clampBox (rd x1 i) C)).set j
      (clampBox (rd (x1.set i (clampBox (rd x1 i) C)) j) C)) C := by
  intro k hk
  simp only [List.length_set] at hk
  by_cases hkj : j = k
  · subst hkj
    rw [rd_set_eq _ _ _ (by simpa using hk)]
    exact clampBox_bounds _ C hC
  · rw [rd_set_ne _ _ _ _ hkj]
    by_cases hki : i = k
    · subst hki
      rw [rd_set_eq _ _ _ hk]
      exact clampBox_bounds _ C hC
    · rw [rd_set_ne _ _ _ _ hki, hkeep k (Ne.symm hki) (Ne.symm hkj)]
      exact h k (by rw [← hl]; exact hk)

/-- One round of the main loop: either the loop is left because no index
violates, or a division by zero occurs, or `x` is updated inside the box. -/
theorem boxStep_cases (Q b x : List ℚ) (C eps : ℚ) (n : Nat) :
    (boxStep Q b x C eps n = Except.ok (x, some BoxExit.noViolation) ∧
      (pickVars Q b x C).1 < 0) ∨
    boxStep Q b x C eps n = Except.error Err.divZero ∨
    ∃ x1 r, boxStep Q b x C eps n = Except.ok (x1, r) ∧ r ≠ some BoxExit.noViolation ∧
      x1.length = x.length ∧ (0 ≤ C → InBox x C → InBox x1 C) := by
  unfold boxStep
  dsimp only
  by_cases h1 : (pickVars Q b x C).1 < 0 ∧ (pickVars Q b x C).2 < 0
  · left
    rw [if_pos h1]
    exact ⟨rfl, h1.1⟩
  · right
    rw [if_neg h1]
    by_cases h2 : (pickVars Q b x C).1 < 0 ∨ (pickVars Q b x C).2 < 0
    · rw [if_pos h2]
      rcases boxSingle_cases Q b x C eps n
          (if (pickVars Q b x C).2 < 0 then (pickVars Q b x C).1
            else (pickVars Q b x C).2).toNat with h | ⟨v, brk, h⟩
      · left; rw [h]
      · right
        rw [h]
        refine ⟨_, _, rfl, ?_, by simp, fun hC hbox => inBox_single x _ v C hC hbox⟩
        cases brk <;> simp
    · rw [if_neg h2]
      rcases boxPair_cases Q b x C eps n (pickVars Q b x C).1.toNat
          (pickVars Q b x C).2.toNat with h | ⟨x1, brk, hl, hkeep, h⟩
      · left; rw [h]
      · right
        rw [h]
        refine ⟨_, _, rfl, ?_, by simp [hl],
          fun hC hbox => inBox_pair x x1 _ _ C hC hbox hl hkeep⟩
        cases brk <;> simp

/-- The main loop: its result, when there is one, has the size of the
start vector and lies in the box; it is left as `noViolation` only at a
point where `pickVars` finds nothing; it raises no logic error. -/
theorem boxLoop_spec (Q b : List ℚ) (C eps : ℚ) (n : Nat) (k : Nat) :
    ∀ x0, (∀ e, boxLoop Q b C eps n k x0 = Except.error e → e = Err.divZero) ∧
      ∀ x ex, boxLoop Q b C eps n k x0 = Except.ok (x, ex) →
        x.length = x0.length ∧ (0 ≤ C → InBox x0 C → InBox x C) ∧
        (ex = BoxExit.noViolation → (pickVars Q b x C).1 < 0) := by
  induction k with
  | zero =>
    intro x0
    constructor
    · intro e h; simp [boxLoop] at h
    · intro x ex h
      simp only [boxLoop, Except.ok.injEq, Prod.mk.injEq] at h
      rw [← h.1, ← h.2]
      exact ⟨rfl, fun _ hb => hb, fun hne => by cases hne⟩
  | succ k ih =>
    intro x0
    rcases boxStep_cases Q b x0 C eps n with ⟨h, hpv⟩ | h | ⟨x1, r, h, hr, hl, hbox⟩
    · constructor
      · intro e he; simp [boxLoop, h] at he
      · intro x ex hx
        simp only [boxLoop, h, Except.ok.injEq, Prod.mk.injEq] at hx
        rw [← hx.1]
        exact ⟨rfl, fun _ hb => hb, fun _ => hpv⟩
    · constructor
      · intro e he
        simp only [boxLoop, h, Except.error.injEq] at he
        exact he.symm
      · intro x ex hx; simp [boxLoop, h] at hx
    · cases r with
      | none =>
        obtain ⟨ih1, ih2⟩ := ih x1
        constructor
        · intro e he
          simp only [boxLoop, h] at he
          exact ih1 e he
        · intro x ex hx
          simp only [boxLoop, h] at hx
          obtain ⟨g1, g2, g3⟩ := ih2 x ex hx
          exact ⟨by rw [g1, hl], fun hC hb => g2 hC (hbox hC hb), g3⟩
      | some reason =>
        constructor
        · intro e he; simp [boxLoop, h] at he
        · intro x ex hx
          simp only [boxLoop, h, Except.ok.injEq, Prod.mk.injEq] at hx
          rw [← hx.1, ← hx.2]
          refine ⟨hl, hbox, ?_⟩
          intro hne
          rw [hne] at hr
          exact absurd rfl hr

/-! ## `pickVars` -/

/-- The gradient loop computes `b - Q x`. -/
theorem gradient_spec (Q b x : List ℚ) (n : Nat) :
    (gradient Q b x n).length = n ∧
      ∀ i, i < n → rd (gradient Q b x n) i = gradAt Q b x n i := by
  have key := forUp_inv
    (fun i (g : List ℚ) => g.length = n ∧ ∀ a, a < i → rd g a = gradAt Q b x n a)
    (fun i (g : List ℚ) =>
      (forUp (fun k (g : List ℚ) => g.set i (rd g i - rd Q (i * n + k) * rd x k)) n
        (g.set i 0)).set i
        (rd (forUp (fun k (g : List ℚ) => g.set i (rd g i - rd Q (i * n + k) * rd x k)) n
          (g.set i 0)) i + rd b i))
    n (List.replicate n 0)
    ⟨by simp, fun a ha => absurd ha (Nat.not_lt_zero _)⟩
    (by
      intro i g hi ⟨hl, hg⟩
      beta_reduce
      have hp : i < g.length := by omega
      rw [forUp_set_acc g i (fun _ k => rd Q (i * n + k) * rd x k) n 0 hp (fun _ _ _ => rfl)]
      rw [List.set_set, rd_set_eq _ _ _ hp]
      refine ⟨by rw [List.length_set]; exact hl, ?_⟩
      intro a ha
      by_cases hai : a = i
      · subst hai
        rw [rd_set_eq _ _ _ hp]
        unfold gradAt
        ring
      · rw [rd_set_ne _ _ _ _ (Ne.symm hai)]
        exact hg a (by omega))
  exact key

/-- The selection loop keeps `xmin` non-negative once `gmin` is set, and
`gmin` is set as soon as an eligible index has been seen. -/
theorem pickLoop_min (g x : List ℚ) (C : ℚ) (k : Nat) :
    let st := forUp (pickStep g x C) k { xmax := -1, gmax := none, xmin := -1, gmin := none }
    (st.gmin = none → ∀ a, a < k → eligible (rd g a) (rd x a) C = false) ∧
    (st.gmin ≠ none → 0 ≤ st.xmin) := by
  induction k with
  | zero =>
    exact ⟨fun _ a ha => absurd ha (Nat.not_lt_zero _), fun h => absurd rfl h⟩
  | succ k ih =>
    obtain ⟨ih1, ih2⟩ := ih
    dsimp only at ih1 ih2 ⊢
    rw [forUp_succ]
    generalize forUp (pickStep g x C) k
      { xmax := -1, gmax := none, xmin := -1, gmin := none } = st at ih1 ih2
    have hmid : ∀ st1 : PickState, st1.xmin = st.xmin → st1.gmin = st.gmin →
        ((if notAboveMin (rd g k) st1.gmin then
            if eligible (rd g k) (rd x k) C then
              { st1 with xmin := (k : Int), gmin := some (rd g k) }
            else st1
          else st1).gmin = none →
          ∀ a, a < k + 1 → eligible (rd g a) (rd x a) C = false) ∧
        ((if notAboveMin (rd g k) st1.gmin then
            if eligible (rd g k) (rd x k) C then
              { st1 with xmin := (k : Int), gmin := some (rd g k) }
            else st1
          else st1).gmin ≠ none →
          0 ≤ (if notAboveMin (rd g k) st1.gmin then
            if eligible (rd g k) (rd x k) C then
              { st1 with xmin := (k : Int), gmin := some (rd g k) }
            else st1
          else st1).xmin) := by
      intro st1 hx hgm
      by_cases hn : notAboveMin (rd g k) st1.gmin = true
      · rw [if_pos hn]
        by_cases he : eligible (rd g k) (rd x k) C = true
        · rw [if_pos he]
          exact ⟨fun h => by simp at h, fun _ => by simp⟩
        · rw [if_neg he]
          refine ⟨?_, fun h => by rw [hx]; exact ih2 (by rw [← hgm]; exact h)⟩
          intro h a ha
          by_cases hak : a = k
          · subst hak; simpa using he
          · exact ih1 (by rw [← hgm]; exact h) a (by omega)
      · rw [if_neg hn]
        refine ⟨?_, fun h => by rw [hx]; exact ih2 (by rw [← hgm]; exact h)⟩
        intro h
        rw [h] at hn
        exact absurd rfl hn
    unfold pickStep
    dsimp only
    apply hmid
    · split_ifs <;> rfl
    · split_ifs <;> rfl

/-- When `pickVars` returns a negative first index, no index is eligible. -/
theorem pickVars_none (Q b x : List ℚ) (C : ℚ) (h : (pickVars Q b x C).1 < 0) :
    ∀ i, i < b.length → eligible (gradAt Q b x b.length i) (rd x i) C = false := by
  obtain ⟨h1, h2⟩ := pickLoop_min (gradient Q b x b.length) x C b.length
  have hx : (forUp (pickStep (gradient Q b x b.length) x C) b.length
      { xmax := -1, gmax := none, xmin := -1, gmin := none }).xmin < 0 := h
  have hnone : (forUp (pickStep (gradient Q b x b.length) x C) b.length
      { xmax := -1, gmax := none, xmin := -1, gmin := none }).gmin = none := by
    by_contra hne
    have := h2 hne
    omega
  intro i hi
  rw [← (gradient_spec Q b x b.length).2 i hi]
  exact h1 hnone i hi

/-! ## Concrete matrices used as witnesses -/

theorem isSymm_two (a c e : ℚ) : IsSymm [a, c, c, e] 2 := by
  intro i j hi hj
  interval_cases i <;> interval_cases j <;> rfl

theorem quadForm_two (a c e f : ℚ) (v : Nat → ℚ) :
    quadForm [a, c, e, f] 2 v = a * v 0 ^ 2 + (c + e) * (v 0 * v 1) + f * v 1 ^ 2 := by
  simp only [quadForm, Finset.sum_range_succ, Finset.sum_range_zero, rd]
  simp
  ring

theorem isPosDef_diag_two : IsPosDef [2, 0, 0, 2] 2 := by
  intro v ⟨i, hi, hv⟩
  rw [quadForm_two]
  have h0 := sq_nonneg (v 0)
  have h1 := sq_nonneg (v 1)
  interval_cases i
  · have := sq_pos_of_ne_zero hv
    nlinarith
  · have := sq_pos_of_ne_zero hv
    nlinarith

theorem isPosDef_id_two : IsPosDef [1, 0, 0, 1] 2 := by
  intro v ⟨i, hi, hv⟩
  rw [quadForm_two]
  have h0 := sq_nonneg (v 0)
  have h1 := sq_nonneg (v 1)
  interval_cases i
  · have := sq_pos_of_ne_zero hv
    nlinarith
  · have := sq_pos_of_ne_zero hv
    nlinarith

theorem isPosDef_two_one : IsPosDef [2, 1, 1, 2] 2 := by
  intro v ⟨i, hi, hv⟩
  rw [quadForm_two]
  have h0 := sq_nonneg (v 0)
  have h1 := sq_nonneg (v 1)
  have h2 := sq_nonneg (v 0 + v 1)
  interval_cases i
  · have := sq_pos_of_ne_zero hv
    nlinarith
  · have := sq_pos_of_ne_zero hv
    nlinarith

/-! # The claims -/

/-! ## C1 -/

/-- C1. For every `n ≥ 1`, every symmetric positive definite `n`-by-`n`
matrix `Q` and every vector `b` of length `n`, `solveCholesky` returns `x`
and `y` of length `n` with `Q x = b` and `Q y = (1, ..., 1)`, the
arithmetic being exact. -/
theorem solveCholesky_solves (n : Nat) (Q b : List ℚ) (hn : 1 ≤ n)
    (_hQ : Q.length = n * n) (hb : b.length = n) (hs : IsSymm Q n) (hp : IsPosDef Q n) :
    ∃ x y, solveCholesky Q b = Except.ok (x, y) ∧ x.length = n ∧ y.length = n ∧
      matVec Q n x = b ∧ matVec Q n y = List.replicate n 1 := by
  obtain ⟨x, y, h, hxl, hyl, hx, hy⟩ := solveCholeskyN_posdef n Q b hn hb hs hp
  refine ⟨x, y, ?_, hxl, hyl, (matVec_eq_iff Q x b n hb).mpr hx, ?_⟩
  · unfold solveCholesky; rw [hb]; exact h
  · apply (matVec_eq_iff Q y (List.replicate n 1) n (by simp)).mpr
    intro i hi
    rw [hy i hi, rd_replicate, if_pos hi]

theorem solveCholesky_solves_witness :
    ∃ x y, solveCholesky [2, 0, 0, 2] [1, 1] = Except.ok (x, y) ∧ x.length = 2 ∧ y.length = 2 ∧
      matVec [2, 0, 0, 2] 2 x = [1, 1] ∧ matVec [2, 0, 0, 2] 2 y = List.replicate 2 1 :=
  solveCholesky_solves 2 [2, 0, 0, 2] [1, 1] (by decide) rfl rfl (isSymm_two 2 0 2)
    isPosDef_diag_two

/-! ## C2 -/

/-- C2. For every `n ≥ 1`, every symmetric positive definite `n`-by-`n`
matrix `Q`, every `b` of length `n` and every `Cn ≥ 0`, `strongQuadraticOpt`
returns a vector whose coordinates are all `≥ 0` and whose sum is `≤ Cn`. -/
theorem strong_feasible (n : Nat) (Q b : List ℚ) (Cn : ℚ) (hn : 1 ≤ n)
    (hQ : Q.length = n * n) (hb : b.length = n) (hs : IsSymm Q n) (hp : IsPosDef Q n)
    (hCn : 0 ≤ Cn) :
    ∃ r, strongQuadraticOpt Q b Cn = Except.ok r ∧ r.length = n ∧
      (∀ a, a ∈ r → 0 ≤ a) ∧ r.sum ≤ Cn := by
  unfold strongQuadraticOpt
  rw [hb]
  exact strongN_feasible Cn hCn n Q b hn hQ hb hs hp

theorem strong_feasible_witness :
    ∃ r, strongQuadraticOpt [2, 1, 1, 2] [-1, 3] 1 = Except.ok r ∧ r.length = 2 ∧
      (∀ a, a ∈ r → 0 ≤ a) ∧ r.sum ≤ 1 :=
  strong_feasible 2 [2, 1, 1, 2] [-1, 3] 1 (by decide) rfl rfl (isSymm_two 2 1 2)
    isPosDef_two_one (by norm_num)

/-! ## C3 -/

/-- Whenever `quadOptBox` returns field values, with `C ≥ 0`, the result has
length `n` and lies in the box `[0, C]`; so does the iterate after every
round of the loop (`boxStep_cases`). -/
theorem quadOptBox_in_box (Q b : List ℚ) (C eps : ℚ) (nSteps : Nat) (x : List ℚ)
    (hC : 0 ≤ C) (h : quadOptBox Q b C eps nSteps = Except.ok x) :
    x.length = b.length ∧ InBox x C := by
  unfold quadOptBox quadOptBoxTrace at h
  cases hc : boxChecks Q b with
  | error e => rw [hc] at h; simp at h
  | ok u =>
    rw [hc] at h
    dsimp only at h
    cases hl : boxLoop Q b C eps b.length nSteps (List.replicate b.length 0) with
    | error e => rw [hl] at h; simp at h
    | ok r =>
      rw [hl] at h
      simp only [Except.ok.injEq] at h
      obtain ⟨g1, g2, _⟩ :=
        (boxLoop_spec Q b C eps b.length nSteps (List.replicate b.length 0)).2 r.1 r.2 hl
      rw [← h]
      refine ⟨by simpa using g1, g2 hC ?_⟩
      intro k hk
      simp only [List.length_replicate] at hk
      rw [rd_replicate, if_pos hk]
      exact ⟨le_rfl, hC⟩

/-- C3, the failing input: `Q = [[1,1],[1,1]]`, `b = [1,1]`, `C = 1` passes the
three precondition checks; `pickVars` selects the pair `(1, 0)`, whose
off-diagonal entry is not zero, and the pair update divides
`qij*rhsi - qii*rhsj = 0` by `qij*qij - qii*qjj = 0`. -/
theorem quadOptBox_singular_pair :
    boxChecks [1, 1, 1, 1] [1, 1] = Except.ok () ∧
    pickVars [1, 1, 1, 1] [1, 1] [0, 0] 1 = (1, 0) ∧
    quadOptBox [1, 1, 1, 1] [1, 1] 1 (1 / 10) 1 = Except.error Err.divZero := by
  refine ⟨by decide!, by decide!, by decide!⟩

/-! ## C4 -/

/-- C4. On the general path (`n ≥ 2`), for a symmetric positive definite
`Q`, the vector returned by `weakQuadraticOpt` has sum at most `Cn` and
maximizes `-1/2 xᵀQx + bᵀx` over all `z` with `Σ z ≤ Cn`. -/
theorem weak_is_maximizer (n : Nat) (Q b : List ℚ) (Cn : ℚ) (hn : 2 ≤ n)
    (hQ : Q.length = n * n) (hb : b.length = n) (hs : IsSymm Q n) (hp : IsPosDef Q n) :
    ∃ r, weakQuadraticOpt Q b Cn = Except.ok r ∧ r.length = n ∧ r.sum ≤ Cn ∧
      ∀ z : List ℚ, z.length = n → z.sum ≤ Cn → objective Q b n z ≤ objective Q b n r := by
  obtain ⟨x, y, r, lam, _, hxl, _, hx, hy, hw, hrl, hlam, hr, hact, hgt, hle⟩ :=
    weak_posdef n Q b Cn hn hQ hb hs hp
  have hrsum : ∑ i in Finset.range n, rd r i ≤ Cn := by
    by_cases h : ∑ i in Finset.range n, rd x i ≤ Cn
    · rw [hle h]; exact h
    · exact le_of_eq (hgt (not_le.mp h))
  refine ⟨r, hw, hrl, ?_, ?_⟩
  · rw [← vsum_eq_sum r n hrl, vsum_eq]; exact hrsum
  · intro z hzl hz
    apply kkt_sum_optimal Q b r z n lam Cn hs hp hlam _ hact
    · rw [← vsum_eq, vsum_eq_sum z n hzl]; exact hz
    · intro i hi
      have h1 : ∑ j in Finset.range n, rd Q (i * n + j) * rd r j
          = ∑ j in Finset.range n, rd Q (i * n + j) * rd x j
            - lam * ∑ j in Finset.range n, rd Q (i * n + j) * rd y j := by
        rw [Finset.mul_sum, ← Finset.sum_sub_distrib]
        apply Finset.sum_congr rfl
        intro j hj
        simp only [Finset.mem_range] at hj
        rw [hr j hj]; ring
      rw [h1, hx i hi, hy i hi, mul_one]

theorem weak_is_maximizer_witness :
    ∃ r, weakQuadraticOpt [2, 0, 0, 2] [3, 3] 1 = Except.ok r ∧ r.length = 2 ∧ r.sum ≤ 1 ∧
      ∀ z : List ℚ, z.length = 2 → z.sum ≤ 1 →
        objective [2, 0, 0, 2] [3, 3] 2 z ≤ objective [2, 0, 0, 2] [3, 3] 2 r :=
  weak_is_maximizer 2 [2, 0, 0, 2] [3, 3] 1 (by decide) rfl rfl (isSymm_two 2 0 2)
    isPosDef_diag_two

/-! ## C5 -/

/-- C5. For `n ≥ 2`: when the solution `x` computed by `solveCholesky` has no
negative entry and its sum is at most `Cn`, `weakQuadraticOpt` returns
exactly that `x`. -/
theorem weak_returns_unconstrained (n : Nat) (Q b : List ℚ) (Cn : ℚ) (x y : List ℚ)
    (hn : 2 ≤ n) (hQ : Q.length = n * n) (hb : b.length = n)
    (hsol : solveCholesky Q b = Except.ok (x, y))
    (hnn : ∀ a, a ∈ x → 0 ≤ a) (hsum : x.sum ≤ Cn) :
    weakQuadraticOpt Q b Cn = Except.ok x := by
  have hQ1 : Q.length ≠ 1 := by
    rw [hQ]
    intro h
    have : 2 * 2 ≤ n * n := Nat.mul_le_mul hn hn
    omega
  have hxl : x.length = n := by
    unfold solveCholesky at hsol
    rw [hb] at hsol
    exact (solveCholeskyN_length n Q b x y hb hsol).1
  have hneg : hasNeg x n = false := by
    rw [hasNeg_eq_false_iff]
    intro i hi
    exact hnn _ (rd_mem x i (by omega))
  unfold weakQuadraticOpt
  rw [if_neg hQ1, hsol, hb]
  dsimp only
  rw [if_pos ⟨hneg, by rw [vsum_eq_sum x n hxl]; exact hsum⟩]

/-- C5, the scenario of the specification: `Q = [[2,0],[0,2]]`, `b = [1,1]`,
`Cn = 1` returns `[1/2, 1/2]`. -/
theorem weak_returns_unconstrained_witness :
    weakQuadraticOpt [2, 0, 0, 2] [1, 1] 1 = Except.ok [1 / 2, 1 / 2] :=
  weak_returns_unconstrained 2 [2, 0, 0, 2] [1, 1] 1 [1 / 2, 1 / 2] [1 / 2, 1 / 2]
    (by decide) rfl rfl (by decide!) (by decide!) (by decide!)

/-! ## C6 -/

/-- C6, as stated, fails: for `Q` the identity, `b = [-1, 0]` and `Cn = 1` the
unconstrained solution `[-1, 0]` has a negative entry, and the returned
vector is that solution, of sum `-1`, not `1`. -/
theorem weak_boundary_counterexample :
    IsSymm [1, 0, 0, 1] 2 ∧ IsPosDef [1, 0, 0, 1] 2 ∧
    solveCholesky [1, 0, 0, 1] [-1, 0] = Except.ok ([-1, 0], [1, 1]) ∧
    (∃ a, a ∈ ([-1, 0] : List ℚ) ∧ a < 0) ∧
    weakQuadraticOpt [1, 0, 0, 1] [-1, 0] 1 = Except.ok [-1, 0] ∧
    ([-1, 0] : List ℚ).sum ≠ 1 :=
  ⟨isSymm_two 1 0 1, isPosDef_id_two, by decide!, ⟨-1, by simp, by norm_num⟩, by decide!,
    by norm_num⟩

/-- C6, amended. For `n ≥ 2` and a symmetric positive definite `Q`: when the
sum of the unconstrained solution exceeds `Cn`, the returned vector has sum
exactly `Cn`; when that sum is at most `Cn`, the unconstrained solution is
returned unchanged, negative entries or not. -/
theorem weak_boundary_amended (n : Nat) (Q b : List ℚ) (Cn : ℚ) (hn : 2 ≤ n)
    (hQ : Q.length = n * n) (hb : b.length = n) (hs : IsSymm Q n) (hp : IsPosDef Q n) :
    ∃ x y r, solveCholesky Q b = Except.ok (x, y) ∧ weakQuadraticOpt Q b Cn = Except.ok r ∧
      (Cn < x.sum → r.sum = Cn) ∧ (x.sum ≤ Cn → r = x) := by
  obtain ⟨x, y, r, lam, hsol, hxl, _, _, _, hw, hrl, _, _, _, hgt, hle⟩ :=
    weak_posdef n Q b Cn hn hQ hb hs hp
  refine ⟨x, y, r, hsol, hw, ?_, ?_⟩
  · intro h
    rw [← vsum_eq_sum r n hrl, vsum_eq]
    apply hgt
    rw [← vsum_eq, vsum_eq_sum x n hxl]; exact h
  · intro h
    apply hle
    rw [← vsum_eq, vsum_eq_sum x n hxl]; exact h

theorem weak_boundary_amended_witness :
    ∃ x y r, solveCholesky [2, 0, 0, 2] [3, 3] = Except.ok (x, y) ∧
      weakQuadraticOpt [2, 0, 0, 2] [3, 3] 1 = Except.ok r ∧
      (1 < x.sum → r.sum = 1) ∧ (x.sum ≤ 1 → r = x) :=
  weak_boundary_amended 2 [2, 0, 0, 2] [3, 3] 1 (by decide) rfl rfl (isSymm_two 2 0 2)
    isPosDef_diag_two

/-! ## C7 -/

/-- The singular branch of `solveCholeskyN`: when the factorisation loop
stops at row `i` with a zero pivot, the result is the solution of the
reduced system with a zero inserted at position `i` of `x` and of `y`. -/
theorem solveCholeskyN_singular (m i : Nat) (Q b xr yr : List ℚ)
    (hf : cholFactor Q (m + 1) = Except.error (CholExit.singular i))
    (hrec : solveCholeskyN m (dropRowCol Q b (m + 1) i).1 (dropRowCol Q b (m + 1) i).2
      = Except.ok (xr, yr)) :
    solveCholeskyN (m + 1) Q b = Except.ok (insertAt xr i 0, insertAt yr i 0) := by
  unfold solveCholeskyN
  dsimp only
  rw [hf]
  dsimp only
  rw [hrec]

/-- C7, the failing input: `Q = [[0,0],[0,1]]`, `b = [0,1]` has its first zero
pivot at position `0`.  The reduced system `[1] x = [1]` has the solution
`x = [1]`, `y = [1]`, so the claim asks for `x = [0,1]`, `y = [0,1]`; the run
instead divides `Q[1,0]` by `D[0] = 0`. -/
theorem solveCholesky_zero_first_pivot :
    rd [0, 0, 0, 1] 0 = 0 ∧
    dropRowCol [0, 0, 0, 1] [0, 1] 2 0 = ([1], [1]) ∧
    solveCholesky [1] [1] = Except.ok ([1], [1]) ∧
    solveCholesky [0, 0, 0, 1] [0, 1] = Except.error Err.divZero := by
  refine ⟨by decide!, by decide!, by decide!, by decide!⟩

/-! ## C8 -/

/-- C8, as stated, fails: for `Q = diag(4,4,4)`, `b = [4,4,4]`, `C = 10`,
`eps = 2` and `nSteps = 5` the first round updates the pair `(2, 0)` by `1`
each, which is below `eps`, and the loop is left through the `break` with
four rounds to spare; at the returned `x = [1,0,1]` the gradient of index `1`
is `4 > eps` while `x[1] = 0 < C`.  With a negative `eps` the statement fails
at the other `break` as well: `Q = [1]`, `b = [0]`, `C = 1`, `eps = -1` leaves
the loop at `x = [0]`, where the gradient `0` exceeds `eps` and `x[0] < C`. -/
theorem quadOptBox_small_step_counterexample :
    (boxChecks [4, 0, 0, 0, 4, 0, 0, 0, 4] [4, 4, 4] = Except.ok () ∧
     quadOptBoxTrace [4, 0, 0, 0, 4, 0, 0, 0, 4] [4, 4, 4] 10 2 5
       = Except.ok ([1, 0, 1], BoxExit.smallStep) ∧
     quadOptBox [4, 0, 0, 0, 4, 0, 0, 0, 4] [4, 4, 4] 10 2 5 = Except.ok [1, 0, 1] ∧
     gradAt [4, 0, 0, 0, 4, 0, 0, 0, 4] [4, 4, 4] [1, 0, 1] 3 1 > 2 ∧
     rd [1, 0, 1] 1 < 10) ∧
    (quadOptBoxTrace [1] [0] 1 (-1) 5 = Except.ok ([0], BoxExit.noViolation) ∧
     gradAt [1] [0] [0] 1 0 > -1 ∧ rd [0] 0 < 1) := by
  refine ⟨⟨by decide!, by decide!, by decide!, ?_, by decide!⟩, by decide!, ?_, by decide!⟩
  · simp [gradAt, Finset.sum_range_succ, rd]
    norm_num
  · simp [gradAt, rd]

/-- C8, amended. If the loop of `quadOptBox` is left because `pickVars`
reports no violating index, then at the returned `x`, with `g = b - Q x`, no
index has `g_i > 0` with `x_i < C` or `g_i < 0` with `x_i > 0`; hence, for
`eps ≥ 0`, none has a violation exceeding `eps`. -/
theorem quadOptBox_no_violation (Q b : List ℚ) (C eps : ℚ) (nSteps : Nat) (x : List ℚ)
    (heps : 0 ≤ eps)
    (h : quadOptBoxTrace Q b C eps nSteps = Except.ok (x, BoxExit.noViolation)) :
    quadOptBox Q b C eps nSteps = Except.ok x ∧
    ∀ i, i < b.length →
      ¬ ((gradAt Q b x b.length i > 0 ∧ rd x i < C) ∨
         (gradAt Q b x b.length i < 0 ∧ rd x i > 0)) ∧
      ¬ ((gradAt Q b x b.length i > eps ∧ rd x i < C) ∨
         (gradAt Q b x b.length i < -eps ∧ rd x i > 0)) := by
  constructor
  · unfold quadOptBox; rw [h]
  · unfold quadOptBoxTrace at h
    cases hc : boxChecks Q b with
    | error e => rw [hc] at h; simp at h
    | ok u =>
      rw [hc] at h
      dsimp only at h
      obtain ⟨_, _, g3⟩ :=
        (boxLoop_spec Q b C eps b.length nSteps (List.replicate b.length 0)).2 x _ h
      intro i hi
      have he := pickVars_none Q b x C (g3 rfl) i hi
      simp only [eligible, Bool.or_eq_false_iff, Bool.and_eq_false_iff,
        decide_eq_false_iff_not] at he
      constructor
      · rintro (⟨h1, h2⟩ | ⟨h1, h2⟩)
        · rcases he.1 with h3 | h3
          · exact h3 h1
          · exact h3 h2
        · rcases he.2 with h3 | h3
          · exact h3 h1
          · exact h3 h2
      · rintro (⟨h1, h2⟩ | ⟨h1, h2⟩)
        · rcases he.1 with h3 | h3
          · exact h3 (lt_of_le_of_lt heps h1)
          · exact h3 h2
        · rcases he.2 with h3 | h3
          · exact h3 (by linarith)
          · exact h3 h2

theorem quadOptBox_no_violation_witness :
    quadOptBox [5] [20] 1 (1 / 10) 5 = Except.ok [1] ∧
    ∀ i, i < ([20] : List ℚ).length →
      ¬ ((gradAt [5] [20] [1] ([20] : List ℚ).length i > 0 ∧ rd [1] i < 1) ∨
         (gradAt [5] [20] [1] ([20] : List ℚ).length i < 0 ∧ rd [1] i > 0)) ∧
      ¬ ((gradAt [5] [20] [1] ([20] : List ℚ).length i > 1 / 10 ∧ rd [1] i < 1) ∨
         (gradAt [5] [20] [1] ([20] : List ℚ).length i < -(1 / 10) ∧ rd [1] i > 0)) :=
  quadOptBox_no_violation [5] [20] 1 (1 / 10) 5 [1] (by norm_num) (by decide!)

/-! ## C9 -/

/-- Below `65536` the product `n*n` does not wrap, and the size test of line
327 compares `Q.size()` with the product itself. -/
theorem dimMismatch_small (Q b : List ℚ) (hn : b.length < 65536) :
    dimMismatch Q b = true ↔ Q.length ≠ b.length * b.length := by
  have hlt : b.length * b.length < 4294967296 := by
    have h1 : b.length * b.length ≤ 65535 * 65535 := Nat.mul_le_mul (by omega) (by omega)
    omega
  unfold dimMismatch
  rw [Nat.mod_eq_of_lt hlt]
  simp

/-- For `n < 65536`, `quadOptBox` raises a logic error exactly when
`Q.size() ≠ n*n`, or a diagonal entry of `Q` is zero, or `Q[i,j] ≠ Q[j,i]` for
some `i`, `j`; on every other input a run that divides by no zero returns a
vector of length `n`. -/
theorem quadOptBox_logic_error_iff (Q b : List ℚ) (C eps : ℚ) (nSteps : Nat)
    (hn : b.length < 65536) :
    (quadOptBox Q b C eps nSteps = Except.error Err.logic ↔
      (Q.length ≠ b.length * b.length ∨
       (∃ i, i < b.length ∧ rd Q (i * b.length + i) = 0) ∨
       (∃ i, i < b.length ∧ ∃ j, j < b.length ∧
          rd Q (i * b.length + j) ≠ rd Q (j * b.length + i)))) ∧
    (¬ (Q.length ≠ b.length * b.length ∨
       (∃ i, i < b.length ∧ rd Q (i * b.length + i) = 0) ∨
       (∃ i, i < b.length ∧ ∃ j, j < b.length ∧
          rd Q (i * b.length + j) ≠ rd Q (j * b.length + i))) →
      (∃ x, quadOptBox Q b C eps nSteps = Except.ok x ∧ x.length = b.length) ∨
      quadOptBox Q b C eps nSteps = Except.error Err.divZero) := by
  obtain ⟨hf, hnf⟩ := boxChecks_eq Q b
  unfold BoxFault at hf hnf
  rw [dimMismatch_small Q b hn] at hf hnf
  have hrun : boxChecks Q b = Except.ok () →
      (∃ x, quadOptBox Q b C eps nSteps = Except.ok x ∧ x.length = b.length) ∨
      quadOptBox Q b C eps nSteps = Except.error Err.divZero := by
    intro hc
    unfold quadOptBox quadOptBoxTrace
    rw [hc]
    dsimp only
    obtain ⟨g1, g2⟩ := boxLoop_spec Q b C eps b.length nSteps (List.replicate b.length 0)
    cases hl : boxLoop Q b C eps b.length nSteps (List.replicate b.length 0) with
    | error e =>
      right
      rw [g1 e hl]
    | ok r =>
      left
      exact ⟨r.1, rfl, by simpa using (g2 r.1 r.2 hl).1⟩
  constructor
  · constructor
    · intro h
      by_contra hno
      rcases hrun (hnf hno) with ⟨x, hx, _⟩ | hd
      · rw [hx] at h; cases h
      · rw [hd] at h; cases h
    · intro hfault
      unfold quadOptBox quadOptBoxTrace
      rw [hf hfault]
  · intro hno
    exact hrun (hnf hno)

/-- C9, the failing input: `Q` empty and `b` of length `65536`.  The size of
`Q` is `0` and `n*n` is `2^32`, so the sizes do not match; the product wraps
to `0` in `unsigned int` and the test of line 327 does not fire; the first
read that follows, `Q[0*n+0]` in line 333, is past the end of `Q`. -/
theorem quadOptBox_size_test_wraps :
    (List.replicate 65536 (0 : ℚ)).length = 65536 ∧
    ([] : List ℚ).length
      ≠ (List.replicate 65536 (0 : ℚ)).length * (List.replicate 65536 (0 : ℚ)).length ∧
    ((List.replicate 65536 (0 : ℚ)).length * (List.replicate 65536 (0 : ℚ)).length)
      % 4294967296 = 0 ∧
    dimMismatch [] (List.replicate 65536 0) = false ∧
    ¬ (0 * (List.replicate 65536 (0 : ℚ)).length + 0 < ([] : List ℚ).length) := by
  have hl : (List.replicate 65536 (0 : ℚ)).length = 65536 := List.length_replicate _ _
  refine ⟨hl, ?_, ?_, ?_, ?_⟩
  · rw [hl]
    decide
  · rw [hl]
  · unfold dimMismatch
    rw [hl]
    decide
  · exact Nat.not_lt_zero _

/-! ## C10 -/

/-- C10. One-variable fast path of `weakQuadraticOpt`: for `Q = [q]`,
`b = [b0]` and `Cn ≥ 0` a logic error is raised exactly when `q = 0` and
`b0 ≠ 0`; the result is `[0]` when `q = 0` and `b0 = 0`, and
`[min (max (b0/q) 0) Cn]` when `q ≠ 0`. -/
theorem weak_one_variable (q b0 Cn : ℚ) (hCn : 0 ≤ Cn) :
    (weakQuadraticOpt [q] [b0] Cn = Except.error Err.logic ↔ q = 0 ∧ b0 ≠ 0) ∧
    (q = 0 → b0 = 0 → weakQuadraticOpt [q] [b0] Cn = Except.ok [0]) ∧
    (q ≠ 0 → weakQuadraticOpt [q] [b0] Cn = Except.ok [min (max (b0 / q) 0) Cn]) := by
  have hq : rd [q] 0 = q := rfl
  have hb : rd [b0] 0 = b0 := rfl
  have hval : q ≠ 0 → weakQuadraticOpt [q] [b0] Cn = Except.ok [min (max (b0 / q) 0) Cn] := by
    intro hq0
    unfold weakQuadraticOpt
    simp only [List.length_singleton, if_true, hq, hb, hq0, if_false, fdiv]
    congr 2
    by_cases h1 : b0 / q > Cn
    · have h2 : ¬ Cn < 0 := not_lt.mpr hCn
      have h3 : 0 ≤ b0 / q := le_trans hCn (le_of_lt h1)
      rw [if_pos h1, if_neg h2, max_eq_left h3, min_eq_right (le_of_lt h1)]
    · rw [if_neg h1]
      by_cases h2 : b0 / q < 0
      · rw [if_pos h2, max_eq_right (le_of_lt h2), min_eq_left hCn]
      · rw [if_neg h2, max_eq_left (not_lt.mp h2), min_eq_left (not_lt.mp h1)]
  refine ⟨?_, ?_, hval⟩
  · constructor
    · intro h
      by_cases hq0 : q = 0
      · refine ⟨hq0, ?_⟩
        intro hb0
        subst hq0 hb0
        unfold weakQuadraticOpt at h
        simp [rd] at h
      · rw [hval hq0] at h
        cases h
    · intro ⟨hq0, hb0⟩
      subst hq0
      unfold weakQuadraticOpt
      simp [rd, hb0]
  · intro hq0 hb0
    subst hq0 hb0
    unfold weakQuadraticOpt
    simp [rd]

theorem weak_one_variable_witness :
    (weakQuadraticOpt [5] [20] 1 = Except.error Err.logic ↔ (5 : ℚ) = 0 ∧ (20 : ℚ) ≠ 0) ∧
    ((5 : ℚ) = 0 → (20 : ℚ) = 0 → weakQuadraticOpt [5] [20] 1 = Except.ok [0]) ∧
    ((5 : ℚ) ≠ 0 → weakQuadraticOpt [5] [20] 1 = Except.ok [min (max (20 / 5) 0) 1]) :=
  weak_one_variable 5 20 1 (by norm_num)


/-! ## A matrix of size three used as a failing input -/

theorem isSymm_three (a c e f g h : ℚ) : IsSymm [a, c, e, c, f, g, e, g, h] 3 := by
  intro i j hi hj
  interval_cases i <;> interval_cases j <;> rfl

theorem quadForm_three (v : Nat → ℚ) :
    quadForm [1, -1, -1, -1, 2, 0, -1, 0, 3] 3 v
      = (v 0 - v 1 - v 2) ^ 2 + (v 1 - v 2) ^ 2 + v 2 ^ 2 := by
  simp only [quadForm, Finset.sum_range_succ, Finset.sum_range_zero, rd]
  simp
  ring

theorem isPosDef_three : IsPosDef [1, -1, -1, -1, 2, 0, -1, 0, 3] 3 := by
  intro v ⟨i, hi, hv⟩
  rw [quadForm_three]
  have h0 := sq_nonneg (v 0 - v 1 - v 2)
  have h1 := sq_nonneg (v 1 - v 2)
  have h2 := sq_nonneg (v 2)
  by_contra hcon
  have hz : (v 0 - v 1 - v 2) ^ 2 + (v 1 - v 2) ^ 2 + v 2 ^ 2 = 0 :=
    le_antisymm (not_lt.mp hcon) (by positivity)
  have e2 : v 2 = 0 := by
    have : v 2 ^ 2 = 0 := by linarith
    exact pow_eq_zero_iff (by norm_num) |>.mp this
  have e1 : v 1 = 0 := by
    have : (v 1 - v 2) ^ 2 = 0 := by linarith
    have := pow_eq_zero_iff (by norm_num) |>.mp this
    linarith
  have e0 : v 0 = 0 := by
    have : (v 0 - v 1 - v 2) ^ 2 = 0 := by linarith
    have := pow_eq_zero_iff (by norm_num) |>.mp this
    linarith
  interval_cases i
  · exact hv e0
  · exact hv e1
  · exact hv e2

/-! ## C11 -/

/-- C11, the failing input: `Q = [[1,-1,-1],[-1,2,0],[-1,0,3]]` is symmetric
positive definite, `b = [0,-1,1]`, `Cn = 10`.  The weak solution is
`[-1,-1,0]`; its first smallest entry, index `0`, is eliminated, then index
`0` of the weak solution `[-1/2, 1/3]` of the reduced system, and the result
is `[0, 0, 1/3]` with objective `1/6`.  The feasible point `[1/2, 0, 1/2]` has
objective `1/4`. -/
theorem strong_not_maximizer :
    IsSymm [1, -1, -1, -1, 2, 0, -1, 0, 3] 3 ∧ IsPosDef [1, -1, -1, -1, 2, 0, -1, 0, 3] 3 ∧
    weakQuadraticOpt [1, -1, -1, -1, 2, 0, -1, 0, 3] [0, -1, 1] 10 = Except.ok [-1, -1, 0] ∧
    weakQuadraticOpt [2, 0, 0, 3] [-1, 1] 10 = Except.ok [-1 / 2, 1 / 3] ∧
    strongQuadraticOpt [1, -1, -1, -1, 2, 0, -1, 0, 3] [0, -1, 1] 10
      = Except.ok [0, 0, 1 / 3] ∧
    (∀ a, a ∈ ([1 / 2, 0, 1 / 2] : List ℚ) → 0 ≤ a) ∧
    ([1 / 2, 0, 1 / 2] : List ℚ).sum ≤ 10 ∧
    objective [1, -1, -1, -1, 2, 0, -1, 0, 3] [0, -1, 1] 3 [0, 0, 1 / 3] = 1 / 6 ∧
    objective [1, -1, -1, -1, 2, 0, -1, 0, 3] [0, -1, 1] 3 [1 / 2, 0, 1 / 2] = 1 / 4 := by
  refine ⟨isSymm_three 1 (-1) (-1) 2 0 3, isPosDef_three, by decide!, by decide!, by decide!,
    by decide!, by decide!, by decide!, by decide!⟩
/-! ## The triangular solver on its own -/

theorem rd_ldlt (L D : List ℚ) (n i j : Nat) (hi : i < n) (hj : j < n) :
    rd (ldlt L D n) (i * n + j)
      = ∑ k in Finset.range n, rd L (i * n + k) * rd D k * rd L (j * n + k) := by
  have hp : i * n + j < n * n := idx_lt_len n i j hi hj
  have hdiv : (i * n + j) / n = i := by
    rw [Nat.add_comm, Nat.add_mul_div_right _ _ (by omega), Nat.div_eq_of_lt hj, Nat.zero_add]
  have hmod : (i * n + j) % n = j := by
    rw [Nat.add_comm, Nat.add_mul_mod_self_right, Nat.mod_eq_of_lt hj]
  unfold ldlt rd
  rw [List.getD_eq_getElem?_getD, List.getElem?_map, List.getElem?_range hp]
  simp only [Option.map_some', Option.getD_some, hdiv, hmod]
  exact list_range_map_sum _ n

/-- With a unit lower triangular `L`, non-zero `D` and `LD = L diag(D)`,
`backSubst` solves `L diag(D) Lᵀ x = b`. -/
theorem backSubst_ldlt_rows (n : Nat) (L D LD b : List ℚ) (hn : 1 ≤ n) (hb : b.length = n)
    (hunit : IsUnitLower L n) (hD : ∀ i, i < n → rd D i ≠ 0)
    (hprod : ∀ i j, i < n → j < n → rd LD (i * n + j) = rd L (i * n + j) * rd D j) :
    ∃ x, backSubst L LD b = Except.ok x ∧ x.length = n ∧
      ∀ i, i < n → ∑ j in Finset.range n, rd (ldlt L D n) (i * n + j) * rd x j = rd b i := by
  have hd : ∀ i, i < n → rd LD (i * n + i) ≠ 0 := by
    intro i hi
    rw [hprod i i hi hi, hunit.1 i hi, one_mul]
    exact hD i hi
  obtain ⟨y, hy, _, hyeq⟩ := forwardSubst_ok LD b n hn hb hd
  obtain ⟨hxl, hxeq⟩ := backwardSubst_spec L y n hn
  refine ⟨backwardSubst L y n, ?_, hxl, ?_⟩
  · unfold backSubst
    rw [hy, hb]
  · intro i hi
    have hsum : ∑ j in Finset.range n, rd (ldlt L D n) (i * n + j) * rd (backwardSubst L y n) j
        = ∑ j in Finset.range n, (∑ k in Finset.range n,
            rd L (i * n + k) * rd D k * rd L (j * n + k)) * rd (backwardSubst L y n) j := by
      apply Finset.sum_congr rfl
      intro j hj
      rw [rd_ldlt L D n i j hi (Finset.mem_range.mp hj)]
    rw [hsum]
    apply ldl_solves (fun i j => ∑ k in Finset.range n,
        rd L (i * n + k) * rd D k * rd L (j * n + k)) (fun i k => rd L (i * n + k)) (rd D)
      (rd (backwardSubst L y n)) (rd y) (rd b) n
    · intro a c _ _
      apply Finset.sum_congr rfl; intro k _; ring
    · intro a c ha hc
      have hsub : Finset.range (c + 1) ⊆ Finset.range n := by
        intro k hk; simp only [Finset.mem_range] at hk ⊢; omega
      symm
      apply Finset.sum_subset hsub
      intro k hk hk2
      simp only [Finset.mem_range] at hk hk2
      rw [hunit.2 c k (by omega) hk (by omega), mul_zero]
    · exact hunit.1
    · intro a ha
      rw [← hyeq a ha]
      apply Finset.sum_congr rfl
      intro j hj
      simp only [Finset.mem_range] at hj
      rw [hprod a j ha (by omega)]
    · exact hxeq
    · exact hi

theorem length_ldlt (L D : List ℚ) (n : Nat) : (ldlt L D n).length = n * n := by
  simp [ldlt]

/-! ## C12 -/

/-- C12. For every `n ≥ 1`, every unit lower triangular `n`-by-`n` matrix `L`,
every diagonal `D` without a zero entry, `LD[i,j] = L[i,j] * D[j]` and every
`b` of length `n`, `backSubst` returns the `x` with
`L diag(D) Lᵀ x = b`. -/
theorem backSubst_solves_ldlt (n : Nat) (L D LD b : List ℚ) (hn : 1 ≤ n)
    (_hL : L.length = n * n) (_hDl : D.length = n) (_hLD : LD.length = n * n)
    (hb : b.length = n) (hunit : IsUnitLower L n) (hD : ∀ i, i < n → rd D i ≠ 0)
    (hprod : ∀ i j, i < n → j < n → rd LD (i * n + j) = rd L (i * n + j) * rd D j) :
    ∃ x, backSubst L LD b = Except.ok x ∧ x.length = n ∧ matVec (ldlt L D n) n x = b := by
  obtain ⟨x, hx, hxl, hrows⟩ := backSubst_ldlt_rows n L D LD b hn hb hunit hD hprod
  exact ⟨x, hx, hxl, (matVec_eq_iff (ldlt L D n) x b n hb).mpr hrows⟩

/-- C12, witness: `L = [[1,0],[3,1]]`, `D = [2,5]`, `LD = [[2,0],[6,5]]` and
`b = [1,1]`. -/
theorem backSubst_solves_ldlt_witness :
    ∃ x, backSubst [1, 0, 3, 1] [2, 0, 6, 5] [1, 1] = Except.ok x ∧ x.length = 2 ∧
      matVec (ldlt [1, 0, 3, 1] [2, 5] 2) 2 x = [1, 1] :=
  backSubst_solves_ldlt 2 [1, 0, 3, 1] [2, 5] [2, 0, 6, 5] [1, 1] (by decide) rfl rfl rfl rfl
    ⟨by intro i hi; interval_cases i <;> rfl,
     by intro i j hi hj hij; obtain ⟨rfl, rfl⟩ : i = 0 ∧ j = 1 := by omega
        rfl⟩
    (by intro i hi; interval_cases i <;> decide!)
    (by intro i j hi hj; interval_cases i <;> interval_cases j <;> decide!)

/-! ## The descent step of `weakQuadraticOpt` in closed form -/

/-! ## C13 -/

/-- C13. For `n ≥ 2` and a symmetric positive definite `Q`: when the solution
`x` of `Q x = b` computed by `solveCholesky` has a sum above `Cn`,
`weakQuadraticOpt` returns `x - lambda * y` with `y` the solution of
`Q y = (1, ..., 1)` and `lambda = (Σ x - Cn) / Σ y`, and the returned vector
sums to exactly `Cn`. -/
theorem weak_descent (n : Nat) (Q b : List ℚ) (Cn : ℚ) (x y : List ℚ) (hn : 2 ≤ n)
    (hQ : Q.length = n * n) (hb : b.length = n) (hs : IsSymm Q n) (hp : IsPosDef Q n)
    (hsol : solveCholesky Q b = Except.ok (x, y)) (hgt : Cn < x.sum) :
    matVec Q n x = b ∧ matVec Q n y = List.replicate n 1 ∧
    ∃ r, weakQuadraticOpt Q b Cn = Except.ok r ∧ r.length = n ∧
      (∀ i, i < n → rd r i = rd x i - (x.sum - Cn) / y.sum * rd y i) ∧ r.sum = Cn := by
  obtain ⟨x1, y1, r, lam, hsol1, hxl, hyl, hx, hy, hw, hrl, _, hr, _, hsum, _⟩ :=
    weak_posdef n Q b Cn hn hQ hb hs hp
  rw [hsol] at hsol1
  simp only [Except.ok.injEq, Prod.mk.injEq] at hsol1
  obtain ⟨rfl, rfl⟩ := hsol1
  have hxs : ∑ i in Finset.range n, rd x i = x.sum := by rw [← vsum_eq, vsum_eq_sum x n hxl]
  have hys : ∑ i in Finset.range n, rd y i = y.sum := by rw [← vsum_eq, vsum_eq_sum y n hyl]
  have hrs : ∑ i in Finset.range n, rd r i = r.sum := by rw [← vsum_eq, vsum_eq_sum r n hrl]
  have hypos : 0 < y.sum := by rw [← hys]; exact ysum_pos Q y n (by omega) hp hy
  have hrsum : r.sum = Cn := by rw [← hrs]; exact hsum (by rw [hxs]; exact hgt)
  have hlam : lam = (x.sum - Cn) / y.sum := by
    have h1 : ∑ i in Finset.range n, rd r i
        = ∑ i in Finset.range n, rd x i - lam * ∑ i in Finset.range n, rd y i := by
      rw [Finset.mul_sum, ← Finset.sum_sub_distrib]
      exact Finset.sum_congr rfl (fun i hi => hr i (Finset.mem_range.mp hi))
    rw [hrs, hxs, hys, hrsum] at h1
    field_simp
    linarith
  refine ⟨(matVec_eq_iff Q x b n hb).mpr hx, ?_, r, hw, hrl, ?_, hrsum⟩
  · apply (matVec_eq_iff Q y (List.replicate n 1) n (by simp)).mpr
    intro i hi
    rw [hy i hi, rd_replicate, if_pos hi]
  · intro i hi
    rw [hr i hi, hlam]

/-- C13, the scenario of the specification: `Q = [[2,0],[0,2]]`, `b = [3,3]`,
`Cn = 1` gives `x = [3/2, 3/2]`, `y = [1/2, 1/2]`, `lambda = 2` and the result
`[1/2, 1/2]`. -/
theorem weak_descent_witness :
    (matVec [2, 0, 0, 2] 2 [3 / 2, 3 / 2] = [3, 3] ∧
     matVec [2, 0, 0, 2] 2 [1 / 2, 1 / 2] = List.replicate 2 1 ∧
     ∃ r, weakQuadraticOpt [2, 0, 0, 2] [3, 3] 1 = Except.ok r ∧ r.length = 2 ∧
       (∀ i, i < 2 → rd r i = rd [3 / 2, 3 / 2] i
         - (([3 / 2, 3 / 2] : List ℚ).sum - 1) / ([1 / 2, 1 / 2] : List ℚ).sum
           * rd [1 / 2, 1 / 2] i) ∧ r.sum = 1) ∧
    (([3 / 2, 3 / 2] : List ℚ).sum - 1) / ([1 / 2, 1 / 2] : List ℚ).sum = 2 ∧
    weakQuadraticOpt [2, 0, 0, 2] [3, 3] 1 = Except.ok [1 / 2, 1 / 2] :=
  ⟨weak_descent 2 [2, 0, 0, 2] [3, 3] 1 [3 / 2, 3 / 2] [1 / 2, 1 / 2] (by decide) rfl rfl
    (isSymm_two 2 0 2) isPosDef_diag_two (by decide!) (by decide!), by decide!, by decide!⟩

/-! ## `quadOptBox` in one variable -/

theorem pickVars_one (q b0 x0 C : ℚ) :
    pickVars [q] [b0] [x0] C
      = if eligible (b0 - q * x0) x0 C = true then (0, -1) else (-1, -1) := by
  have hg : gradient [q] [b0] [x0] 1 = [b0 - q * x0] := by
    simp [gradient, forUp, rd]
    ring
  unfold pickVars
  simp only [List.length_singleton, hg, forUp, pickStep, aboveMax, notAboveMin]
  have h0 : rd [b0 - q * x0] 0 = b0 - q * x0 := rfl
  have h1 : rd [x0] 0 = x0 := rfl
  simp only [h0, h1]
  by_cases he : eligible (b0 - q * x0) x0 C = true
  · simp [he]
  · simp [he]

/-- The clamp of lines 395-396 is `min (max v 0) C`. -/
theorem clampBox_eq (v C : ℚ) : clampBox v C = min (max v 0) C := by
  unfold clampBox
  dsimp only
  by_cases h1 : v < 0
  · rw [if_pos h1, max_eq_right (le_of_lt h1)]
    by_cases h2 : (0 : ℚ) > C
    · rw [if_pos h2, min_eq_right (le_of_lt h2)]
    · rw [if_neg h2, min_eq_left (not_lt.mp h2)]
  · rw [if_neg h1, max_eq_left (not_lt.mp h1)]
    by_cases h2 : v > C
    · rw [if_pos h2, min_eq_right (le_of_lt h2)]
    · rw [if_neg h2, min_eq_left (not_lt.mp h2)]

/-- A round of the loop in one variable, at a point where the only index is
not eligible: the loop is left with `x` unchanged. -/
theorem boxStep_one_stop (q b0 x0 C eps : ℚ) (h : eligible (b0 - q * x0) x0 C = false) :
    boxStep [q] [b0] [x0] C eps 1 = Except.ok ([x0], some BoxExit.noViolation) := by
  unfold boxStep
  rw [pickVars_one, h]
  simp

/-- A round of the loop in one variable, at a point where the index is
eligible: the single-direction update moves to the clamped quotient. -/
theorem boxStep_one_move (q b0 x0 C eps : ℚ) (hq : q ≠ 0)
    (h : eligible (b0 - q * x0) x0 C = true) :
    ∃ r, boxStep [q] [b0] [x0] C eps 1 = Except.ok ([clampBox (b0 / q) C], r) := by
  have hnum : (b0 - q * x0 + q * x0) / q = b0 / q := by
    congr 1; ring
  unfold boxStep
  rw [pickVars_one, h]
  simp [boxSingle, forUp, rd, fdiv, hq, hnum]

/-- Once at the clamped quotient, the loop in one variable stays there. -/
theorem boxLoop_one_fixed (q b0 C eps : ℚ) (hq : 0 < q) (k : Nat) :
    ∃ ex, boxLoop [q] [b0] C eps 1 k [clampBox (b0 / q) C]
      = Except.ok ([clampBox (b0 / q) C], ex) := by
  cases k with
  | zero => exact ⟨_, rfl⟩
  | succ k =>
    have hel : eligible (b0 - q * clampBox (b0 / q) C) (clampBox (b0 / q) C) C = false := by
      have hle : clampBox (b0 / q) C ≤ C := by rw [clampBox_eq]; exact min_le_right _ _
      simp only [eligible, Bool.or_eq_false_iff, Bool.and_eq_false_iff,
        decide_eq_false_iff_not, not_lt]
      constructor
      · by_cases hc : clampBox (b0 / q) C < C
        · left
          -- below the upper bound the clamp is at least the quotient
          have hge : b0 / q ≤ clampBox (b0 / q) C := by
            rw [clampBox_eq] at hc ⊢
            rcases le_total (max (b0 / q) 0) C with hm | hm
            · rw [min_eq_left hm]; exact le_max_left _ _
            · rw [min_eq_right hm] at hc; exact absurd hc (lt_irrefl _)
          have : b0 ≤ q * clampBox (b0 / q) C := by
            calc b0 = q * (b0 / q) := by field_simp
              _ ≤ q * clampBox (b0 / q) C := mul_le_mul_of_nonneg_left hge (le_of_lt hq)
          linarith
        · right; exact not_lt.mp hc
      · by_cases hc : 0 < clampBox (b0 / q) C
        · left
          -- above zero the clamp is at most the quotient
          have hle2 : clampBox (b0 / q) C ≤ b0 / q := by
            rw [clampBox_eq] at hc ⊢
            rcases le_total 0 (b0 / q) with hm | hm
            · rw [max_eq_left hm]; exact min_le_left _ _
            · rw [max_eq_right hm] at hc
              exact absurd (min_le_left (0 : ℚ) C) (not_le.mpr hc)
          have : q * clampBox (b0 / q) C ≤ b0 := by
            calc q * clampBox (b0 / q) C ≤ q * (b0 / q) :=
                  mul_le_mul_of_nonneg_left hle2 (le_of_lt hq)
              _ = b0 := by field_simp
          linarith
        · right; exact not_lt.mp hc
    refine ⟨BoxExit.noViolation, ?_⟩
    simp only [boxLoop, boxStep_one_stop q b0 _ C eps hel]

/-! ## C14 -/

/-- C14. Single-variable box problem: for every `q > 0`, every `b0`, every
`C ≥ 0`, every `eps` and every `nSteps ≥ 1`, `quadOptBox` returns
`[clamp(b0/q, 0, C)]`. -/
theorem quadOptBox_one_variable (q b0 C eps : ℚ) (nSteps : Nat) (hq : 0 < q) (hC : 0 ≤ C)
    (hn : 1 ≤ nSteps) :
    quadOptBox [q] [b0] C eps nSteps = Except.ok [min (max (b0 / q) 0) C] := by
  have hchk : boxChecks [q] [b0] = Except.ok () := by
    apply (boxChecks_eq [q] [b0]).2
    unfold BoxFault
    have hq0 : rd [q] 0 ≠ 0 := ne_of_gt hq
    simp only [List.length_singleton, Nat.lt_one_iff]
    rintro (h | ⟨i, rfl, h⟩ | ⟨i, rfl, j, rfl, h⟩)
    · simp [dimMismatch] at h
    · exact hq0 h
    · exact h rfl
  obtain ⟨k, rfl⟩ : ∃ k, nSteps = k + 1 := ⟨nSteps - 1, by omega⟩
  unfold quadOptBox quadOptBoxTrace
  rw [hchk]
  simp only [List.length_singleton, List.replicate_one]
  rw [← clampBox_eq]
  by_cases hel : eligible (b0 - q * 0) 0 C = true
  · obtain ⟨r, hr⟩ := boxStep_one_move q b0 0 C eps (ne_of_gt hq) hel
    obtain ⟨ex, hex⟩ := boxLoop_one_fixed q b0 C eps hq k
    cases r with
    | none => simp only [boxLoop, hr, hex]
    | some reason => simp only [boxLoop, hr]
  · have hel2 : eligible (b0 - q * 0) 0 C = false := by simpa using hel
    simp only [boxLoop, boxStep_one_stop q b0 0 C eps hel2]
    -- the clamp of the quotient is zero when index 0 is not eligible at the origin
    congr 2
    simp only [eligible, mul_zero, sub_zero, Bool.or_eq_false_iff, Bool.and_eq_false_iff,
      decide_eq_false_iff_not, not_lt, lt_irrefl, not_false_eq_true, or_true, and_true] at hel2
    rw [clampBox_eq]
    rcases hel2 with h | h
    · have : b0 / q ≤ 0 := div_nonpos_of_nonpos_of_nonneg h (le_of_lt hq)
      rw [max_eq_right this, min_eq_left hC]
    · have hC0 : C = 0 := le_antisymm h hC
      rw [hC0, min_eq_right (le_max_right _ _)]

/-- C14, the scenario of the specification: `Q = [5]`, `b = [20]`, `C = 1`
returns `[1]`. -/
theorem quadOptBox_one_variable_witness :
    quadOptBox [5] [20] 1 (1 / 100) 1000 = Except.ok [min (max (20 / 5) 0) 1] ∧
    min (max ((20 : ℚ) / 5) 0) 1 = 1 :=
  ⟨quadOptBox_one_variable 5 20 1 (1 / 100) 1000 (by norm_num) (by norm_num) (by norm_num),
    by norm_num⟩

/-! ## Depth of the recursion of `solveCholesky` -/

/-- The recursion of `solveCholesky` is at most `n - 1` calls deep. -/
theorem cholDepth_le (n : Nat) : ∀ (Q b : List ℚ), cholDepth n Q b ≤ n - 1 := by
  induction n with
  | zero => intro Q b; simp [cholDepth]
  | succ m ih =>
    intro Q b
    unfold cholDepth
    cases hf : cholFactor Q (m + 1) with
    | ok st => simp
    | error e =>
      cases e with
      | divZero => simp
      | singular i =>
        dsimp only
        obtain ⟨h1, h2⟩ := cholFactor_singular_range Q (m + 1) i hf
        have := ih (dropRowCol Q b (m + 1) i).1 (dropRowCol Q b (m + 1) i).2
        omega

/-- The triangular solver raises no logic error. -/
theorem backSubst_error (L LD c : List ℚ) (e2 : Err)
    (h2 : backSubst L LD c = Except.error e2) : e2 = Err.divZero := by
  unfold backSubst at h2
  cases hfw : forwardSubst LD c with
  | ok y => rw [hfw] at h2; simp at h2
  | error e3 =>
    rw [hfw] at h2
    simp only [Except.error.injEq] at h2
    rw [← h2]
    unfold forwardSubst at hfw
    dsimp only at hfw
    cases h0 : fdiv (rd c 0) (rd LD 0) with
    | error e4 =>
      rw [h0] at hfw
      simp only [Except.error.injEq] at hfw
      rw [← hfw]
      exact fdiv_error _ _ _ h0
    | ok y0 =>
      rw [h0] at hfw
      dsimp only at hfw
      obtain ⟨j, t, _, hbody⟩ := forUpM_error _ _ _ _ hfw
      cases h1 : fdiv (rd c (j + 1) - forUp (fun j_1 s =>
          s + rd LD ((j + 1) * c.length + j_1) * rd t j_1) (j + 1) 0)
          (rd LD ((j + 1) * c.length + (j + 1))) with
      | error e5 =>
        rw [h1] at hbody
        simp only [Except.error.injEq] at hbody
        rw [← hbody]
        exact fdiv_error _ _ _ h1
      | ok v => rw [h1] at hbody; simp at hbody

/-- The routine raises no logic error. -/
theorem solveCholeskyN_error (n : Nat) :
    ∀ (Q b : List ℚ) (e : Err), solveCholeskyN n Q b = Except.error e → e = Err.divZero := by
  induction n with
  | zero => intro Q b e h; simp [solveCholeskyN] at h
  | succ m ih =>
    intro Q b e h
    unfold solveCholeskyN at h
    dsimp only at h
    cases hf : cholFactor Q (m + 1) with
    | error ex =>
      rw [hf] at h
      cases ex with
      | divZero =>
        simp only [Except.error.injEq] at h
        exact h.symm
      | singular i =>
        dsimp only at h
        cases hrec : solveCholeskyN m (dropRowCol Q b (m + 1) i).1
            (dropRowCol Q b (m + 1) i).2 with
        | error e2 =>
          rw [hrec] at h
          simp only [Except.error.injEq] at h
          rw [← h]
          exact ih _ _ e2 hrec
        | ok xy => rw [hrec] at h; simp at h
    | ok LDpair =>
      rw [hf] at h
      dsimp only at h
      cases hx : backSubst LDpair.1 (mkLD LDpair.1 LDpair.2 (m + 1)) b with
      | error e2 =>
        rw [hx] at h
        simp only [Except.error.injEq] at h
        rw [← h]
        exact backSubst_error _ _ _ e2 hx
      | ok x1 =>
        rw [hx] at h
        dsimp only at h
        cases hy : backSubst LDpair.1 (mkLD LDpair.1 LDpair.2 (m + 1))
            (List.replicate (m + 1) 1) with
        | error e2 =>
          rw [hy] at h
          simp only [Except.error.injEq] at h
          rw [← h]
          exact backSubst_error _ _ _ e2 hy
        | ok y1 => rw [hy] at h; simp at h

/-! ## C15 -/

/-- The recursion of `solveCholesky` on runs that divide by no zero: a zero
pivot found at a row `i ≥ 1` leads to one recursive call on the system without
row and column `i`, of dimension `n - 1`; there are at most `n - 1` nested
calls, and the `x` and `y` returned have length `n`. -/
theorem solveCholesky_depth (n : Nat) (Q b : List ℚ) (hn : 1 ≤ n)
    (hQ : Q.length = n * n) (hb : b.length = n) :
    (∀ i, i < n → (dropRowCol Q b n i).1.length = (n - 1) * (n - 1) ∧
      (dropRowCol Q b n i).2.length = n - 1) ∧
    (∀ i, cholFactor Q n = Except.error (CholExit.singular i) →
      1 ≤ i ∧ i < n ∧
      cholDepth n Q b = 1 + cholDepth (n - 1) (dropRowCol Q b n i).1 (dropRowCol Q b n i).2) ∧
    cholDepth b.length Q b ≤ n - 1 ∧
    ((∃ x y, solveCholesky Q b = Except.ok (x, y) ∧ x.length = n ∧ y.length = n) ∨
      solveCholesky Q b = Except.error Err.divZero) := by
  refine ⟨?_, ?_, ?_, ?_⟩
  · intro i hi
    obtain ⟨h1, h2, _, _⟩ := dropRowCol_spec Q b n i hi
    exact ⟨h1, h2⟩
  · intro i hf
    obtain ⟨h1, h2⟩ := cholFactor_singular_range Q n i hf
    refine ⟨h1, h2, ?_⟩
    obtain ⟨m, rfl⟩ : ∃ m, n = m + 1 := ⟨n - 1, by omega⟩
    simp only [cholDepth, hf, Nat.add_sub_cancel]
  · rw [hb]; exact cholDepth_le n Q b
  · unfold solveCholesky
    rw [hb]
    cases h : solveCholeskyN n Q b with
    | error e =>
      right
      rw [solveCholeskyN_error n Q b e h]
    | ok xy =>
      left
      obtain ⟨h1, h2⟩ := solveCholeskyN_length n Q b xy.1 xy.2 hb h
      exact ⟨xy.1, xy.2, rfl, h1, h2⟩

/-- The one-variable path of the weak routine returns one non-negative entry. -/
theorem weak_one_nonneg (Q b r : List ℚ) (Cn : ℚ) (hQ : Q.length = 1)
    (h : weakQuadraticOpt Q b Cn = Except.ok r) : ∃ v, r = [v] ∧ 0 ≤ v := by
  unfold weakQuadraticOpt at h
  rw [if_pos hQ] at h
  by_cases h0 : rd Q 0 = 0
  · rw [if_pos h0] at h
    by_cases h1 : rd b 0 = 0
    · rw [if_pos h1] at h
      simp only [Except.ok.injEq] at h
      exact ⟨0, h.symm, le_rfl⟩
    · rw [if_neg h1] at h; cases h
  · rw [if_neg h0] at h
    simp only [fdiv, h0, if_false, Except.ok.injEq] at h
    refine ⟨_, h.symm, ?_⟩
    split_ifs with h2 h3 h3
    · exact le_rfl
    · exact not_lt.mp h3
    · exact le_rfl
    · exact not_lt.mp h3

/-- The weak routine returns a vector of the size of `b`. -/
theorem weak_length (n : Nat) (Q b r : List ℚ) (Cn : ℚ) (hQ : Q.length = n * n)
    (hb : b.length = n) (h : weakQuadraticOpt Q b Cn = Except.ok r) : r.length = n := by
  by_cases h1 : Q.length = 1
  · obtain ⟨v, hv, _⟩ := weak_one_nonneg Q b r Cn h1 h
    have : n = 1 := by
      rw [hQ] at h1
      exact Nat.eq_one_of_mul_eq_one_left h1
    rw [hv, this]; rfl
  · unfold weakQuadraticOpt at h
    rw [if_neg h1] at h
    dsimp only at h
    cases hsol : solveCholesky Q b with
    | error e => rw [hsol] at h; simp at h
    | ok xy =>
      rw [hsol] at h
      dsimp only at h
      have hxl : xy.1.length = n := by
        unfold solveCholesky at hsol
        rw [hb] at hsol
        exact (solveCholeskyN_length n Q b xy.1 xy.2 hb hsol).1
      by_cases hc : hasNeg xy.1 b.length = false ∧ vsum xy.1 b.length ≤ Cn
      · rw [if_pos hc] at h
        simp only [Except.ok.injEq] at h
        rw [← h]; exact hxl
      · rw [if_neg hc] at h
        cases hd : fdiv (if vsum xy.1 b.length - Cn < 0 then 0 else vsum xy.1 b.length - Cn)
            (vsum xy.2 b.length) with
        | error e => rw [hd] at h; simp at h
        | ok lam =>
          rw [hd] at h
          simp only [Except.ok.injEq] at h
          rw [← h, (descent_spec xy.1 xy.2 lam b.length (by omega)).1]
          exact hxl

/-- The recursion of `strongQuadraticOpt` is at most `n - 1` calls deep. -/
theorem strongDepth_le (Cn : ℚ) (n : Nat) :
    ∀ (Q b : List ℚ), Q.length = n * n → b.length = n → strongDepth n Q b Cn ≤ n - 1 := by
  induction n with
  | zero => intro Q b _ _; simp [strongDepth]
  | succ m ih =>
    intro Q b hQ hb
    unfold strongDepth
    cases hw : weakQuadraticOpt Q b Cn with
    | error e => simp
    | ok x =>
      dsimp only
      obtain ⟨ham1, ham2, _⟩ := argMin_spec x (m + 1) (by omega)
      by_cases hmin : (argMin x (m + 1)).2 ≥ 0
      · rw [if_pos hmin]; omega
      · rw [if_neg hmin]
        have hm : 1 ≤ m := by
          by_contra hm0
          have hm1 : m = 0 := by omega
          subst hm1
          obtain ⟨v, hv, hv0⟩ := weak_one_nonneg Q b x Cn (by simpa using hQ) hw
          apply hmin
          have h0 : (argMin x (0 + 1)).1 = 0 := by omega
          rw [ham2, h0, hv]
          exact hv0
        obtain ⟨hQl, hbl, _, _⟩ := dropRowCol_spec Q b (m + 1) (argMin x (m + 1)).1 ham1
        have := ih _ _ (by simpa using hQl) (by simpa using hbl)
        omega

/-- When the strong routine returns a vector, it has length `n` and no
negative entry. -/
theorem strongN_result (Cn : ℚ) (n : Nat) :
    ∀ (Q b r : List ℚ), 1 ≤ n → Q.length = n * n → b.length = n →
      strongQuadraticOptN n Q b Cn = Except.ok r →
      r.length = n ∧ ∀ a, a ∈ r → 0 ≤ a := by
  induction n with
  | zero => intro Q b r hn; omega
  | succ m ih =>
    intro Q b r _ hQ hb h
    unfold strongQuadraticOptN at h
    dsimp only at h
    cases hw : weakQuadraticOpt Q b Cn with
    | error e => rw [hw] at h; simp at h
    | ok x =>
      rw [hw] at h
      dsimp only at h
      have hxl := weak_length (m + 1) Q b x Cn hQ hb hw
      obtain ⟨ham1, ham2, ham3⟩ := argMin_spec x (m + 1) (by omega)
      by_cases hmin : (argMin x (m + 1)).2 ≥ 0
      · rw [if_pos hmin] at h
        simp only [Except.ok.injEq] at h
        rw [← h]
        refine ⟨hxl, ?_⟩
        intro a ha
        obtain ⟨i, hi, rfl⟩ := exists_rd_of_mem x a ha
        exact le_trans hmin (ham3 i (by omega))
      · rw [if_neg hmin] at h
        have hm : 1 ≤ m := by
          by_contra hm0
          have hm1 : m = 0 := by omega
          subst hm1
          obtain ⟨v, hv, hv0⟩ := weak_one_nonneg Q b x Cn (by simpa using hQ) hw
          apply hmin
          have h0 : (argMin x (0 + 1)).1 = 0 := by omega
          rw [ham2, h0, hv]
          exact hv0
        obtain ⟨hQl, hbl, _, _⟩ := dropRowCol_spec Q b (m + 1) (argMin x (m + 1)).1 ham1
        cases hrec : strongQuadraticOptN m (dropRowCol Q b (m + 1) (argMin x (m + 1)).1).1
            (dropRowCol Q b (m + 1) (argMin x (m + 1)).1).2 Cn with
        | error e => rw [hrec] at h; simp at h
        | ok r2 =>
          rw [hrec] at h
          simp only [Except.ok.injEq] at h
          obtain ⟨g1, g2⟩ := ih _ _ r2 hm (by simpa using hQl) (by simpa using hbl) hrec
          rw [← h]
          refine ⟨by rw [length_insertAt, g1], ?_⟩
          intro a ha
          rcases mem_insertAt _ _ _ _ ha with h3 | h3
          · rw [h3]
          · exact g2 a h3

/-! ## C16 -/

/-- C16. For every `n ≥ 1`, on every input on which `strongQuadraticOpt`
returns a vector: a recursive call is made on the system without one row and
column, of dimension `n - 1`; a one-variable system makes none; the recursion
is at most `n - 1` calls deep; the returned vector has length `n` and no
negative coordinate. -/
theorem strong_terminates (n : Nat) (Q b r : List ℚ) (Cn : ℚ) (hn : 1 ≤ n)
    (hQ : Q.length = n * n) (hb : b.length = n)
    (h : strongQuadraticOpt Q b Cn = Except.ok r) :
    (∀ i, i < n → (dropRowCol Q b n i).1.length = (n - 1) * (n - 1) ∧
      (dropRowCol Q b n i).2.length = n - 1) ∧
    (n = 1 → strongDepth b.length Q b Cn = 0) ∧
    strongDepth b.length Q b Cn ≤ n - 1 ∧
    r.length = n ∧ ∀ a, a ∈ r → 0 ≤ a := by
  have hd := strongDepth_le Cn n Q b hQ hb
  have hr : strongQuadraticOptN n Q b Cn = Except.ok r := by
    unfold strongQuadraticOpt at h; rw [hb] at h; exact h
  obtain ⟨h1, h2⟩ := strongN_result Cn n Q b r hn hQ hb hr
  refine ⟨?_, ?_, by rw [hb]; exact hd, h1, h2⟩
  · intro i hi
    obtain ⟨g1, g2, _, _⟩ := dropRowCol_spec Q b n i hi
    exact ⟨g1, g2⟩
  · intro h1
    rw [hb]
    omega

/-- C16, witness: `Q = [[1,-1,-1],[-1,2,0],[-1,0,3]]`, `b = [0,-1,1]`, `Cn = 10`,
with the result `[0, 0, 1/3]`. -/
theorem strong_terminates_witness :
    (∀ i, i < 3 →
      (dropRowCol [1, -1, -1, -1, 2, 0, -1, 0, 3] [0, -1, 1] 3 i).1.length = (3 - 1) * (3 - 1) ∧
      (dropRowCol [1, -1, -1, -1, 2, 0, -1, 0, 3] [0, -1, 1] 3 i).2.length = 3 - 1) ∧
    (3 = 1 → strongDepth ([0, -1, 1] : List ℚ).length [1, -1, -1, -1, 2, 0, -1, 0, 3]
      [0, -1, 1] 10 = 0) ∧
    strongDepth ([0, -1, 1] : List ℚ).length [1, -1, -1, -1, 2, 0, -1, 0, 3] [0, -1, 1] 10
      ≤ 3 - 1 ∧
    ([0, 0, 1 / 3] : List ℚ).length = 3 ∧ ∀ a, a ∈ ([0, 0, 1 / 3] : List ℚ) → 0 ≤ a :=
  strong_terminates 3 [1, -1, -1, -1, 2, 0, -1, 0, 3] [0, -1, 1] [0, 0, 1 / 3] 10 (by decide)
    rfl rfl (by decide!)

/-! ## The cap on the number of rounds of `quadOptBox` -/

/-- The vector returned by the main loop started with `k` rounds left is
the vector reached after some `j ≤ k` rounds. -/
theorem boxLoop_iterate (Q b : List ℚ) (C eps : ℚ) (n : Nat) (k : Nat) :
    ∀ x0 x ex, boxLoop Q b C eps n k x0 = Except.ok (x, ex) →
      ∃ j, j ≤ k ∧ boxIterate Q b C eps n j x0 = Except.ok x := by
  induction k with
  | zero =>
    intro x0 x ex h
    simp only [boxLoop, Except.ok.injEq, Prod.mk.injEq] at h
    exact ⟨0, le_rfl, by rw [← h.1]; rfl⟩
  | succ k ih =>
    intro x0 x ex h
    unfold boxLoop at h
    cases hs : boxStep Q b x0 C eps n with
    | error e => rw [hs] at h; simp at h
    | ok r =>
      obtain ⟨x1, flag⟩ := r
      rw [hs] at h
      cases flag with
      | some reason =>
        simp only [Except.ok.injEq, Prod.mk.injEq] at h
        refine ⟨1, by omega, ?_⟩
        simp only [boxIterate, hs]
        rw [h.1]
      | none =>
        dsimp only at h
        obtain ⟨j, hj, hit⟩ := ih x1 x ex h
        refine ⟨j + 1, by omega, ?_⟩
        simp only [boxIterate, hs]
        exact hit

/-! ## C17 -/

/-- C17. `nSteps` is a hard cap: on every input passing the precondition
checks, the vector returned by `quadOptBox` is the one reached from the zero
vector after `k` rounds of the loop for some `k ≤ nSteps`; with `nSteps = 0`
the result is the zero vector of length `n`. -/
theorem quadOptBox_step_cap (Q b : List ℚ) (C eps : ℚ)
    (hchk : boxChecks Q b = Except.ok ()) :
    quadOptBox Q b C eps 0 = Except.ok (List.replicate b.length 0) ∧
    ∀ nSteps x, quadOptBox Q b C eps nSteps = Except.ok x →
      ∃ k, k ≤ nSteps ∧
        boxIterate Q b C eps b.length k (List.replicate b.length 0) = Except.ok x := by
  constructor
  · unfold quadOptBox quadOptBoxTrace
    rw [hchk]
    rfl
  · intro nSteps x h
    unfold quadOptBox quadOptBoxTrace at h
    rw [hchk] at h
    dsimp only at h
    cases hl : boxLoop Q b C eps b.length nSteps (List.replicate b.length 0) with
    | error e => rw [hl] at h; simp at h
    | ok r =>
      rw [hl] at h
      simp only [Except.ok.injEq] at h
      rw [← h]
      exact boxLoop_iterate Q b C eps b.length nSteps _ r.1 r.2 hl

/-- C17, witness: `Q = [[2,1],[1,2]]`, `b = [1,1]`, `C = 10`, `eps = 1/100`. -/
theorem quadOptBox_step_cap_witness :
    quadOptBox [2, 1, 1, 2] [1, 1] 10 (1 / 100) 0
      = Except.ok (List.replicate ([1, 1] : List ℚ).length 0) ∧
    ∀ nSteps x, quadOptBox [2, 1, 1, 2] [1, 1] 10 (1 / 100) nSteps = Except.ok x →
      ∃ k, k ≤ nSteps ∧
        boxIterate [2, 1, 1, 2] [1, 1] 10 (1 / 100) ([1, 1] : List ℚ).length k
          (List.replicate ([1, 1] : List ℚ).length 0) = Except.ok x :=
  quadOptBox_step_cap [2, 1, 1, 2] [1, 1] 10 (1 / 100) (by decide!)

/-! ## C18 -/

/-- C18. Every slack-rescaling member raises the logic error on every input:
the call of `FLoopyOracle_s` (also through the oracle that
`makeDefaultOracle` builds for slack rescaling) never yields a label, and the
slack-rescaling overloads of `SVMopt`, `obj`, `mostViolConstraint` and
`compSlackAll` never yield a value. -/
theorem slack_rescaling_raises (svm : CnsSSVM) (epsilon Cn : ℚ) (xi k : Nat) :
    FLoopyOracle_s_call svm epsilon xi = Except.error Err.logic ∧
    (∀ y : Int, FLoopyOracle_s_call svm epsilon xi ≠ Except.ok y) ∧
    makeDefaultOracle_s svm xi = Except.error Err.logic ∧
    SVMopt_s svm k Cn = Except.error Err.logic ∧
    obj_s svm = Except.error Err.logic ∧
    mostViolConstraint_s svm xi = Except.error Err.logic ∧
    compSlackAll_s svm xi = Except.error Err.logic := by
  refine ⟨rfl, ?_, rfl, rfl, rfl, rfl, rfl⟩
  intro y h
  cases h

/-! ## Writing a checkpoint and reading it back -/

theorem mapOf_map (f : Nat → ℚ) (h : List Nat) (y : Nat) :
    mapOf h (h.map f) y = if y ∈ h then some (f y) else none := by
  induction h with
  | nil => rfl
  | cons c cs ih =>
    show (if y = c then some (f c) else mapOf cs (cs.map f) y) = _
    by_cases hy : y = c
    · subst hy
      simp
    · rw [if_neg hy, ih]
      simp [hy]

theorem zipWith_mapOf (al : List (Nat → Option ℚ)) (hs : List (List Nat))
    (hlen : al.length = hs.length)
    (hz : ∀ (i : Nat) (a : Nat → Option ℚ) (h : List Nat), al[i]? = some a → hs[i]? = some h →
      ∀ y, (a y).isSome = true ↔ y ∈ h) :
    List.zipWith mapOf hs (List.zipWith (fun a h => h.map (fun y => (a y).getD 0)) al hs)
      = al := by
  induction al generalizing hs with
  | nil =>
    cases hs with
    | nil => rfl
    | cons h t => simp at hlen
  | cons a t ih =>
    cases hs with
    | nil => simp at hlen
    | cons h hs1 =>
      simp only [List.zipWith_cons_cons]
      have ha : mapOf h (h.map (fun y => (a y).getD 0)) = a := by
        funext y
        rw [mapOf_map]
        have hk := hz 0 a h (by simp) (by simp) y
        by_cases hy : y ∈ h
        · rw [if_pos hy]
          have hs := hk.mpr hy
          cases hay : a y with
          | none => rw [hay] at hs; cases hs
          | some w => rfl
        · rw [if_neg hy]
          cases hay : a y with
          | none => rfl
          | some w =>
            exfalso
            apply hy
            apply hk.mp
            rw [hay]
            rfl
      rw [ha, ih hs1 (by simpa using hlen)
        (fun i a1 h1 e1 e2 => hz (i + 1) a1 h1 (by simpa using e1) (by simpa using e2))]

/-- The round trip on a state that satisfies the invariant of the working
set. -/
theorem roundtrip_of_aligned (svm svm0 : CnsSSVM) (iter : Nat)
    (files : String → Option Checkpoint)
    (hpre : svm0.params.fnPrefix = svm.params.fnPrefix) (hal : Aligned svm) :
    (preload svm0 (save svm iter files)).1 = (iter : Int) ∧
    (preload svm0 (save svm iter files)).2.alpha = svm.alpha ∧
    (preload svm0 (save svm iter files)).2.yLast = svm.yLast ∧
    (preload svm0 (save svm iter files)).2.Jcache = svm.Jcache ∧
    (preload svm0 (save svm iter files)).2.params = svm0.params := by
  have hread : save svm iter files (checkpointPath svm0.params.fnPrefix)
      = some { iter := iter, hist := svm.yLast,
               coef := List.zipWith (fun a h => h.map (fun y => (a y).getD 0))
                 svm.alpha svm.yLast,
               cache := svm.Jcache } := by
    unfold save
    rw [hpre]
    exact if_pos rfl
  unfold preload
  rw [hread]
  refine ⟨rfl, ?_, rfl, rfl, rfl⟩
  exact zipWith_mapOf svm.alpha svm.yLast hal.1 hal.2

theorem isSome_insertKey (a : Nat → Option ℚ) (ybar y : Nat) :
    (insertKey a ybar y).isSome = true ↔ ((a y).isSome = true ∨ y = ybar) := by
  unfold insertKey
  by_cases hy : y = ybar
  · rw [if_pos hy]
    cases a y <;> simp [hy]
  · rw [if_neg hy]
    simp [hy]

theorem isSome_assignAll (h : List Nat) :
    ∀ (a : Nat → Option ℚ) (x : List ℚ) (y : Nat),
      (assignAll a h x y).isSome = true ↔ ((a y).isSome = true ∨ y ∈ h) := by
  induction h with
  | nil =>
    intro a x y
    simp [assignAll]
  | cons c cs ih =>
    intro a x y
    show (assignAll (fun k => if k = c then some (x.headD 0) else a k) cs x.tail y).isSome = true
      ↔ _
    rw [ih]
    by_cases hy : y = c
    · simp [hy]
    · simp [hy]

/-- Every step keeps the invariant of the working set. -/
theorem applyStep_aligned (s : CnsSSVM) (st : TrainStep) (ih : Aligned s) :
    Aligned (applyStep s st) := by
  cases st with
  | clear =>
    refine ⟨rfl, ?_⟩
    intro i a h ha
    simp [applyStep, clear] at ha
  | start n =>
    refine ⟨by simp [applyStep, startTraining], ?_⟩
    intro i a h ha hh y
    simp only [applyStep, startTraining, List.getElem?_replicate] at ha hh
    split_ifs at ha hh with hi
    simp only [Option.some.injEq] at ha hh
    subst ha
    subst hh
    simp
  | add i ybar J =>
    obtain ⟨hl, hk⟩ := ih
    refine ⟨by simp [applyStep, addConstraint, hl], ?_⟩
    intro j a h ha hh y
    simp only [applyStep, addConstraint, List.getElem?_set] at ha hh
    by_cases hij : i = j
    · subst hij
      rw [if_pos rfl] at ha hh
      split_ifs at ha hh with h1 h2
      simp only [Option.some.injEq] at ha hh
      subst ha
      subst hh
      rw [isSome_insertKey, List.mem_append, List.mem_singleton]
      have e1 : s.alpha[i]? = some (s.alpha.getD i (fun _ => none)) := by
        rw [List.getD_eq_getElem?_getD, List.getElem?_eq_getElem h1]
        rfl
      have e2 : s.yLast[i]? = some (s.yLast.getD i []) := by
        rw [List.getD_eq_getElem?_getD, List.getElem?_eq_getElem h2]
        rfl
      rw [hk i _ _ e1 e2 y]
    · rw [if_neg hij] at ha hh
      exact hk j a h ha hh y
  | write i x =>
    obtain ⟨hl, hk⟩ := ih
    refine ⟨by simp [applyStep, writeBack, hl], ?_⟩
    intro j a h ha hh y
    simp only [applyStep, writeBack, List.getElem?_set] at ha hh
    by_cases hij : i = j
    · subst hij
      rw [if_pos rfl] at ha
      split_ifs at ha with h1
      simp only [Option.some.injEq] at ha
      subst ha
      have e1 : s.alpha[i]? = some (s.alpha.getD i (fun _ => none)) := by
        rw [List.getD_eq_getElem?_getD, List.getElem?_eq_getElem h1]
        rfl
      have e3 : s.yLast.getD i [] = h := by
        rw [List.getD_eq_getElem?_getD, hh]
        rfl
      rw [isSome_assignAll, e3, hk i _ _ e1 hh y]
      exact or_self_iff
    · rw [if_neg hij] at ha
      exact hk j a h ha hh y
  | resume iter files =>
    obtain ⟨_, h2, h3, _, _⟩ := roundtrip_of_aligned s s iter files rfl ih
    refine ⟨?_, ?_⟩
    · show (preload s (save s iter files)).2.alpha.length
        = (preload s (save s iter files)).2.yLast.length
      rw [h2, h3]
      exact ih.1
    · intro j a h ha hh y
      have ha2 : (preload s (save s iter files)).2.alpha[j]? = some a := ha
      have hh2 : (preload s (save s iter files)).2.yLast[j]? = some h := hh
      rw [h2] at ha2
      rw [h3] at hh2
      exact ih.2 j a h ha2 hh2 y

theorem applyStep_params (s : CnsSSVM) (st : TrainStep) : (applyStep s st).params = s.params := by
  cases st with
  | clear => rfl
  | start n => rfl
  | add i ybar J => rfl
  | write i x => rfl
  | resume iter files =>
    show (preload s (save s iter files)).2.params = s.params
    unfold preload save
    simp

theorem foldl_applyStep (steps : List TrainStep) :
    ∀ s : CnsSSVM, Aligned s →
      Aligned (steps.foldl applyStep s) ∧ (steps.foldl applyStep s).params = s.params := by
  induction steps with
  | nil => intro s hs; exact ⟨hs, rfl⟩
  | cons st rest ih =>
    intro s hs
    obtain ⟨h1, h2⟩ := ih (applyStep s st) (applyStep_aligned s st hs)
    exact ⟨h1, h2.trans (applyStep_params s st)⟩

/-- Every state of a classifier satisfies the invariant of the working set,
and keeps the parameters the classifier was constructed with. -/
theorem stateAfter_aligned (pp : SSSVMParams) (steps : List TrainStep) :
    Aligned (stateAfter pp steps) ∧ (stateAfter pp steps).params = pp := by
  have h0 : Aligned { params := pp, alpha := [], asum := [], yLast := [], Jcache := [] } := by
    refine ⟨rfl, ?_⟩
    intro i a h ha
    simp at ha
  exact foldl_applyStep steps _ h0

/-! ## C19 -/

/-- C19. Checkpoint round-trip: for every state of the classifier, that is,
for a classifier constructed with any parameters `pp` after any sequence of
steps, and for every iteration `iter`: `preload` on the files written by
`save`, by a classifier `svm0` with the same prefix, returns the iteration
index `iter`, and the state it restores has the coefficient maps of the saved
state, with the same keys and the same values, its histories and its cache. -/
theorem save_preload_roundtrip (pp : SSSVMParams) (steps : List TrainStep) (svm0 : CnsSSVM)
    (iter : Nat) (files : String → Option Checkpoint)
    (hpre : svm0.params.fnPrefix = pp.fnPrefix) :
    (preload svm0 (save (stateAfter pp steps) iter files)).1 = (iter : Int) ∧
    (preload svm0 (save (stateAfter pp steps) iter files)).2.alpha
      = (stateAfter pp steps).alpha ∧
    (preload svm0 (save (stateAfter pp steps) iter files)).2.yLast
      = (stateAfter pp steps).yLast ∧
    (preload svm0 (save (stateAfter pp steps) iter files)).2.Jcache
      = (stateAfter pp steps).Jcache ∧
    (preload svm0 (save (stateAfter pp steps) iter files)).2.params = svm0.params := by
  obtain ⟨hal, hp⟩ := stateAfter_aligned pp steps
  exact roundtrip_of_aligned (stateAfter pp steps) svm0 iter files (by rw [hp]; exact hpre) hal

/-- C19, witness: a classifier with the prefix `run` starts training on one
sample, the labels `2` and `0` are added for it and the weights `1/2` and
`1/4` written back; the state is saved at iteration `7` while no file exists,
and read back by a new classifier with the same prefix. -/
theorem save_preload_roundtrip_witness :
    (stateAfter ⟨1, 1 / 100, 10, "run"⟩
      [TrainStep.start 1, TrainStep.add 0 2 [1], TrainStep.add 0 0 [1, 0, 0, 1],
        TrainStep.write 0 [1 / 2, 1 / 4]]).yLast = [[2, 0]] ∧
    ((stateAfter ⟨1, 1 / 100, 10, "run"⟩
      [TrainStep.start 1, TrainStep.add 0 2 [1], TrainStep.add 0 0 [1, 0, 0, 1],
        TrainStep.write 0 [1 / 2, 1 / 4]]).alpha.map (fun a => [a 0, a 1, a 2]))
      = [[some (1 / 4), none, some (1 / 2)]] ∧
    (preload ⟨⟨1, 1 / 100, 10, "run"⟩, [], [], [], []⟩
      (save (stateAfter ⟨1, 1 / 100, 10, "run"⟩
        [TrainStep.start 1, TrainStep.add 0 2 [1], TrainStep.add 0 0 [1, 0, 0, 1],
          TrainStep.write 0 [1 / 2, 1 / 4]]) 7 (fun _ => none))).1 = 7 ∧
    (preload ⟨⟨1, 1 / 100, 10, "run"⟩, [], [], [], []⟩
      (save (stateAfter ⟨1, 1 / 100, 10, "run"⟩
        [TrainStep.start 1, TrainStep.add 0 2 [1], TrainStep.add 0 0 [1, 0, 0, 1],
          TrainStep.write 0 [1 / 2, 1 / 4]]) 7 (fun _ => none))).2.alpha
      = (stateAfter ⟨1, 1 / 100, 10, "run"⟩
        [TrainStep.start 1, TrainStep.add 0 2 [1], TrainStep.add 0 0 [1, 0, 0, 1],
          TrainStep.write 0 [1 / 2, 1 / 4]]).alpha ∧
    (preload ⟨⟨1, 1 / 100, 10, "run"⟩, [], [], [], []⟩
      (save (stateAfter ⟨1, 1 / 100, 10, "run"⟩
        [TrainStep.start 1, TrainStep.add 0 2 [1], TrainStep.add 0 0 [1, 0, 0, 1],
          TrainStep.write 0 [1 / 2, 1 / 4]]) 7 (fun _ => none))).2.yLast = [[2, 0]] :=
  have h := save_preload_roundtrip ⟨1, 1 / 100, 10, "run"⟩
    [TrainStep.start 1, TrainStep.add 0 2 [1], TrainStep.add 0 0 [1, 0, 0, 1],
      TrainStep.write 0 [1 / 2, 1 / 4]]
    ⟨⟨1, 1 / 100, 10, "run"⟩, [], [], [], []⟩ 7 (fun _ => none) rfl
  ⟨rfl, by decide!, h.1, h.2.1, h.2.2.1⟩

/-! ## The scan of the margin-rescaling oracle -/

theorem oracleScan_spec (viol : Nat → ℚ) (m : Nat) (hm : 0 < m) :
    ∃ k, k < m ∧ oracleScan viol m = some (k, viol k) ∧
      (∀ y, y < m → viol y ≤ viol k) ∧ (∀ y, y < k → viol y < viol k) := by
  induction m with
  | zero => omega
  | succ m ih =>
    rcases Nat.eq_zero_or_pos m with h0 | hpos
    · subst h0
      refine ⟨0, by omega, rfl, ?_, ?_⟩
      · intro y hy
        have : y = 0 := by omega
        subst this
        exact le_refl _
      · intro y hy
        omega
    · obtain ⟨k, hk, hscan, hmax, hfirst⟩ := ih hpos
      by_cases hgt : viol m > viol k
      · refine ⟨m, by omega, ?_, ?_, ?_⟩
        · show (match oracleScan viol m with
            | none => some (m, viol m)
            | some best => if viol m > best.2 then some (m, viol m) else some best) = _
          rw [hscan]
          exact if_pos hgt
        · intro y hy
          rcases Nat.lt_succ_iff_lt_or_eq.mp hy with h1 | h1
          · exact le_trans (hmax y h1) (le_of_lt hgt)
          · subst h1
            exact le_refl _
        · intro y hy
          exact lt_of_le_of_lt (hmax y hy) hgt
      · refine ⟨k, by omega, ?_, ?_, hfirst⟩
        · show (match oracleScan viol m with
            | none => some (m, viol m)
            | some best => if viol m > best.2 then some (m, viol m) else some best) = _
          rw [hscan]
          exact if_neg hgt
        · intro y hy
          rcases Nat.lt_succ_iff_lt_or_eq.mp hy with h1 | h1
          · exact hmax y h1
          · subst h1
            exact not_lt.mp hgt

theorem oracleScan_congr (v w : Nat → ℚ) (m : Nat) (h : ∀ y, y < m → v y = w y) :
    oracleScan v m = oracleScan w m := by
  induction m with
  | zero => rfl
  | succ m ih =>
    show (match oracleScan v m with
        | none => some (m, v m)
        | some best => if v m > best.2 then some (m, v m) else some best) =
      (match oracleScan w m with
        | none => some (m, w m)
        | some best => if w m > best.2 then some (m, w m) else some best)
    rw [ih (fun y hy => h y (by omega)), h m (by omega)]

/-! ## C20 -/

/-- C20. The margin-rescaling oracle on a state `svm` and a sample `xi`:
if some label of the output space has a margin-violation score above
`epsilon`, the label returned has the largest score, that score exceeds
`epsilon`, and every label before it has a strictly smaller score (the lowest
index among ties); if every score is at most `epsilon` the result is `-1`;
and two states that give the labels of the sample the same scores get the
same answer. -/
theorem oracle_m_most_violated (viol : CnsSSVM → Nat → Nat → ℚ) (nO : Nat) (svm : CnsSSVM)
    (epsilon : ℚ) (xi : Nat) :
    ((∃ y, y < nO ∧ viol svm xi y > epsilon) →
      ∃ k, k < nO ∧ FLoopyOracle_m_call viol nO svm epsilon xi = (k : Int) ∧
        viol svm xi k > epsilon ∧ (∀ y, y < nO → viol svm xi y ≤ viol svm xi k) ∧
        (∀ y, y < k → viol svm xi y < viol svm xi k)) ∧
    ((∀ y, y < nO → viol svm xi y ≤ epsilon) →
      FLoopyOracle_m_call viol nO svm epsilon xi = -1) ∧
    (∀ svm2 : CnsSSVM, (∀ y, y < nO → viol svm2 xi y = viol svm xi y) →
      FLoopyOracle_m_call viol nO svm2 epsilon xi
        = FLoopyOracle_m_call viol nO svm epsilon xi) := by
  refine ⟨?_, ?_, ?_⟩
  · rintro ⟨y, hy, hgt⟩
    obtain ⟨k, hk, hscan, hmax, hfirst⟩ := oracleScan_spec (viol svm xi) nO (by omega)
    have hke : viol svm xi k > epsilon := lt_of_lt_of_le hgt (hmax y hy)
    refine ⟨k, hk, ?_, hke, hmax, hfirst⟩
    unfold FLoopyOracle_m_call
    rw [hscan]
    exact if_pos hke
  · intro hall
    rcases Nat.eq_zero_or_pos nO with h0 | hpos
    · subst h0
      rfl
    · obtain ⟨k, hk, hscan, _, _⟩ := oracleScan_spec (viol svm xi) nO hpos
      unfold FLoopyOracle_m_call
      rw [hscan]
      exact if_neg (not_lt.mpr (hall k hk))
  · intro svm2 h
    unfold FLoopyOracle_m_call
    rw [oracleScan_congr (viol svm2 xi) (viol svm xi) nO h]

/-- C20, witness: three labels with the scores `1, 3, 3` and `epsilon = 2`;
the premise of the first part holds at the label `2`, and the call returns the
label `1`, the first of the two with the largest score. -/
theorem oracle_m_most_violated_witness :
    (∃ y : Nat, y < 3 ∧ (if y = 0 then (1 : ℚ) else 3) > 2) ∧
    FLoopyOracle_m_call (fun _ _ y => if y = 0 then (1 : ℚ) else 3) 3
        ⟨⟨1, 1 / 100, 10, "run"⟩, [], [], [], []⟩ 2 0 = 1 ∧
    (∃ k : Nat, k < 3 ∧ FLoopyOracle_m_call (fun _ _ y => if y = 0 then (1 : ℚ) else 3) 3
          ⟨⟨1, 1 / 100, 10, "run"⟩, [], [], [], []⟩ 2 0 = (k : Int) ∧
        (if k = 0 then (1 : ℚ) else 3) > 2 ∧
        (∀ y : Nat, y < 3 → (if y = 0 then (1 : ℚ) else 3) ≤ (if k = 0 then (1 : ℚ) else 3)) ∧
        (∀ y : Nat, y < k → (if y = 0 then (1 : ℚ) else 3) < (if k = 0 then (1 : ℚ) else 3))) :=
  ⟨⟨2, by decide, by decide!⟩, by decide!,
   (oracle_m_most_violated (fun _ _ y => if y = 0 then (1 : ℚ) else 3) 3
      ⟨⟨1, 1 / 100, 10, "run"⟩, [], [], [], []⟩ 2 0).1 ⟨2, by decide, by decide!⟩⟩


/-! ## The worker `FFComputer` -/

theorem length_FFComputer_call (f : Nat → Nat → ℚ) (xk : Nat) (range : Nat × Nat)
    (res : List ℚ) : (FFComputer_call f xk range res).length = res.length := by
  unfold FFComputer_call
  induction (range.2 - range.1) with
  | zero => rfl
  | succ t ih => rw [forUp_succ, List.length_set, ih]

theorem rd_FFComputer_call (f : Nat → Nat → ℚ) (xk : Nat) (range : Nat × Nat)
    (res : List ℚ) (hr : range.2 ≤ res.length) (yi : Nat) :
    rd (FFComputer_call f xk range res) yi
      = if inRange yi range = true then f xk yi else rd res yi := by
  have key : ∀ t, range.1 + t ≤ res.length →
      (forUp (fun t (res : List ℚ) => res.set (range.1 + t) (f xk (range.1 + t))) t res).length
        = res.length ∧
      rd (forUp (fun t (res : List ℚ) => res.set (range.1 + t) (f xk (range.1 + t))) t res) yi
        = if range.1 ≤ yi ∧ yi < range.1 + t then f xk yi else rd res yi := by
    intro t
    induction t with
    | zero =>
      intro _
      refine ⟨rfl, ?_⟩
      rw [if_neg (by omega)]
      rfl
    | succ t ih =>
      intro ht
      obtain ⟨hl, hv⟩ := ih (by omega)
      rw [forUp_succ]
      refine ⟨by rw [List.length_set, hl], ?_⟩
      by_cases hy : yi = range.1 + t
      · subst hy
        rw [rd_set_eq _ _ _ (by rw [hl]; omega), if_pos (by omega)]
      · rw [rd_set_ne _ _ _ _ (Ne.symm hy), hv]
        by_cases hin : range.1 ≤ yi ∧ yi < range.1 + t
        · rw [if_pos hin, if_pos (by omega)]
        · rw [if_neg hin, if_neg (by omega)]
  unfold FFComputer_call
  by_cases hle : range.1 ≤ range.2
  · rw [(key (range.2 - range.1) (by omega)).2]
    have e : range.1 + (range.2 - range.1) = range.2 := by omega
    rw [e]
    simp only [inRange, Bool.and_eq_true, decide_eq_true_eq]
  · have e : range.2 - range.1 = 0 := by omega
    rw [e]
    have hn : ¬ (inRange yi range = true) := by
      simp only [inRange, Bool.and_eq_true, decide_eq_true_eq]
      omega
    rw [if_neg hn]
    rfl

theorem runWorkers_spec (f : Nat → Nat → ℚ) (xk : Nat) (ranges : List (Nat × Nat)) :
    ∀ (res : List ℚ), (∀ p, p ∈ ranges → p.2 ≤ res.length) →
      (runWorkers f xk ranges res).length = res.length ∧
      ∀ yi, rd (runWorkers f xk ranges res) yi
        = if (∃ p, p ∈ ranges ∧ inRange yi p = true) then f xk yi else rd res yi := by
  induction ranges with
  | nil =>
    intro res _
    refine ⟨rfl, fun yi => ?_⟩
    rw [if_neg (by simp)]
    rfl
  | cons p rest ih =>
    intro res hres
    have hp : p.2 ≤ res.length := hres p (List.mem_cons_self _ _)
    have hlen := length_FFComputer_call f xk p res
    obtain ⟨hl, hv⟩ := ih (FFComputer_call f xk p res)
      (fun q hq => by rw [hlen]; exact hres q (List.mem_cons_of_mem _ hq))
    have hrun : runWorkers f xk (p :: rest) res
        = runWorkers f xk rest (FFComputer_call f xk p res) := rfl
    rw [hrun]
    refine ⟨by rw [hl, hlen], fun yi => ?_⟩
    rw [hv yi, rd_FFComputer_call f xk p res hp yi]
    by_cases h1 : ∃ q, q ∈ rest ∧ inRange yi q = true
    · obtain ⟨q, hq, hin⟩ := h1
      rw [if_pos ⟨q, hq, hin⟩, if_pos ⟨q, List.mem_cons_of_mem _ hq, hin⟩]
    · rw [if_neg h1]
      by_cases h2 : inRange yi p = true
      · rw [if_pos h2, if_pos ⟨p, List.mem_cons_self _ _, h2⟩]
      · rw [if_neg h2, if_neg]
        rintro ⟨q, hq, hin⟩
        rcases List.mem_cons.mp hq with e | hq1
        · subst e
          exact h2 hin
        · exact h1 ⟨q, hq1, hin⟩

theorem one_range_of_disjoint (ranges : List (Nat × Nat)) (yi : Nat)
    (hd : DisjointRanges ranges) (hc : ∃ p, p ∈ ranges ∧ inRange yi p = true) :
    (ranges.filter (inRange yi)).length = 1 := by
  have hpw : (ranges.filter (inRange yi)).Pairwise
      (fun p q => ∀ y, ¬ (inRange y p = true ∧ inRange y q = true)) :=
    List.Pairwise.filter _ hd
  have hall : ∀ p, p ∈ ranges.filter (inRange yi) → inRange yi p = true :=
    fun p hp => (List.mem_filter.mp hp).2
  obtain ⟨p, hp, hin⟩ := hc
  have hmem : p ∈ ranges.filter (inRange yi) := List.mem_filter.mpr ⟨hp, hin⟩
  generalize ranges.filter (inRange yi) = l at hpw hall hmem
  match l, hpw, hall, hmem with
  | [], _, _, hmem => simp at hmem
  | [_], _, _, _ => rfl
  | a :: c :: _, hpw, hall, _ =>
    exfalso
    have h1 := (List.pairwise_cons.mp hpw).1 c (List.mem_cons_self _ _)
    exact h1 yi ⟨hall a (List.mem_cons_self _ _),
      hall c (List.mem_cons_of_mem _ (List.mem_cons_self _ _))⟩

/-! ## C21 -/

/-- C21. Frame of the batch-scoring worker: on a buffer that holds the range,
`FFComputer::operator()` keeps the size of `res`, sets `res[yi] = f(xk, yi)`
for the indices `first ≤ yi < second` and leaves every other entry as it was.
Workers on pairwise disjoint ranges that cover `[0, m)`, run in any order,
leave `f(xk, yi)` in every entry below `m` and the entries from `m` on
unchanged, and every index below `m` is in the range of exactly one worker. -/
theorem FFComputer_frame (f : Nat → Nat → ℚ) (xk : Nat) (range : Nat × Nat) (res : List ℚ)
    (ranges : List (Nat × Nat)) (m : Nat)
    (hr : range.2 ≤ res.length) (hm : m ≤ res.length)
    (hd : DisjointRanges ranges) (hc : CoverRanges ranges m) :
    (FFComputer_call f xk range res).length = res.length ∧
    (∀ yi, range.1 ≤ yi → yi < range.2 → rd (FFComputer_call f xk range res) yi = f xk yi) ∧
    (∀ yi, ¬ (range.1 ≤ yi ∧ yi < range.2) →
      rd (FFComputer_call f xk range res) yi = rd res yi) ∧
    (∀ order, List.Perm order ranges →
      (runWorkers f xk order res).length = res.length ∧
      (∀ yi, yi < m → rd (runWorkers f xk order res) yi = f xk yi) ∧
      (∀ yi, m ≤ yi → rd (runWorkers f xk order res) yi = rd res yi)) ∧
    (∀ yi, yi < m → (ranges.filter (inRange yi)).length = 1) := by
  refine ⟨length_FFComputer_call f xk range res, ?_, ?_, ?_, ?_⟩
  · intro yi h1 h2
    rw [rd_FFComputer_call f xk range res hr yi, if_pos]
    simp only [inRange, Bool.and_eq_true, decide_eq_true_eq]
    exact ⟨h1, h2⟩
  · intro yi h
    rw [rd_FFComputer_call f xk range res hr yi, if_neg]
    simp only [inRange, Bool.and_eq_true, decide_eq_true_eq]
    exact h
  · intro order hperm
    obtain ⟨hl, hv⟩ := runWorkers_spec f xk order res
      (fun p hp => le_trans (hc.1 p (hperm.mem_iff.mp hp)) hm)
    refine ⟨hl, ?_, ?_⟩
    · intro yi hyi
      obtain ⟨p, hp, hin⟩ := hc.2 yi hyi
      rw [hv yi, if_pos ⟨p, hperm.mem_iff.mpr hp, hin⟩]
    · intro yi hyi
      rw [hv yi, if_neg]
      rintro ⟨p, hp, hin⟩
      have h2 := hc.1 p (hperm.mem_iff.mp hp)
      simp only [inRange, Bool.and_eq_true, decide_eq_true_eq] at hin
      omega
  · intro yi hyi
    exact one_range_of_disjoint ranges yi hd (hc.2 yi hyi)

theorem disjoint_two_halves : DisjointRanges [(0, 2), (2, 4)] := by
  unfold DisjointRanges
  refine List.pairwise_cons.mpr ⟨?_, List.pairwise_cons.mpr ⟨fun _ h => by simp at h,
    List.Pairwise.nil⟩⟩
  intro q hq yi
  simp only [List.mem_singleton] at hq
  subst hq
  simp only [inRange, Bool.and_eq_true, decide_eq_true_eq]
  omega

theorem cover_two_halves : CoverRanges [(0, 2), (2, 4)] 4 := by
  constructor
  · intro p hp
    simp only [List.mem_cons, List.mem_singleton, List.not_mem_nil, or_false] at hp
    rcases hp with e | e <;> subst e <;> decide
  · intro yi hyi
    by_cases h : yi < 2
    · exact ⟨(0, 2), by simp, by simp [inRange, h]⟩
    · exact ⟨(2, 4), by simp, by simp [inRange]; omega⟩

/-- C21, witness: the buffer `[9, 9, 9, 9]`, the sample `xk = 1`, the
compatibility `f(xk, yi) = xk + 2 yi`, a worker on the range `[1, 3)` and the
two workers on `[0, 2)` and `[2, 4)`, run in the order `[2, 4)`, `[0, 2)`. -/
theorem FFComputer_frame_witness :
    DisjointRanges [(0, 2), (2, 4)] ∧ CoverRanges [(0, 2), (2, 4)] 4 ∧
    FFComputer_call (fun xk yi => (xk : ℚ) + 2 * yi) 1 (1, 3) [9, 9, 9, 9] = [9, 3, 5, 9] ∧
    (FFComputer_call (fun xk yi => (xk : ℚ) + 2 * yi) 1 (1, 3) [9, 9, 9, 9]).length
      = ([9, 9, 9, 9] : List ℚ).length ∧
    (∀ yi, yi < 4 →
      rd (runWorkers (fun xk yi => (xk : ℚ) + 2 * yi) 1 [(2, 4), (0, 2)] [9, 9, 9, 9]) yi
        = ((1 : Nat) : ℚ) + 2 * yi) ∧
    (∀ yi, yi < 4 → (([(0, 2), (2, 4)] : List (Nat × Nat)).filter (inRange yi)).length = 1) :=
  have h := FFComputer_frame (fun xk yi => (xk : ℚ) + 2 * yi) 1 (1, 3) [9, 9, 9, 9]
    [(0, 2), (2, 4)] 4 (by decide) (by decide) disjoint_two_halves cover_two_halves
  ⟨disjoint_two_halves, cover_two_halves, by decide!, h.1,
    (h.2.2.2.1 [(2, 4), (0, 2)] (List.Perm.swap _ _ _)).2.1, h.2.2.2.2⟩

/-! ## C22 -/

/-- C22, as stated, fails: over the kernel `fker(a, b) = a * b` the object
`a = 0` has `fker(a, a) = 0`, the test `(k1 + k2) == 0.0` of line 53 holds and
the loss of `a` against itself is `1`. -/
theorem kernelLoss_self_counterexample :
    (fun a b : ℚ => a * b) 0 0 = 0 ∧
    CKernelLoss_call (fun a b : ℚ => a * b) 0 0 = 1 ∧
    ¬ (∀ (fker : ℚ → ℚ → ℚ) (a : ℚ), CKernelLoss_call fker a a = 0) := by
  refine ⟨by norm_num, by simp [CKernelLoss_call], ?_⟩
  intro h
  have h1 := h (fun a b => a * b) 0
  simp [CKernelLoss_call] at h1

/-- C22, amended. For every object `a`, `CIdentityLoss` gives `loss(a, a) = 0`;
`CKernelLoss` over a kernel function `fker` gives `loss(a, a) = 0` when
`fker(a, a) ≠ 0` and `loss(a, a) = 1` when `fker(a, a) = 0`. -/
theorem loss_self {T : Type} [DecidableEq T] (fker : T → T → ℚ) (a : T) :
    CIdentityLoss_call a a = 0 ∧
    (fker a a ≠ 0 → CKernelLoss_call fker a a = 0) ∧
    (fker a a = 0 → CKernelLoss_call fker a a = 1) := by
  refine ⟨?_, ?_, ?_⟩
  · unfold CIdentityLoss_call
    rw [if_pos rfl]
  · intro hk
    unfold CKernelLoss_call
    dsimp only
    have h2 : fker a a + fker a a ≠ 0 := by
      intro h
      apply hk
      linarith
    rw [if_neg h2]
    field_simp
    ring
  · intro hk
    unfold CKernelLoss_call
    dsimp only
    rw [hk, add_zero, if_pos rfl]

/-- C22, witness: the kernel `fker(a, b) = a * b` at the object `a = 3`, where
`fker(a, a) = 9`. -/
theorem loss_self_witness :
    (fun a b : ℚ => a * b) 3 3 ≠ 0 ∧
    CIdentityLoss_call (3 : ℚ) 3 = 0 ∧
    CKernelLoss_call (fun a b : ℚ => a * b) 3 3 = 0 :=
  ⟨by norm_num, (loss_self (fun a b : ℚ => a * b) 3).1,
    (loss_self (fun a b : ℚ => a * b) 3).2.1 (by norm_num)⟩

/-! ## `setValue` and `getValue` of `CSparseSample` -/

theorem setValue_nil (key : Nat) (val : ℚ) :
    setValue [] key val = if val = 0 then [] else [(key, val)] := by
  unfold setValue
  simp [seekKey]

theorem setValue_cons_lt (p : Nat × ℚ) (rest : List (Nat × ℚ)) (key : Nat) (val : ℚ)
    (h : p.1 < key) : setValue (p :: rest) key val = p :: setValue rest key val := by
  unfold setValue
  simp only [seekKey, if_pos h, List.get?_cons_succ, List.take_succ_cons, List.drop_succ_cons,
    List.eraseIdx_cons_succ, List.set_cons_succ]
  cases rest.get? (seekKey rest key) with
  | none =>
    dsimp only
    split_ifs <;> simp
  | some q =>
    dsimp only
    split_ifs <;> simp

theorem setValue_cons_gt (p : Nat × ℚ) (rest : List (Nat × ℚ)) (key : Nat) (val : ℚ)
    (h : key < p.1) :
    setValue (p :: rest) key val = if val = 0 then p :: rest else (key, val) :: p :: rest := by
  unfold setValue
  have h1 : ¬ p.1 < key := by omega
  simp only [seekKey, if_neg h1, List.get?_cons_zero]
  rw [if_pos h]
  split_ifs <;> simp

theorem setValue_cons_eq (p : Nat × ℚ) (rest : List (Nat × ℚ)) (key : Nat) (val : ℚ)
    (h : p.1 = key) :
    setValue (p :: rest) key val = if val = 0 then rest else (key, val) :: rest := by
  unfold setValue
  have h1 : ¬ p.1 < key := by omega
  have h2 : ¬ p.1 > key := by omega
  simp only [seekKey, if_neg h1, List.get?_cons_zero]
  rw [if_neg h2]
  split_ifs
  · simp
  · simp [h]

theorem mem_setValue (content : List (Nat × ℚ)) (key : Nat) (val : ℚ) (q : Nat × ℚ)
    (hq : q ∈ setValue content key val) : q ∈ content ∨ (q = (key, val) ∧ val ≠ 0) := by
  induction content with
  | nil =>
    rw [setValue_nil] at hq
    split_ifs at hq with hv
    · simp at hq
    · right
      exact ⟨by simpa using hq, hv⟩
  | cons p rest ih =>
    rcases Nat.lt_trichotomy p.1 key with h | h | h
    · rw [setValue_cons_lt p rest key val h] at hq
      rcases List.mem_cons.mp hq with e | hq1
      · left; rw [e]; exact List.mem_cons_self _ _
      · rcases ih hq1 with h1 | h1
        · left; exact List.mem_cons_of_mem _ h1
        · right; exact h1
    · rw [setValue_cons_eq p rest key val h] at hq
      split_ifs at hq with hv
      · left; exact List.mem_cons_of_mem _ hq
      · rcases List.mem_cons.mp hq with e | hq1
        · right; exact ⟨e, hv⟩
        · left; exact List.mem_cons_of_mem _ hq1
    · rw [setValue_cons_gt p rest key val h] at hq
      split_ifs at hq with hv
      · left; exact hq
      · rcases List.mem_cons.mp hq with e | hq1
        · right; exact ⟨e, hv⟩
        · left; exact hq1

theorem setValue_inv (content : List (Nat × ℚ)) (key : Nat) (val : ℚ)
    (hinv : SparseInv content) : SparseInv (setValue content key val) := by
  induction content with
  | nil =>
    rw [setValue_nil]
    split_ifs with hv
    · exact hinv
    · exact ⟨List.pairwise_singleton _ _, fun p hp => by
        simp only [List.mem_singleton] at hp
        rw [hp]; exact hv⟩
  | cons p rest ih =>
    obtain ⟨hs, hz⟩ := hinv
    have hs1 := List.pairwise_cons.mp hs
    have hrest : SparseInv rest := ⟨hs1.2, fun q hq => hz q (List.mem_cons_of_mem _ hq)⟩
    rcases Nat.lt_trichotomy p.1 key with h | h | h
    · rw [setValue_cons_lt p rest key val h]
      obtain ⟨is, iz⟩ := ih hrest
      refine ⟨List.pairwise_cons.mpr ⟨?_, is⟩, ?_⟩
      · intro q hq
        rcases mem_setValue rest key val q hq with h1 | ⟨h1, _⟩
        · exact hs1.1 q h1
        · rw [h1]; exact h
      · intro q hq
        rcases List.mem_cons.mp hq with e | hq1
        · rw [e]; exact hz p (List.mem_cons_self _ _)
        · exact iz q hq1
    · rw [setValue_cons_eq p rest key val h]
      split_ifs with hv
      · exact hrest
      · refine ⟨List.pairwise_cons.mpr ⟨?_, hs1.2⟩, ?_⟩
        · intro q hq
          have := hs1.1 q hq
          rw [h] at this
          exact this
        · intro q hq
          rcases List.mem_cons.mp hq with e | hq1
          · rw [e]; exact hv
          · exact hz q (List.mem_cons_of_mem _ hq1)
    · rw [setValue_cons_gt p rest key val h]
      split_ifs with hv
      · exact ⟨hs, hz⟩
      · refine ⟨List.pairwise_cons.mpr ⟨?_, hs⟩, ?_⟩
        · intro q hq
          rcases List.mem_cons.mp hq with e | hq1
          · rw [e]; exact h
          · exact lt_trans h (hs1.1 q hq1)
        · intro q hq
          rcases List.mem_cons.mp hq with e | hq1
          · rw [e]; exact hv
          · exact hz q hq1

theorem getValue_above (content : List (Nat × ℚ)) (key : Nat)
    (h : ∀ q, q ∈ content → key < q.1) : getValue content key = 0 := by
  cases content with
  | nil => rfl
  | cons p rest =>
    unfold getValue
    rw [if_pos (h p (List.mem_cons_self _ _))]

theorem getValue_setValue_same (content : List (Nat × ℚ)) (key : Nat) (val : ℚ)
    (hs : content.Pairwise (fun p q => p.1 < q.1)) :
    getValue (setValue content key val) key = val := by
  induction content with
  | nil =>
    rw [setValue_nil]
    split_ifs with hv
    · rw [hv]; rfl
    · simp [getValue]
  | cons p rest ih =>
    have hs1 := List.pairwise_cons.mp hs
    rcases Nat.lt_trichotomy p.1 key with h | h | h
    · rw [setValue_cons_lt p rest key val h]
      unfold getValue
      rw [if_neg (by omega), if_neg (by omega)]
      exact ih hs1.2
    · rw [setValue_cons_eq p rest key val h]
      split_ifs with hv
      · rw [hv]
        exact getValue_above rest key (fun q hq => by rw [← h]; exact hs1.1 q hq)
      · simp [getValue]
    · rw [setValue_cons_gt p rest key val h]
      split_ifs with hv
      · rw [hv]
        unfold getValue
        rw [if_pos h]
      · simp [getValue]

theorem getValue_setValue_other (content : List (Nat × ℚ)) (key k : Nat) (val : ℚ)
    (hs : content.Pairwise (fun p q => p.1 < q.1)) (hk : k ≠ key) :
    getValue (setValue content key val) k = getValue content k := by
  induction content with
  | nil =>
    rw [setValue_nil]
    split_ifs with hv
    · rfl
    · unfold getValue
      dsimp only
      by_cases h1 : key > k
      · rw [if_pos h1]
      · rw [if_neg h1, if_neg (Ne.symm hk)]
        rfl
  | cons p rest ih =>
    have hs1 := List.pairwise_cons.mp hs
    rcases Nat.lt_trichotomy p.1 key with h | h | h
    · rw [setValue_cons_lt p rest key val h]
      show (if p.1 > k then 0 else if p.1 = k then p.2 else getValue (setValue rest key val) k)
        = (if p.1 > k then 0 else if p.1 = k then p.2 else getValue rest k)
      rw [ih hs1.2]
    · rw [setValue_cons_eq p rest key val h]
      have hpk : p.1 ≠ k := by omega
      show _ = (if p.1 > k then 0 else if p.1 = k then p.2 else getValue rest k)
      rw [if_neg hpk]
      split_ifs with hv h1 h1
      · exact getValue_above rest k (fun q hq => lt_trans h1 (hs1.1 q hq))
      · rfl
      · show (if key > k then 0 else if key = k then val else getValue rest k) = 0
        rw [if_pos (by omega)]
      · show (if key > k then 0 else if key = k then val else getValue rest k) = getValue rest k
        rw [if_neg (by omega), if_neg (by omega)]
    · rw [setValue_cons_gt p rest key val h]
      split_ifs with hv
      · rfl
      · show (if key > k then 0 else if key = k then val else getValue (p :: rest) k)
          = getValue (p :: rest) k
        by_cases h1 : key > k
        · rw [if_pos h1]
          unfold getValue
          rw [if_pos (by omega)]
        · rw [if_neg h1, if_neg (by omega)]

/-! ## C23 -/

/-- C23. `setValue(key, val)` keeps the class invariant: when the content has
strictly increasing keys and no zero value before the call, it has so after
the call; afterwards `getValue(key) = val`, and `getValue(k)` is what it was
for every `k ≠ key`. -/
theorem setValue_keeps_invariant (content : List (Nat × ℚ)) (key : Nat) (val : ℚ)
    (hinv : SparseInv content) :
    SparseInv (setValue content key val) ∧
    getValue (setValue content key val) key = val ∧
    ∀ k, k ≠ key → getValue (setValue content key val) k = getValue content k :=
  ⟨setValue_inv content key val hinv, getValue_setValue_same content key val hinv.1,
    fun k hk => getValue_setValue_other content key k val hinv.1 hk⟩

/-- C23, witness: the content `[(1, 2), (4, 5)]`, `key = 3` and `val = 7`;
the new content is `[(1, 2), (3, 7), (4, 5)]`. -/
theorem setValue_keeps_invariant_witness :
    SparseInv [(1, 2), (4, 5)] ∧
    setValue [(1, 2), (4, 5)] 3 7 = [(1, 2), (3, 7), (4, 5)] ∧
    SparseInv (setValue [(1, 2), (4, 5)] 3 7) ∧
    getValue (setValue [(1, 2), (4, 5)] 3 7) 3 = 7 ∧
    ∀ k, k ≠ 3 → getValue (setValue [(1, 2), (4, 5)] 3 7) k = getValue [(1, 2), (4, 5)] k :=
  have hinv : SparseInv [(1, 2), (4, 5)] := by
    constructor
    · simp
    · intro p hp
      simp only [List.mem_cons, List.mem_singleton, List.not_mem_nil, or_false] at hp
      rcases hp with e | e <;> rw [e] <;> norm_num
  ⟨hinv, by decide!, setValue_keeps_invariant [(1, 2), (4, 5)] 3 7 hinv⟩

/-! ## The merge loop of `operator+=` -/

theorem getD_key_le (a : List (Nat × ℚ)) (i : Nat) (hi : i < a.length)
    (hk : ∀ p, p ∈ a → p.1 ≤ UINT_MAX) : (a.getD i (0, 0)).1 ≤ UINT_MAX := by
  apply hk
  rw [List.getD_eq_getElem _ _ hi]
  exact List.getElem_mem _

/-- With keys in the range of `unsigned int`, every round of the merge loop
moves `ia` or `ib` forward inside its vector, and the loop is over after at
most `na + nb` rounds. -/
theorem addLoop_done (a b : List (Nat × ℚ)) (hka : ∀ p, p ∈ a → p.1 ≤ UINT_MAX)
    (hkb : ∀ p, p ∈ b → p.1 ≤ UINT_MAX) (fuel : Nat) :
    ∀ st : AddState, (a.length - st.ia) + (b.length - st.ib) ≤ fuel →
      ¬ ((addLoop a b fuel st).ia < a.length ∨ (addLoop a b fuel st).ib < b.length) := by
  induction fuel with
  | zero =>
    intro st hm
    show ¬ (st.ia < a.length ∨ st.ib < b.length)
    omega
  | succ fuel ih =>
    intro st hm
    show ¬ ((if st.ia < a.length ∨ st.ib < b.length then addLoop a b fuel (addStep a b st)
        else st).ia < a.length ∨
      (if st.ia < a.length ∨ st.ib < b.length then addLoop a b fuel (addStep a b st)
        else st).ib < b.length)
    by_cases hc : st.ia < a.length ∨ st.ib < b.length
    · rw [if_pos hc]
      apply ih
      unfold addStep
      dsimp only
      by_cases ha : st.ia < a.length
      · have ka := getD_key_le a st.ia ha hka
        by_cases hb : st.ib < b.length
        · have kb := getD_key_le b st.ib hb hkb
          rw [if_pos ha, if_pos hb]
          split_ifs <;> dsimp only <;> omega
        · rw [if_pos ha, if_neg hb]
          split_ifs <;> dsimp only <;> omega
      · have hb : st.ib < b.length := by omega
        have kb := getD_key_le b st.ib hb hkb
        rw [if_neg ha, if_pos hb]
        split_ifs <;> dsimp only <;> omega
    · rw [if_neg hc]
      exact hc

/-! ## C24 -/

/-- C24, the failing input: the left operand `[(1, 2), (3, 1)]` and the right
operand `[(3, -1), (5, 4)]` both have strictly increasing keys and no zero
value.  The merge loop ends after three rounds with `ia = na` and `ib = nb`,
and the new content `[(1, 2), (3, 0), (5, 4)]` of the left operand holds the
zero value `1 + (-1)` under the key `3`. -/
theorem operatorAddAssign_stores_zero :
    SparseInv [(1, 2), (3, 1)] ∧ SparseInv [(3, -1), (5, 4)] ∧
    addLoop [(1, 2), (3, 1)] [(3, -1), (5, 4)] 4 { ia := 0, ib := 0, res := [] }
      = { ia := 2, ib := 2, res := [(1, 2), (3, 0), (5, 4)] } ∧
    operatorAddAssign [(1, 2), (3, 1)] [(3, -1), (5, 4)] = [(1, 2), (3, 0), (5, 4)] ∧
    ¬ SparseInv (operatorAddAssign [(1, 2), (3, 1)] [(3, -1), (5, 4)]) := by
  have hres : operatorAddAssign [(1, 2), (3, 1)] [(3, -1), (5, 4)]
      = [(1, 2), (3, 0), (5, 4)] := by decide!
  refine ⟨?_, ?_, by decide!, hres, ?_⟩
  · constructor
    · simp
    · intro p hp
      simp only [List.mem_cons, List.mem_singleton, List.not_mem_nil, or_false] at hp
      rcases hp with e | e <;> rw [e] <;> norm_num
  · constructor
    · simp
    · intro p hp
      simp only [List.mem_cons, List.mem_singleton, List.not_mem_nil, or_false] at hp
      rcases hp with e | e <;> rw [e] <;> norm_num
  · rw [hres]
    intro h
    exact h.2 (3, 0) (by simp) rfl

/-! ## Optimality at a point without a violating index -/

theorem isSymm_of_boxChecks (Q b : List ℚ) (h : boxChecks Q b = Except.ok ()) :
    dimMismatch Q b ≠ true ∧ (∀ i, i < b.length → rd Q (i * b.length + i) ≠ 0) ∧
      IsSymm Q b.length := by
  have hnf : ¬ BoxFault Q b := by
    intro hf
    rw [(boxChecks_eq Q b).1 hf] at h
    cases h
  unfold BoxFault at hnf
  push_neg at hnf
  exact ⟨hnf.1, hnf.2.1, fun i j hi hj => hnf.2.2 i hi j hj⟩

/-- A point of the box at which every coordinate with a positive gradient is
at `C` and every coordinate with a negative gradient is at `0` maximizes the
objective over the box, when `Q` is symmetric positive semi-definite. -/
theorem kkt_box_optimal (Q b x z : List ℚ) (n : Nat) (C : ℚ)
    (hs : IsSymm Q n) (hp : IsPosSemidef Q n)
    (hkkt : ∀ i, i < n → (gradAt Q b x n i > 0 → rd x i = C) ∧ (gradAt Q b x n i < 0 → rd x i = 0))
    (hz : ∀ i, i < n → 0 ≤ rd z i ∧ rd z i ≤ C) :
    objective Q b n z ≤ objective Q b n x := by
  rw [objective_eq, objective_eq,
    quad_compare (fun i j => rd Q (i * n + j)) (rd b) (rd x) (rd z) n hs]
  have hpsd := hp (fun i => rd z i - rd x i)
  unfold quadForm at hpsd
  have hlin : ∑ i in Finset.range n,
        (rd b i - ∑ j in Finset.range n, rd Q (i * n + j) * rd x j) * (rd z i - rd x i) ≤ 0 := by
    apply Finset.sum_nonpos
    intro i hi
    simp only [Finset.mem_range] at hi
    obtain ⟨k1, k2⟩ := hkkt i hi
    obtain ⟨z1, z2⟩ := hz i hi
    unfold gradAt at k1 k2
    rcases lt_trichotomy (rd b i - ∑ j in Finset.range n, rd Q (i * n + j) * rd x j) 0
      with hneg | hzero | hpos
    · rw [k2 hneg]
      exact mul_nonpos_of_nonpos_of_nonneg (le_of_lt hneg) (by linarith)
    · rw [hzero, zero_mul]
    · rw [k1 hpos]
      exact mul_nonpos_of_nonneg_of_nonpos (le_of_lt hpos) (by linarith)
  linarith

/-! ## C25 -/

/-- On a run that divides by no zero, with `C ≥ 0`: when the loop of
`quadOptBox` is left because `pickVars` reports no violating index, the
returned `x` lies in the box and, with `g = b - Q x`, every `i` has `x_i = C`
if `g_i > 0` and `x_i = 0` if `g_i < 0`; if moreover `Q` is positive
semi-definite, `x` maximizes `-1/2 zᵀQz + bᵀz` over the box `[0, C]^n`. -/
theorem natural_exit_optimal (Q b : List ℚ) (C eps : ℚ) (nSteps : Nat)
    (x : List ℚ) (hC : 0 ≤ C)
    (h : quadOptBoxTrace Q b C eps nSteps = Except.ok (x, BoxExit.noViolation)) :
    boxChecks Q b = Except.ok () ∧
    quadOptBox Q b C eps nSteps = Except.ok x ∧
    x.length = b.length ∧ InBox x C ∧
    (∀ i, i < b.length →
      (gradAt Q b x b.length i > 0 → rd x i = C) ∧
      (gradAt Q b x b.length i < 0 → rd x i = 0)) ∧
    (IsPosSemidef Q b.length → ∀ z : List ℚ, z.length = b.length → InBox z C →
      objective Q b b.length z ≤ objective Q b b.length x) := by
  have hq : quadOptBox Q b C eps nSteps = Except.ok x := by
    unfold quadOptBox; rw [h]
  unfold quadOptBoxTrace at h
  cases hc : boxChecks Q b with
  | error e => rw [hc] at h; simp at h
  | ok u =>
    rw [hc] at h
    dsimp only at h
    obtain ⟨g1, g2, g3⟩ :=
      (boxLoop_spec Q b C eps b.length nSteps (List.replicate b.length 0)).2 x _ h
    have hlen : x.length = b.length := by simpa using g1
    have hbox : InBox x C := by
      apply g2 hC
      intro k hk
      simp only [List.length_replicate] at hk
      rw [rd_replicate, if_pos hk]
      exact ⟨le_rfl, hC⟩
    have hkkt : ∀ i, i < b.length →
        (gradAt Q b x b.length i > 0 → rd x i = C) ∧
        (gradAt Q b x b.length i < 0 → rd x i = 0) := by
      intro i hi
      have he := pickVars_none Q b x C (g3 rfl) i hi
      simp only [eligible, Bool.or_eq_false_iff, Bool.and_eq_false_iff,
        decide_eq_false_iff_not] at he
      obtain ⟨b1, b2⟩ := hbox i (by rw [hlen]; exact hi)
      constructor
      · intro hpos
        rcases he.1 with h3 | h3
        · exact absurd hpos h3
        · exact le_antisymm b2 (not_lt.mp h3)
      · intro hneg
        rcases he.2 with h3 | h3
        · exact absurd hneg h3
        · exact le_antisymm (not_lt.mp h3) b1
    refine ⟨rfl, hq, hlen, hbox, hkkt, ?_⟩
    intro hp z hzl hzb
    exact kkt_box_optimal Q b x z b.length C (isSymm_of_boxChecks Q b hc).2.2 hp hkkt
      (fun i hi => hzb i (by rw [hzl]; exact hi))

theorem isPosSemidef_ones_two : IsPosSemidef [1, 1, 1, 1] 2 := by
  intro v
  rw [quadForm_two]
  nlinarith [sq_nonneg (v 0 + v 1)]

/-- C25, the failing input: `Q = [[1,1],[1,1]]`, `b = [1,1]`, `C = 1`,
`eps = 1/10`, `nSteps = 2`.  `Q` is symmetric positive semi-definite,
`vᵀQv = (v_0 + v_1)^2`, and passes the three checks.  The first round updates
the pair `(1, 0)` and divides `0` by `q_ij*q_ij - q_ii*q_jj = 0`; the source
goes on with a NaN in both coordinates, and in its second round no comparison
of `pickVars` holds of a NaN, so that the loop is left as if no index
violated.  The embedding stops at the division.  The point `[1/2, 1/2]` of the
box has the objective `1/2`. -/
theorem quadOptBox_psd_singular_exit :
    boxChecks [1, 1, 1, 1] [1, 1] = Except.ok () ∧
    IsSymm [1, 1, 1, 1] 2 ∧ IsPosSemidef [1, 1, 1, 1] 2 ∧
    pickVars [1, 1, 1, 1] [1, 1] [0, 0] 1 = (1, 0) ∧
    quadOptBoxTrace [1, 1, 1, 1] [1, 1] 1 (1 / 10) 2 = Except.error Err.divZero ∧
    quadOptBox [1, 1, 1, 1] [1, 1] 1 (1 / 10) 2 = Except.error Err.divZero ∧
    InBox [1 / 2, 1 / 2] 1 ∧
    objective [1, 1, 1, 1] [1, 1] 2 [1 / 2, 1 / 2] = 1 / 2 := by
  refine ⟨by decide!, isSymm_two 1 1 1, isPosSemidef_ones_two, by decide!, by decide!,
    by decide!, ?_, by decide!⟩
  intro k hk
  have hk2 : k < 2 := hk
  interval_cases k <;> exact ⟨by decide!, by decide!⟩

/-! ## The selection loop of `pickVars` in full -/

theorem pickStep_skip (g x : List ℚ) (C : ℚ) (i : Nat) (st : PickState)
    (he : eligible (rd g i) (rd x i) C = false) : pickStep g x C i st = st := by
  unfold pickStep
  simp [he]

theorem pickStep_take (g x : List ℚ) (C : ℚ) (i : Nat) (st : PickState)
    (he : eligible (rd g i) (rd x i) C = true) :
    pickStep g x C i st
      = { xmax := if aboveMax (rd g i) st.gmax = true then (i : Int) else st.xmax,
          gmax := if aboveMax (rd g i) st.gmax = true then some (rd g i) else st.gmax,
          xmin := if notAboveMin (rd g i) st.gmin = true then (i : Int) else st.xmin,
          gmin := if notAboveMin (rd g i) st.gmin = true then some (rd g i) else st.gmin } := by
  unfold pickStep
  simp only [he, if_true]
  by_cases h1 : aboveMax (rd g i) st.gmax = true <;> by_cases h2 : notAboveMin (rd g i) st.gmin = true
    <;> simp [h1, h2]

/-- The selection loop after `k` rounds: either no index below `k` passes the
test and the four locals have their initial values, or `xmax` is the first
index with the largest and `xmin` the last index with the smallest gradient
among the indices below `k` that pass the test. -/
theorem pickLoop_spec (g x : List ℚ) (C : ℚ) (k : Nat) :
    ((∀ a, a < k → eligible (rd g a) (rd x a) C = false) ∧
      forUp (pickStep g x C) k { xmax := -1, gmax := none, xmin := -1, gmin := none }
        = { xmax := -1, gmax := none, xmin := -1, gmin := none }) ∨
    ∃ imax imin, imax < k ∧ imin < k ∧
      forUp (pickStep g x C) k { xmax := -1, gmax := none, xmin := -1, gmin := none }
        = { xmax := (imax : Int), gmax := some (rd g imax),
            xmin := (imin : Int), gmin := some (rd g imin) } ∧
      eligible (rd g imax) (rd x imax) C = true ∧ eligible (rd g imin) (rd x imin) C = true ∧
      (∀ a, a < k → eligible (rd g a) (rd x a) C = true → rd g a ≤ rd g imax) ∧
      (∀ a, a < imax → eligible (rd g a) (rd x a) C = true → rd g a < rd g imax) ∧
      (∀ a, a < k → eligible (rd g a) (rd x a) C = true → rd g imin ≤ rd g a) ∧
      (∀ a, imin < a → a < k → eligible (rd g a) (rd x a) C = true → rd g imin < rd g a) := by
  induction k with
  | zero =>
    left
    exact ⟨fun a ha => absurd ha (Nat.not_lt_zero _), rfl⟩
  | succ k ih =>
    rw [forUp_succ]
    by_cases he : eligible (rd g k) (rd x k) C = true
    · right
      rcases ih with ⟨hnone, hst⟩ | ⟨imax, imin, hmax, hmin, hst, emax, emin, h1, h2, h3, h4⟩
      · rw [hst, pickStep_take g x C k _ he]
        refine ⟨k, k, Nat.lt_succ_self k, Nat.lt_succ_self k, by simp [aboveMax, notAboveMin],
          he, he, ?_, ?_, ?_, ?_⟩
        · intro a ha hea
          rcases Nat.lt_succ_iff_lt_or_eq.mp ha with h | h
          · rw [hnone a h] at hea; cases hea
          · rw [h]
        · intro a ha hea
          rw [hnone a ha] at hea; cases hea
        · intro a ha hea
          rcases Nat.lt_succ_iff_lt_or_eq.mp ha with h | h
          · rw [hnone a h] at hea; cases hea
          · rw [h]
        · intro a h5 h6 _
          omega
      · rw [hst, pickStep_take g x C k _ he]
        dsimp only
        by_cases hgt : rd g k > rd g imax
        · by_cases hle : rd g k ≤ rd g imin
          · refine ⟨k, k, Nat.lt_succ_self k, Nat.lt_succ_self k, by simp [aboveMax, notAboveMin, hgt, hle],
              he, he, ?_, ?_, ?_, ?_⟩
            · intro a ha hea
              rcases Nat.lt_succ_iff_lt_or_eq.mp ha with h | h
              · exact le_of_lt (lt_of_le_of_lt (h1 a h hea) hgt)
              · rw [h]
            · intro a ha hea
              exact lt_of_le_of_lt (h1 a ha hea) hgt
            · intro a ha hea
              rcases Nat.lt_succ_iff_lt_or_eq.mp ha with h | h
              · exact le_trans hle (h3 a h hea)
              · rw [h]
            · intro a h5 h6 _
              omega
          · refine ⟨k, imin, Nat.lt_succ_self k, by omega, by simp [aboveMax, notAboveMin, hgt, hle],
              he, emin, ?_, ?_, ?_, ?_⟩
            · intro a ha hea
              rcases Nat.lt_succ_iff_lt_or_eq.mp ha with h | h
              · exact le_of_lt (lt_of_le_of_lt (h1 a h hea) hgt)
              · rw [h]
            · intro a ha hea
              exact lt_of_le_of_lt (h1 a ha hea) hgt
            · intro a ha hea
              rcases Nat.lt_succ_iff_lt_or_eq.mp ha with h | h
              · exact h3 a h hea
              · rw [h]; exact le_of_lt (not_le.mp hle)
            · intro a h5 h6 hea
              rcases Nat.lt_succ_iff_lt_or_eq.mp h6 with h | h
              · exact h4 a h5 h hea
              · rw [h]; exact not_le.mp hle
        · by_cases hle : rd g k ≤ rd g imin
          · refine ⟨imax, k, by omega, Nat.lt_succ_self k, by simp [aboveMax, notAboveMin, hgt, hle],
              emax, he, ?_, h2, ?_, ?_⟩
            · intro a ha hea
              rcases Nat.lt_succ_iff_lt_or_eq.mp ha with h | h
              · exact h1 a h hea
              · rw [h]; exact not_lt.mp hgt
            · intro a ha hea
              rcases Nat.lt_succ_iff_lt_or_eq.mp ha with h | h
              · exact le_trans hle (h3 a h hea)
              · rw [h]
            · intro a h5 h6 _
              omega
          · refine ⟨imax, imin, by omega, by omega, by simp [aboveMax, notAboveMin, hgt, hle],
              emax, emin, ?_, h2, ?_, ?_⟩
            · intro a ha hea
              rcases Nat.lt_succ_iff_lt_or_eq.mp ha with h | h
              · exact h1 a h hea
              · rw [h]; exact not_lt.mp hgt
            · intro a ha hea
              rcases Nat.lt_succ_iff_lt_or_eq.mp ha with h | h
              · exact h3 a h hea
              · rw [h]; exact le_of_lt (not_le.mp hle)
            · intro a h5 h6 hea
              rcases Nat.lt_succ_iff_lt_or_eq.mp h6 with h | h
              · exact h4 a h5 h hea
              · rw [h]; exact not_le.mp hle
    · have he2 : eligible (rd g k) (rd x k) C = false := by simpa using he
      rw [pickStep_skip g x C k _ he2]
      rcases ih with ⟨hnone, hst⟩ | ⟨imax, imin, hmax, hmin, hst, emax, emin, h1, h2, h3, h4⟩
      · left
        refine ⟨?_, hst⟩
        intro a ha
        rcases Nat.lt_succ_iff_lt_or_eq.mp ha with h | h
        · exact hnone a h
        · rw [h]; exact he2
      · right
        refine ⟨imax, imin, by omega, by omega, hst, emax, emin, ?_, h2, ?_, ?_⟩
        · intro a ha hea
          rcases Nat.lt_succ_iff_lt_or_eq.mp ha with h | h
          · exact h1 a h hea
          · rw [h] at hea; rw [he2] at hea; cases hea
        · intro a ha hea
          rcases Nat.lt_succ_iff_lt_or_eq.mp ha with h | h
          · exact h3 a h hea
          · rw [h] at hea; rw [he2] at hea; cases hea
        · intro a h5 h6 hea
          rcases Nat.lt_succ_iff_lt_or_eq.mp h6 with h | h
          · exact h4 a h5 h hea
          · rw [h] at hea; rw [he2] at hea; cases hea

theorem pickVars_eq (Q b x : List ℚ) (C : ℚ) :
    pickVars Q b x C
      = ((pickLocals Q b x C).xmin,
          if (pickLocals Q b x C).xmin = (pickLocals Q b x C).xmax then -1
          else (pickLocals Q b x C).xmax) := rfl

/-- The locals of `pickVars` after the selection loop, in terms of the
gradient `b - Q x`. -/
theorem pickLocals_spec (Q b x : List ℚ) (C : ℚ) :
    ((∀ i, i < b.length → ¬ Elig Q b x C i) ∧
      pickLocals Q b x C = { xmax := -1, gmax := none, xmin := -1, gmin := none }) ∨
    ∃ imax imin, imax < b.length ∧ imin < b.length ∧
      (pickLocals Q b x C).xmax = (imax : Int) ∧ (pickLocals Q b x C).xmin = (imin : Int) ∧
      Elig Q b x C imax ∧ Elig Q b x C imin ∧
      (∀ a, a < b.length → Elig Q b x C a →
        gradAt Q b x b.length a ≤ gradAt Q b x b.length imax) ∧
      (∀ a, a < imax → Elig Q b x C a →
        gradAt Q b x b.length a < gradAt Q b x b.length imax) ∧
      (∀ a, a < b.length → Elig Q b x C a →
        gradAt Q b x b.length imin ≤ gradAt Q b x b.length a) ∧
      (∀ a, imin < a → a < b.length → Elig Q b x C a →
        gradAt Q b x b.length imin < gradAt Q b x b.length a) := by
  have hg := (gradient_spec Q b x b.length).2
  have helig : ∀ a, a < b.length →
      (eligible (rd (gradient Q b x b.length) a) (rd x a) C = true ↔ Elig Q b x C a) := by
    intro a ha
    unfold Elig
    rw [hg a ha]
  rcases pickLoop_spec (gradient Q b x b.length) x C b.length with
    ⟨hnone, hst⟩ | ⟨imax, imin, hmax, hmin, hst, emax, emin, h1, h2, h3, h4⟩
  · left
    refine ⟨?_, hst⟩
    intro i hi he
    have := (helig i hi).mpr he
    rw [hnone i hi] at this
    cases this
  · right
    refine ⟨imax, imin, hmax, hmin, ?_, ?_, (helig imax hmax).mp emax, (helig imin hmin).mp emin,
      ?_, ?_, ?_, ?_⟩
    · show (forUp (pickStep (gradient Q b x b.length) x C) b.length
        { xmax := -1, gmax := none, xmin := -1, gmin := none }).xmax = _
      rw [hst]
    · show (forUp (pickStep (gradient Q b x b.length) x C) b.length
        { xmax := -1, gmax := none, xmin := -1, gmin := none }).xmin = _
      rw [hst]
    · intro a ha hea
      rw [← hg a ha, ← hg imax hmax]
      exact h1 a ha ((helig a ha).mpr hea)
    · intro a ha hea
      rw [← hg a (by omega), ← hg imax hmax]
      exact h2 a ha ((helig a (by omega)).mpr hea)
    · intro a ha hea
      rw [← hg a ha, ← hg imin hmin]
      exact h3 a ha ((helig a ha).mpr hea)
    · intro a h5 h6 hea
      rw [← hg a h6, ← hg imin hmin]
      exact h4 a h5 h6 ((helig a h6).mpr hea)

/-- The three shapes of the result of `pickVars`. -/
theorem pickVars_cases (Q b x : List ℚ) (C : ℚ) :
    ((∀ i, i < b.length → ¬ Elig Q b x C i) ∧ pickVars Q b x C = (-1, -1)) ∨
    (∃ i, i < b.length ∧ Elig Q b x C i ∧ (∀ j, j < b.length → Elig Q b x C j → j = i) ∧
      pickVars Q b x C = ((i : Int), -1)) ∨
    (∃ imin imax, imin < b.length ∧ imax < b.length ∧ imin ≠ imax ∧
      pickVars Q b x C = ((imin : Int), (imax : Int)) ∧
      Elig Q b x C imin ∧ Elig Q b x C imax ∧
      (∀ a, a < b.length → Elig Q b x C a →
        gradAt Q b x b.length imin ≤ gradAt Q b x b.length a ∧
        gradAt Q b x b.length a ≤ gradAt Q b x b.length imax)) := by
  rcases pickLocals_spec Q b x C with
    ⟨hnone, hst⟩ | ⟨imax, imin, hmax, hmin, hxmax, hxmin, emax, emin, h1, h2, h3, h4⟩
  · left
    refine ⟨hnone, ?_⟩
    rw [pickVars_eq, hst]
    rfl
  · right
    by_cases heq : imin = imax
    · left
      subst heq
      refine ⟨imin, hmin, emin, ?_, ?_⟩
      · intro j hj hej
        have e1 := h1 j hj hej
        have e3 := h3 j hj hej
        rcases Nat.lt_trichotomy j imin with h | h | h
        · have := h2 j h hej
          linarith
        · exact h
        · have := h4 j h hj hej
          linarith
      · rw [pickVars_eq, hxmax, hxmin, if_pos rfl]
    · right
      refine ⟨imin, imax, hmin, hmax, heq, ?_, emin, emax, fun a ha hea => ⟨h3 a ha hea, h1 a ha hea⟩⟩
      rw [pickVars_eq, hxmax, hxmin, if_neg]
      intro h
      exact heq (Int.ofNat.inj h)

/-- Every index is eligible for `Q = diag(4,4,4)`, `b = [4,4,4]` at `x = 0`. -/
theorem elig_diag_three (i : Nat) (hi : i < 3) :
    Elig [4, 0, 0, 0, 4, 0, 0, 0, 4] [4, 4, 4] [0, 0, 0] 10 i := by
  unfold Elig
  interval_cases i <;> simp [eligible, gradAt, Finset.sum_range_succ, rd]

/-! ## C26 -/

/-- C26. With `g = b - Q x` and an index called eligible when `g_i > 0` and
`x_i < C`, or `g_i < 0` and `x_i > 0`: `pickVars` returns `(-1, -1)` exactly
when no index is eligible; it returns `(i, -1)` exactly when `i` is the only
eligible index; and when two different indices are eligible it returns a
pair `(xmin, xmax)` of eligible indices, `g[xmin]` being the smallest and
`g[xmax]` the largest gradient of an eligible index. -/
theorem pickVars_maximal_pair (Q b x : List ℚ) (C : ℚ) :
    (∀ i, Elig Q b x C i ↔
      (gradAt Q b x b.length i > 0 ∧ rd x i < C) ∨ (gradAt Q b x b.length i < 0 ∧ rd x i > 0)) ∧
    (pickVars Q b x C = (-1, -1) ↔ ∀ i, i < b.length → ¬ Elig Q b x C i) ∧
    (∀ i : Nat, pickVars Q b x C = ((i : Int), -1) ↔
      (i < b.length ∧ Elig Q b x C i ∧ ∀ j, j < b.length → Elig Q b x C j → j = i)) ∧
    ((∃ i j, i < b.length ∧ j < b.length ∧ i ≠ j ∧ Elig Q b x C i ∧ Elig Q b x C j) →
      ∃ imin imax, imin < b.length ∧ imax < b.length ∧
        pickVars Q b x C = ((imin : Int), (imax : Int)) ∧
        Elig Q b x C imin ∧ Elig Q b x C imax ∧
        ∀ a, a < b.length → Elig Q b x C a →
          gradAt Q b x b.length imin ≤ gradAt Q b x b.length a ∧
          gradAt Q b x b.length a ≤ gradAt Q b x b.length imax) := by
  refine ⟨?_, ?_, ?_, ?_⟩
  · intro i
    unfold Elig eligible
    simp only [Bool.or_eq_true, Bool.and_eq_true, decide_eq_true_eq]
  · rcases pickVars_cases Q b x C with ⟨hnone, hp⟩ | ⟨i, hi, hei, honly, hp⟩ |
      ⟨imin, imax, hmin, hmax, hne, hp, emin, emax, hext⟩
    · exact ⟨fun _ => hnone, fun _ => hp⟩
    · constructor
      · intro h
        rw [hp] at h
        have := congrArg Prod.fst h
        simp only at this
        omega
      · intro h
        exact absurd hei (h i hi)
    · constructor
      · intro h
        rw [hp] at h
        have := congrArg Prod.fst h
        simp only at this
        omega
      · intro h
        exact absurd emin (h imin hmin)
  · intro i
    rcases pickVars_cases Q b x C with ⟨hnone, hp⟩ | ⟨i0, hi0, hei0, honly, hp⟩ |
      ⟨imin, imax, hmin, hmax, hne, hp, emin, emax, hext⟩
    · constructor
      · intro h
        rw [hp] at h
        have := congrArg Prod.fst h
        simp only at this
        omega
      · rintro ⟨hi, hei, _⟩
        exact absurd hei (hnone i hi)
    · constructor
      · intro h
        rw [hp] at h
        have := congrArg Prod.fst h
        simp only at this
        have e : i0 = i := by omega
        subst e
        exact ⟨hi0, hei0, honly⟩
      · rintro ⟨hi, hei, _⟩
        rw [hp, honly i hi hei]
    · constructor
      · intro h
        rw [hp] at h
        have := congrArg Prod.snd h
        simp only at this
        omega
      · rintro ⟨hi, hei, honly⟩
        exact absurd ((honly imin hmin emin).trans (honly imax hmax emax).symm) hne
  · rintro ⟨i, j, hi, hj, hij, hei, hej⟩
    rcases pickVars_cases Q b x C with ⟨hnone, hp⟩ | ⟨i0, hi0, hei0, honly, hp⟩ |
      ⟨imin, imax, hmin, hmax, hne, hp, emin, emax, hext⟩
    · exact absurd hei (hnone i hi)
    · exact absurd ((honly i hi hei).trans (honly j hj hej).symm) hij
    · exact ⟨imin, imax, hmin, hmax, hp, emin, emax, hext⟩

/-- C26, witness: `Q = diag(4, 4, 4)`, `b = [4, 4, 4]`, `x = [0, 0, 0]` and
`C = 10`; all three indices are eligible with the gradient `4`, and the pair
returned is `(2, 0)`. -/
theorem pickVars_maximal_pair_witness :
    pickVars [4, 0, 0, 0, 4, 0, 0, 0, 4] [4, 4, 4] [0, 0, 0] 10 = (2, 0) ∧
    ∃ imin imax : Nat, imin < 3 ∧ imax < 3 ∧
      pickVars [4, 0, 0, 0, 4, 0, 0, 0, 4] [4, 4, 4] [0, 0, 0] 10
        = ((imin : Int), (imax : Int)) ∧
      Elig [4, 0, 0, 0, 4, 0, 0, 0, 4] [4, 4, 4] [0, 0, 0] 10 imin ∧
      Elig [4, 0, 0, 0, 4, 0, 0, 0, 4] [4, 4, 4] [0, 0, 0] 10 imax ∧
      ∀ a, a < 3 → Elig [4, 0, 0, 0, 4, 0, 0, 0, 4] [4, 4, 4] [0, 0, 0] 10 a →
        gradAt [4, 0, 0, 0, 4, 0, 0, 0, 4] [4, 4, 4] [0, 0, 0] 3 imin
            ≤ gradAt [4, 0, 0, 0, 4, 0, 0, 0, 4] [4, 4, 4] [0, 0, 0] 3 a ∧
        gradAt [4, 0, 0, 0, 4, 0, 0, 0, 4] [4, 4, 4] [0, 0, 0] 3 a
            ≤ gradAt [4, 0, 0, 0, 4, 0, 0, 0, 4] [4, 4, 4] [0, 0, 0] 3 imax :=
  ⟨by decide!,
    (pickVars_maximal_pair [4, 0, 0, 0, 4, 0, 0, 0, 4] [4, 4, 4] [0, 0, 0] 10).2.2.2
      ⟨0, 1, by decide, by decide, by decide, elig_diag_three 0 (by decide),
        elig_diag_three 1 (by decide)⟩⟩

/-! ## C27 -/

/-- C27, the failing input: `Q = [[1,1],[1,1]]`, `b = [1,1]`, `C = 1` passes the
three precondition checks.  At `x = [0,0]` the pair `(1, 0)` is selected, its
off-diagonal entry `q_ij = 1` is not zero and `q_ij*q_ij - q_ii*q_jj = 0`: the
pair update divides by zero and assigns no value that could solve the
system, although `x_i = x_j = 1/2` solves `q_ii x_i + q_ij x_j = rhs_i`,
`q_ij x_i + q_jj x_j = rhs_j` with `rhs_i = rhs_j = 1`. -/
theorem boxPair_singular_block :
    boxChecks [1, 1, 1, 1] [1, 1] = Except.ok () ∧
    pickVars [1, 1, 1, 1] [1, 1] [0, 0] 1 = (1, 0) ∧
    rd [1, 1, 1, 1] (1 * 2 + 0) ≠ 0 ∧
    rd [1, 1, 1, 1] (1 * 2 + 0) * rd [1, 1, 1, 1] (1 * 2 + 0)
      - rd [1, 1, 1, 1] (1 * 2 + 1) * rd [1, 1, 1, 1] (0 * 2 + 0) = 0 ∧
    boxPair [1, 1, 1, 1] [1, 1] [0, 0] 1 (1 / 10) 2 1 0 = Except.error Err.divZero ∧
    boxStep [1, 1, 1, 1] [1, 1] [0, 0] 1 (1 / 10) 2 = Except.error Err.divZero ∧
    rd [1, 1, 1, 1] (1 * 2 + 1) * (1 / 2) + rd [1, 1, 1, 1] (1 * 2 + 0) * (1 / 2) = rd [1, 1] 1 ∧
    rd [1, 1, 1, 1] (1 * 2 + 0) * (1 / 2) + rd [1, 1, 1, 1] (0 * 2 + 0) * (1 / 2) = rd [1, 1] 0 := by
  refine ⟨by decide!, by decide!, by decide!, by decide!, by decide!, by decide!, by decide!,
    by decide!⟩

/-! ## Reading a vector after `insert`, and the first smallest entry -/

theorem rd_insertAt_at (v : List ℚ) (i : Nat) (a : ℚ) (hi : i ≤ v.length) :
    rd (insertAt v i a) i = a := by
  unfold rd insertAt
  rw [List.getD_eq_getElem?_getD, List.getElem?_append_right (by simp [List.length_take])]
  simp [List.length_take, Nat.min_eq_left hi]

theorem rd_insertAt_skip (v : List ℚ) (i k : Nat) (a : ℚ) (hi : i ≤ v.length) :
    rd (insertAt v i a) (skipIdx i k) = rd v k := by
  unfold rd insertAt skipIdx
  rw [List.getD_eq_getElem?_getD, List.getD_eq_getElem?_getD]
  by_cases hk : k < i
  · rw [if_pos hk, List.getElem?_append_left (by simp [List.length_take]; omega),
      List.getElem?_take_of_lt hk]
  · rw [if_neg hk, List.getElem?_append_right (by simp [List.length_take]; omega)]
    have e : k + 1 - (List.take i v).length = (k - i) + 1 := by
      simp only [List.length_take, Nat.min_eq_left hi]
      omega
    rw [e, List.getElem?_cons_succ, List.getElem?_drop]
    congr 2
    omega

/-- The scan of lines 217-223 stops at the first of the smallest entries. -/
theorem argMin_first (x : List ℚ) (n : Nat) :
    ∀ i, i < (argMin x n).1 → (argMin x n).2 < rd x i := by
  have key := forUp_inv
    (fun k (st : Nat × ℚ) => (∀ i, i ≤ k → st.2 ≤ rd x i) ∧ ∀ i, i < st.1 → st.2 < rd x i)
    (fun k (st : Nat × ℚ) => if rd x (k + 1) < st.2 then (k + 1, rd x (k + 1)) else st)
    (n - 1) (0, rd x 0)
    ⟨fun i hi => by
      have : i = 0 := by omega
      subst this; exact le_rfl, fun i hi => absurd hi (Nat.not_lt_zero _)⟩
    (by
      intro k st _ ⟨h1, h2⟩
      beta_reduce
      by_cases h : rd x (k + 1) < st.2
      · rw [if_pos h]
        refine ⟨?_, ?_⟩
        · intro i hi
          by_cases hik : i = k + 1
          · subst hik; exact le_rfl
          · exact le_trans (le_of_lt h) (h1 i (by omega))
        · intro i hi
          exact lt_of_lt_of_le h (h1 i (by simpa using Nat.lt_succ_iff.mp hi))
      · rw [if_neg h]
        refine ⟨?_, h2⟩
        intro i hi
        by_cases hik : i = k + 1
        · subst hik; exact not_lt.mp h
        · exact h1 i (by omega))
  exact key.2

/-! ## C28 -/

/-- C28. Elimination step of `strongQuadraticOpt`: let `w` be the result of
`weakQuadraticOpt(Q, b, Cn)` and `m` the first index at which `w` is
smallest.  If `w[m] ≥ 0` the result is `w`.  Otherwise `n ≥ 2`, and with `Qr`
the matrix `Q` without row and column `m` and `br` the vector `b` without
entry `m`, an error of `strongQuadraticOpt(Qr, br, Cn)` is passed on and a
result `r2` of it gives the result that has `0` at index `m` and the entries
of `r2`, in order, at the other `n - 1` indices. -/
theorem strong_elimination_step (n : Nat) (Q b w : List ℚ) (Cn : ℚ) (hn : 1 ≤ n)
    (hQ : Q.length = n * n) (hb : b.length = n)
    (hw : weakQuadraticOpt Q b Cn = Except.ok w) :
    (argMin w n).1 < n ∧
    (∀ i, i < n → rd w (argMin w n).1 ≤ rd w i) ∧
    (∀ i, i < (argMin w n).1 → rd w (argMin w n).1 < rd w i) ∧
    (0 ≤ rd w (argMin w n).1 → strongQuadraticOpt Q b Cn = Except.ok w) ∧
    (rd w (argMin w n).1 < 0 →
      2 ≤ n ∧
      (dropRowCol Q b n (argMin w n).1).1.length = (n - 1) * (n - 1) ∧
      (dropRowCol Q b n (argMin w n).1).2.length = n - 1 ∧
      (∀ a c, a < n - 1 → c < n - 1 →
        rd (dropRowCol Q b n (argMin w n).1).1 (a * (n - 1) + c)
          = rd Q (skipIdx (argMin w n).1 a * n + skipIdx (argMin w n).1 c)) ∧
      (∀ a, a < n - 1 →
        rd (dropRowCol Q b n (argMin w n).1).2 a = rd b (skipIdx (argMin w n).1 a)) ∧
      (∀ e, strongQuadraticOpt (dropRowCol Q b n (argMin w n).1).1
            (dropRowCol Q b n (argMin w n).1).2 Cn = Except.error e →
        strongQuadraticOpt Q b Cn = Except.error e) ∧
      (∀ r2, strongQuadraticOpt (dropRowCol Q b n (argMin w n).1).1
            (dropRowCol Q b n (argMin w n).1).2 Cn = Except.ok r2 →
        strongQuadraticOpt Q b Cn = Except.ok (insertAt r2 (argMin w n).1 0) ∧
        r2.length = n - 1 ∧
        (insertAt r2 (argMin w n).1 0).length = n ∧
        rd (insertAt r2 (argMin w n).1 0) (argMin w n).1 = 0 ∧
        ∀ a, a < n - 1 →
          rd (insertAt r2 (argMin w n).1 0) (skipIdx (argMin w n).1 a) = rd r2 a)) := by
  obtain ⟨ham1, ham2, ham3⟩ := argMin_spec w n (by omega)
  have hfirst := argMin_first w n
  rw [ham2] at ham3 hfirst
  obtain ⟨m0, rfl⟩ : ∃ m0, n = m0 + 1 := ⟨n - 1, by omega⟩
  have hstrong : strongQuadraticOpt Q b Cn
      = if (argMin w (m0 + 1)).2 ≥ 0 then Except.ok w
        else
          match strongQuadraticOptN m0 (dropRowCol Q b (m0 + 1) (argMin w (m0 + 1)).1).1
              (dropRowCol Q b (m0 + 1) (argMin w (m0 + 1)).1).2 Cn with
          | Except.error e => Except.error e
          | Except.ok x2 => Except.ok (insertAt x2 (argMin w (m0 + 1)).1 0) := by
    unfold strongQuadraticOpt
    rw [hb]
    conv_lhs => unfold strongQuadraticOptN
    dsimp only
    rw [hw]
  refine ⟨ham1, ham3, hfirst, ?_, ?_⟩
  · intro h0
    rw [hstrong, if_pos (by rw [ham2]; exact h0)]
  · intro hneg
    have hn2 : 2 ≤ m0 + 1 := by
      by_contra hlt
      have hm0 : m0 = 0 := by omega
      subst hm0
      obtain ⟨v, hv, hv0⟩ := weak_one_nonneg Q b w Cn (by simpa using hQ) hw
      have h0 : (argMin w (0 + 1)).1 = 0 := by omega
      rw [h0, hv] at hneg
      have : rd [v] 0 = v := rfl
      rw [this] at hneg
      linarith
    obtain ⟨d1, d2, d3, d4⟩ := dropRowCol_spec Q b (m0 + 1) (argMin w (m0 + 1)).1 ham1
    have hsub : strongQuadraticOpt (dropRowCol Q b (m0 + 1) (argMin w (m0 + 1)).1).1
          (dropRowCol Q b (m0 + 1) (argMin w (m0 + 1)).1).2 Cn
        = strongQuadraticOptN m0 (dropRowCol Q b (m0 + 1) (argMin w (m0 + 1)).1).1
          (dropRowCol Q b (m0 + 1) (argMin w (m0 + 1)).1).2 Cn := by
      unfold strongQuadraticOpt
      rw [d2]
      rfl
    have hnot : ¬ (argMin w (m0 + 1)).2 ≥ 0 := by
      rw [ham2]
      exact not_le.mpr hneg
    refine ⟨hn2, d1, d2, d3, d4, ?_, ?_⟩
    · intro e he
      rw [hsub] at he
      rw [hstrong, if_neg hnot, he]
    · intro r2 hr2
      rw [hsub] at hr2
      have hlen : r2.length = m0 := by
        have := (strongN_result Cn m0 _ _ r2 (by omega) (by simpa using d1) (by simpa using d2)
          hr2).1
        exact this
      refine ⟨by rw [hstrong, if_neg hnot, hr2], by simpa using hlen, ?_, ?_, ?_⟩
      · rw [length_insertAt, hlen]
      · exact rd_insertAt_at r2 _ 0 (by rw [hlen]; omega)
      · intro a _
        exact rd_insertAt_skip r2 _ a 0 (by rw [hlen]; omega)

/-- C28, witness: `Q = [[1,-1,-1],[-1,2,0],[-1,0,3]]`, `b = [0,-1,1]`,
`Cn = 10`, where the weak result is `[-1, -1, 0]`, `m = 0`, and the reduced
system `[[2,0],[0,3]]`, `[-1, 1]` has the result `[0, 1/3]`. -/
theorem strong_elimination_step_witness :
    weakQuadraticOpt [1, -1, -1, -1, 2, 0, -1, 0, 3] [0, -1, 1] 10 = Except.ok [-1, -1, 0] ∧
    (argMin [-1, -1, 0] 3).1 = 0 ∧
    dropRowCol [1, -1, -1, -1, 2, 0, -1, 0, 3] [0, -1, 1] 3 0 = ([2, 0, 0, 3], [-1, 1]) ∧
    strongQuadraticOpt [2, 0, 0, 3] [-1, 1] 10 = Except.ok [0, 1 / 3] ∧
    strongQuadraticOpt [1, -1, -1, -1, 2, 0, -1, 0, 3] [0, -1, 1] 10
      = Except.ok (insertAt [0, 1 / 3] (argMin [-1, -1, 0] 3).1 0) :=
  have h := strong_elimination_step 3 [1, -1, -1, -1, 2, 0, -1, 0, 3] [0, -1, 1] [-1, -1, 0] 10
    (by decide) rfl rfl (by decide!)
  ⟨by decide!, by decide!, by decide!, by decide!,
    ((h.2.2.2.2 (by decide!)).2.2.2.2.2.2 [0, 1 / 3] (by decide!)).1⟩

/-! ## Divisors of the factorisation -/

/-- A loop whose body may leave it: either it runs to its end and the
invariant holds, or it is left in a round that was entered with the
invariant. -/
theorem forUpM_cases {ε σ : Type} (P : Nat → σ → Prop) (body : Nat → σ → Except ε σ)
    (k : Nat) (s : σ) (h0 : P 0 s)
    (hstep : ∀ i t t1, i < k → P i t → body i t = Except.ok t1 → P (i + 1) t1) :
    (∃ t, forUpM body k s = Except.ok t ∧ P k t) ∨
    (∃ j t e, j < k ∧ P j t ∧ body j t = Except.error e ∧ forUpM body k s = Except.error e) := by
  induction k with
  | zero => exact Or.inl ⟨s, rfl, h0⟩
  | succ k ih =>
    rw [forUpM_succ]
    rcases ih (fun i t t1 hi => hstep i t t1 (Nat.lt_succ_of_lt hi)) with
      ⟨t, ht, hP⟩ | ⟨j, t, e, hj, hP, hb, he⟩
    · rw [ht]
      dsimp only
      cases hbody : body k t with
      | ok t1 => exact Or.inl ⟨t1, rfl, hstep k t t1 (Nat.lt_succ_self k) hP hbody⟩
      | error e => exact Or.inr ⟨k, t, e, Nat.lt_succ_self k, hP, hbody, rfl⟩
    · rw [he]
      exact Or.inr ⟨j, t, e, Nat.lt_succ_of_lt hj, hP, hb, rfl⟩

/-- With `Q[0,0] ≠ 0` the factorisation loop divides by no zero: it either
runs to its end, with every pivot different from zero, or it is left at a row
whose pivot is zero. -/
theorem cholFactor_nonzero (Q : List ℚ) (n : Nat) (hn : 0 < n) (h0 : rd Q 0 ≠ 0) :
    (∃ L D, cholFactor Q n = Except.ok (L, D) ∧ FactInv Q n (n - 1) L D ∧
      ∀ i, i < n → rd D i ≠ 0) ∨
    ∃ i, cholFactor Q n = Except.error (CholExit.singular i) := by
  have hnn : 0 < n * n := Nat.mul_pos hn hn
  have key := forUpM_cases
    (fun k (st : List ℚ × List ℚ) => k < n ∧ FactInv Q n k st.1 st.2 ∧
      ∀ i, i ≤ k → rd st.2 i ≠ 0)
    (fun k (st : List ℚ × List ℚ) =>
      match cholRow Q n (k + 1) st with
      | Except.error _ => Except.error CholExit.divZero
      | Except.ok st =>
        if rd st.2 (k + 1) = 0 then Except.error (CholExit.singular (k + 1)) else Except.ok st)
    (n - 1) ((List.replicate (n * n) 0).set 0 1, (List.replicate n 0).set 0 (rd Q 0))
    (by
      have hd0 : rd ((List.replicate n 0).set 0 (rd Q 0)) 0 = rd Q 0 := by
        simpa using rd_set_eq (List.replicate n 0) 0 (rd Q 0) (by simpa using hn)
      refine ⟨hn, ⟨by simp, by simp, ?_, ?_, ?_⟩, ?_⟩
      · intro i hi
        have : i = 0 := by omega
        subst this
        simpa using rd_set_eq (List.replicate (n * n) 0) 0 1 (by simpa using hnn)
      · intro i j hi hj; omega
      · intro i hi
        have : i = 0 := by omega
        subst this
        simpa using hd0
      · intro i hi
        have : i = 0 := by omega
        subst this
        show rd ((List.replicate n 0).set 0 (rd Q 0)) 0 ≠ 0
        rw [hd0]
        exact h0)
    (by
      intro k st st1 hk ⟨_, hinv, hnz⟩ hbody
      obtain ⟨L1, D1, hrow, hinv1, hkeep⟩ := cholRow_ok Q st.1 st.2 n (k + 1) (by omega)
        (by omega) (by simpa using hinv) (fun j hj => hnz j (by omega))
      have hrow2 : cholRow Q n (k + 1) st = Except.ok (L1, D1) := hrow
      simp only [hrow2] at hbody
      by_cases hz : rd D1 (k + 1) = 0
      · rw [if_pos hz] at hbody
        cases hbody
      · rw [if_neg hz] at hbody
        simp only [Except.ok.injEq] at hbody
        subst hbody
        refine ⟨by omega, hinv1, ?_⟩
        intro i hi
        by_cases h : i = k + 1
        · subst h; exact hz
        · show rd D1 i ≠ 0
          rw [hkeep i (by omega)]
          exact hnz i (by omega))
  rcases key with ⟨st, hst, _, hinv, hnz⟩ | ⟨j, st, e, hj, ⟨_, hinv, hnz⟩, hbody, herr⟩
  · left
    exact ⟨st.1, st.2, hst, hinv, fun i hi => hnz i (by omega)⟩
  · right
    obtain ⟨L1, D1, hrow, hinv1, hkeep⟩ := cholRow_ok Q st.1 st.2 n (j + 1) (by omega)
      (by omega) (by simpa using hinv) (fun a ha => hnz a (by omega))
    have hrow2 : cholRow Q n (j + 1) st = Except.ok (L1, D1) := hrow
    simp only [hrow2] at hbody
    by_cases hz : rd D1 (j + 1) = 0
    · rw [if_pos hz] at hbody
      simp only [Except.error.injEq] at hbody
      refine ⟨j + 1, ?_⟩
      rw [hbody]
      exact herr
    · rw [if_neg hz] at hbody
      cases hbody

/-- With every pivot different from zero the two substitutions divide by no
zero. -/
theorem backSubst_nonzero (Q L D c : List ℚ) (n : Nat) (hn : 0 < n) (hc : c.length = n)
    (hinv : FactInv Q n (n - 1) L D) (hD : ∀ i, i < n → rd D i ≠ 0) :
    (∀ i, i < n → rd (mkLD L D n) (i * n + i) = rd D i) ∧
    ∃ x, backSubst L (mkLD L D n) c = Except.ok x := by
  have hdiag : ∀ i, i < n → rd (mkLD L D n) (i * n + i) = rd D i := by
    intro i hi
    rw [(mkLD_spec L D n).2 i i hi le_rfl, hinv.2.2.1 i (by omega), one_mul]
  refine ⟨hdiag, ?_⟩
  obtain ⟨y, hy, _, _⟩ := forwardSubst_ok (mkLD L D n) c n hn hc
    (fun i hi => by rw [hdiag i hi]; exact hD i hi)
  refine ⟨backwardSubst L y c.length, ?_⟩
  unfold backSubst
  rw [hy]

theorem solveCholeskyN_safe (n : Nat) :
    ∀ (Q b : List ℚ), 0 < n → b.length = n → rd Q 0 ≠ 0 →
      ∃ x y, solveCholeskyN n Q b = Except.ok (x, y) := by
  induction n with
  | zero => intro Q b hn; omega
  | succ m ih =>
    intro Q b hn hb h0
    rcases cholFactor_nonzero Q (m + 1) hn h0 with ⟨L, D, hf, hinv, hD⟩ | ⟨i, hf⟩
    · obtain ⟨_, x, hx⟩ := backSubst_nonzero Q L D b (m + 1) hn hb hinv hD
      obtain ⟨_, y, hy⟩ := backSubst_nonzero Q L D (List.replicate (m + 1) 1) (m + 1) hn
        (by simp) hinv hD
      refine ⟨x, y, ?_⟩
      unfold solveCholeskyN
      simp only [hf, hx, hy]
    · obtain ⟨hi1, hi2⟩ := cholFactor_singular_range Q (m + 1) i hf
      obtain ⟨_, d2, d3, _⟩ := dropRowCol_spec Q b (m + 1) i hi2
      have hq0 : rd (dropRowCol Q b (m + 1) i).1 0 = rd Q 0 := by
        have := d3 0 0 (by omega) (by omega)
        have hpos : 0 < i := hi1
        simpa [skipIdx, hpos] using this
      obtain ⟨xr, yr, hr⟩ := ih (dropRowCol Q b (m + 1) i).1 (dropRowCol Q b (m + 1) i).2
        (by omega) (by simpa using d2) (by rw [hq0]; exact h0)
      refine ⟨insertAt xr i 0, insertAt yr i 0, ?_⟩
      unfold solveCholeskyN
      simp only [hf, hr]

/-! ## C29 -/

/-- C29. Division safety of the factorizer: for `n ≥ 1`, an `n`-by-`n` matrix
`Q` with `Q[0,0] ≠ 0` and `b` of length `n`, `solveCholesky` returns a pair of
vectors, that is, neither it nor its recursive calls nor the calls of
`backSubst` reach a division by zero.  When the factorisation loop runs to its
end every pivot `D[j]` and every `LD[i,i]` is different from zero and both
calls of `backSubst` return; when it is left at a zero pivot, this is at a row
`i ≥ 1`, and the reduced system, which keeps `Q[0,0]`, is solved without a
division by zero as well. -/
theorem solveCholesky_division_safe (n : Nat) (Q b : List ℚ) (hn : 1 ≤ n)
    (_hQ : Q.length = n * n) (hb : b.length = n) (h0 : rd Q 0 ≠ 0) :
    (∃ x y, solveCholesky Q b = Except.ok (x, y)) ∧
    solveCholesky Q b ≠ Except.error Err.divZero ∧
    cholFactor Q n ≠ Except.error CholExit.divZero ∧
    (∀ L D, cholFactor Q n = Except.ok (L, D) →
      (∀ j, j < n → rd D j ≠ 0) ∧
      (∀ i, i < n → rd (mkLD L D n) (i * n + i) ≠ 0) ∧
      (∃ x, backSubst L (mkLD L D n) b = Except.ok x) ∧
      (∃ y, backSubst L (mkLD L D n) (List.replicate n 1) = Except.ok y)) ∧
    (∀ i, cholFactor Q n = Except.error (CholExit.singular i) →
      1 ≤ i ∧ i < n ∧ rd (dropRowCol Q b n i).1 0 = rd Q 0 ∧
      ∃ xr yr, solveCholesky (dropRowCol Q b n i).1 (dropRowCol Q b n i).2
        = Except.ok (xr, yr)) := by
  have hsafe : ∃ x y, solveCholesky Q b = Except.ok (x, y) := by
    unfold solveCholesky
    rw [hb]
    exact solveCholeskyN_safe n Q b hn hb h0
  refine ⟨hsafe, ?_, ?_, ?_, ?_⟩
  · obtain ⟨x, y, h⟩ := hsafe
    rw [h]
    intro hc
    cases hc
  · rcases cholFactor_nonzero Q n hn h0 with ⟨L, D, hf, _, _⟩ | ⟨i, hf⟩
    · rw [hf]; intro hc; cases hc
    · rw [hf]; intro hc; cases hc
  · intro L D hf
    rcases cholFactor_nonzero Q n hn h0 with ⟨L1, D1, hf1, hinv, hD⟩ | ⟨i, hf1⟩
    · rw [hf] at hf1
      simp only [Except.ok.injEq, Prod.mk.injEq] at hf1
      obtain ⟨e1, e2⟩ := hf1
      subst e1
      subst e2
      obtain ⟨hdiag, hx⟩ := backSubst_nonzero Q L D b n hn hb hinv hD
      obtain ⟨_, hy⟩ := backSubst_nonzero Q L D (List.replicate n 1) n hn (by simp) hinv hD
      exact ⟨hD, fun i hi => by rw [hdiag i hi]; exact hD i hi, hx, hy⟩
    · rw [hf] at hf1
      cases hf1
  · intro i hf
    obtain ⟨hi1, hi2⟩ := cholFactor_singular_range Q n i hf
    obtain ⟨_, d2, d3, _⟩ := dropRowCol_spec Q b n i hi2
    have hq0 : rd (dropRowCol Q b n i).1 0 = rd Q 0 := by
      have := d3 0 0 (by omega) (by omega)
      have hpos : 0 < i := hi1
      simpa [skipIdx, hpos] using this
    refine ⟨hi1, hi2, hq0, ?_⟩
    unfold solveCholesky
    rw [d2]
    exact solveCholeskyN_safe (n - 1) _ _ (by omega) d2 (by rw [hq0]; exact h0)

/-- C29, witness: the singular matrix `[[1,1,0],[1,1,0],[0,0,2]]` with
`b = [1,1,4]`: the pivot of row `1` is zero, the reduced system is
`[[1,0],[0,2]]`, `[1,4]`, and the result is `x = [1,0,2]`, `y = [1,0,1/2]`. -/
theorem solveCholesky_division_safe_witness :
    cholFactor [1, 1, 0, 1, 1, 0, 0, 0, 2] 3 = Except.error (CholExit.singular 1) ∧
    solveCholesky [1, 1, 0, 1, 1, 0, 0, 0, 2] [1, 1, 4]
      = Except.ok ([1, 0, 2], [1, 0, 1 / 2]) ∧
    (∃ x y, solveCholesky [1, 1, 0, 1, 1, 0, 0, 0, 2] [1, 1, 4] = Except.ok (x, y)) ∧
    solveCholesky [1, 1, 0, 1, 1, 0, 0, 0, 2] [1, 1, 4] ≠ Except.error Err.divZero :=
  have h := solveCholesky_division_safe 3 [1, 1, 0, 1, 1, 0, 0, 0, 2] [1, 1, 4]
    (by decide) rfl rfl (by decide!)
  ⟨by decide!, by decide!, h.1, h.2.1⟩

/-! ## C30 -/

/-- C30. When some index is eligible, the local `xmax` of `pickVars` is the
lowest eligible index with the largest gradient and the local `xmin` the
highest eligible index with the smallest gradient.  With two different
eligible indices the two indices returned are these two, non-negative and
different from each other.  The result never has a negative first component
with a non-negative second one, and whenever the single-direction branch of
`quadOptBox` is taken it updates the coordinate `violPair.first`. -/
theorem pickVars_tie_break (Q b x : List ℚ) (C eps : ℚ) :
    ((∃ i, i < b.length ∧ Elig Q b x C i) →
      ∃ imax imin : Nat, imax < b.length ∧ imin < b.length ∧
        (pickLocals Q b x C).xmax = (imax : Int) ∧ (pickLocals Q b x C).xmin = (imin : Int) ∧
        Elig Q b x C imax ∧ Elig Q b x C imin ∧
        (∀ a, a < b.length → Elig Q b x C a →
          gradAt Q b x b.length a ≤ gradAt Q b x b.length imax ∧
          (gradAt Q b x b.length a = gradAt Q b x b.length imax → imax ≤ a)) ∧
        (∀ a, a < b.length → Elig Q b x C a →
          gradAt Q b x b.length imin ≤ gradAt Q b x b.length a ∧
          (gradAt Q b x b.length a = gradAt Q b x b.length imin → a ≤ imin))) ∧
    ((∃ i j, i < b.length ∧ j < b.length ∧ i ≠ j ∧ Elig Q b x C i ∧ Elig Q b x C j) →
      (pickVars Q b x C).1 = (pickLocals Q b x C).xmin ∧
      (pickVars Q b x C).2 = (pickLocals Q b x C).xmax ∧
      0 ≤ (pickVars Q b x C).1 ∧ 0 ≤ (pickVars Q b x C).2 ∧
      (pickVars Q b x C).1 ≠ (pickVars Q b x C).2) ∧
    ((pickVars Q b x C).1 < 0 → (pickVars Q b x C).2 = -1) ∧
    (¬ ((pickVars Q b x C).1 < 0 ∧ (pickVars Q b x C).2 < 0) →
      ((pickVars Q b x C).1 < 0 ∨ (pickVars Q b x C).2 < 0) →
      0 ≤ (pickVars Q b x C).1 ∧ (pickVars Q b x C).2 = -1 ∧
      boxStep Q b x C eps b.length
        = match boxSingle Q b x C eps b.length (pickVars Q b x C).1.toNat with
          | Except.error e => Except.error e
          | Except.ok r => Except.ok (r.1, if r.2 then some BoxExit.smallStep else none)) := by
  have hshape : (pickVars Q b x C).1 < 0 → (pickVars Q b x C).2 = -1 := by
    intro h
    rcases pickVars_cases Q b x C with ⟨_, hp⟩ | ⟨i0, _, _, _, hp⟩ | ⟨imin, imax, _, _, _, hp, _⟩
    · rw [hp]
    · rw [hp]
    · rw [hp] at h
      simp only at h
      omega
  refine ⟨?_, ?_, hshape, ?_⟩
  · rintro ⟨i, hi, hei⟩
    rcases pickLocals_spec Q b x C with
      ⟨hnone, _⟩ | ⟨imax, imin, hmax, hmin, hxmax, hxmin, emax, emin, h1, h2, h3, h4⟩
    · exact absurd hei (hnone i hi)
    · refine ⟨imax, imin, hmax, hmin, hxmax, hxmin, emax, emin, ?_, ?_⟩
      · intro a ha hea
        refine ⟨h1 a ha hea, fun heq => ?_⟩
        by_contra hlt
        have := h2 a (by omega) hea
        linarith
      · intro a ha hea
        refine ⟨h3 a ha hea, fun heq => ?_⟩
        by_contra hlt
        have := h4 a (by omega) ha hea
        linarith
  · rintro ⟨i, j, hi, hj, hij, hei, hej⟩
    rcases pickVars_cases Q b x C with ⟨hnone, hp⟩ | ⟨i0, hi0, hei0, honly, hp⟩ |
      ⟨imin, imax, hmin, hmax, hne, hp, emin, emax, hext⟩
    · exact absurd hei (hnone i hi)
    · exact absurd ((honly i hi hei).trans (honly j hj hej).symm) hij
    · have h2 : (pickVars Q b x C).2 = (pickLocals Q b x C).xmax := by
        have e := pickVars_eq Q b x C
        rw [hp] at e
        have e1 := congrArg Prod.fst e
        have e2 := congrArg Prod.snd e
        simp only at e1 e2
        rw [hp]
        simp only
        by_cases hc : (pickLocals Q b x C).xmin = (pickLocals Q b x C).xmax
        · rw [if_pos hc] at e2
          omega
        · rw [if_neg hc] at e2
          exact e2
      refine ⟨rfl, h2, ?_, ?_, ?_⟩
      · rw [hp]; simp only; omega
      · rw [hp]; simp only; omega
      · rw [hp]; simp only
        intro h
        exact hne (Int.ofNat.inj h)
  · intro hn1 hn2
    have h2 : (pickVars Q b x C).2 = -1 := by
      rcases hn2 with h | h
      · exact hshape h
      · rcases pickVars_cases Q b x C with ⟨_, hp⟩ | ⟨i0, _, _, _, hp⟩ |
          ⟨imin, imax, _, _, _, hp, _⟩
        · rw [hp]
        · rw [hp]
        · rw [hp] at h
          simp only at h
          omega
    have h1 : 0 ≤ (pickVars Q b x C).1 := by
      by_contra hlt
      exact hn1 ⟨by omega, by omega⟩
    refine ⟨h1, h2, ?_⟩
    unfold boxStep
    dsimp only
    rw [if_neg hn1, if_pos hn2, if_pos (by omega)]

/-- C30, witness: `Q = diag(4, 4, 4)`, `b = [4, 4, 4]`, `x = [0, 0, 0]` and
`C = 10`, where the three eligible indices have the same gradient: the
locals are `xmax = 0` and `xmin = 2`, and the pair returned is `(2, 0)`. -/
theorem pickVars_tie_break_witness :
    (pickLocals [4, 0, 0, 0, 4, 0, 0, 0, 4] [4, 4, 4] [0, 0, 0] 10).xmax = 0 ∧
    (pickLocals [4, 0, 0, 0, 4, 0, 0, 0, 4] [4, 4, 4] [0, 0, 0] 10).xmin = 2 ∧
    pickVars [4, 0, 0, 0, 4, 0, 0, 0, 4] [4, 4, 4] [0, 0, 0] 10 = (2, 0) ∧
    (pickVars [4, 0, 0, 0, 4, 0, 0, 0, 4] [4, 4, 4] [0, 0, 0] 10).1
      = (pickLocals [4, 0, 0, 0, 4, 0, 0, 0, 4] [4, 4, 4] [0, 0, 0] 10).xmin ∧
    (pickVars [4, 0, 0, 0, 4, 0, 0, 0, 4] [4, 4, 4] [0, 0, 0] 10).2
      = (pickLocals [4, 0, 0, 0, 4, 0, 0, 0, 4] [4, 4, 4] [0, 0, 0] 10).xmax ∧
    0 ≤ (pickVars [4, 0, 0, 0, 4, 0, 0, 0, 4] [4, 4, 4] [0, 0, 0] 10).1 ∧
    0 ≤ (pickVars [4, 0, 0, 0, 4, 0, 0, 0, 4] [4, 4, 4] [0, 0, 0] 10).2 ∧
    (pickVars [4, 0, 0, 0, 4, 0, 0, 0, 4] [4, 4, 4] [0, 0, 0] 10).1
      ≠ (pickVars [4, 0, 0, 0, 4, 0, 0, 0, 4] [4, 4, 4] [0, 0, 0] 10).2 :=
  ⟨by decide!, by decide!, by decide!,
    (pickVars_tie_break [4, 0, 0, 0, 4, 0, 0, 0, 4] [4, 4, 4] [0, 0, 0] 10 (1 / 100)).2.1
      ⟨0, 1, by decide, by decide, by decide, elig_diag_three 0 (by decide),
        elig_diag_three 1 (by decide)⟩⟩

end Strut
